import Mathlib

/-
Verification of the ryushin data-structure library.

This file shallowly embeds the two core components of the repository —
the binary heap / priority queue (`priorityqueue`, comparator-based
`BinaryHeap` and the older sentinel-based `binaryHeap`) and the red-black
tree map (`treemap.TreeMap`) — as executable Lean definitions, and proves
the specified properties about them.

Conventions used throughout:
  * Go slices are modelled as `List α`; Go slice indexing `s[i]` is
    modelled with `l[i]?` matches (an out-of-bounds read in Go panics;
    the corresponding `none` branches return a `GoRes.panicked` result
    or are dead code in the call sites, as noted case by case).
  * Go `(T, error)` return pairs are modelled with `GoRes`.
  * Mutation of the receiver is modelled by explicit state passing: an
    operation on state `s` returns the new state (paired with its result).
  * Iterative pointer-walking loops of the Go source become recursive
    functions on an explicit fuel argument, so that every definition
    reduces by kernel computation; each call site instantiates the fuel
    with a bound that real executions can never exhaust (justified at the
    call site, and where a theorem needs it, proved).
-/

namespace Ryushin

/-- Result of a Go call returning `(T, error)`: a value with a nil error,
a zero/sentinel value together with a non-nil error message, or a runtime
panic (which in Go aborts instead of returning). -/
inductive GoRes (α : Type) where
  | ok : α → GoRes α
  | fail : α → String → GoRes α
  | panicked : String → GoRes α
deriving DecidableEq, Repr

namespace BinaryHeap

/- ---------------------------------------------------------------------
Model of `priorityqueue.BinaryHeap` (the comparator-based heap).
The heap state is its backing slice `data : List α` together with the
comparator `cmp : α → α → Bool`; the mutex is irrelevant to the
sequential semantics.  `zero : α` stands for Go's `var zero T`.
--------------------------------------------------------------------- -/

/-- `bh.swap(i, j)`: exchange the elements at indexes `i` and `j`.
For in-bounds indexes this is the double `set`; out of bounds Go would
panic, all call sites are in bounds. -/
def swap {α : Type} (data : List α) (i j : Nat) : List α :=
  match data[i]?, data[j]? with
  | some a, some b => (data.set i b).set j a
  | _, _ => data

/-- `bh.swim(k)`: move the element at index `k` up while it outranks its
parent under `cmp`.  Each iteration strictly decreases `k`, so the loop
runs at most `k` times; fuel `≥ k + 1` is never exhausted. -/
def swim {α : Type} (cmp : α → α → Bool) : Nat → List α → Nat → List α
  | 0, data, _ => data
  | fuel + 1, data, k =>
    if 0 < k then
      let parent := (k - 1) / 2
      match data[k]?, data[parent]? with
      | some xk, some xp =>
        if cmp xk xp then swim cmp fuel (swap data k parent) parent else data
      | _, _ => data
    else data

/-- `bh.Add(val)`: append, then sift the new last element up (the fuel
`length` of the extended slice exceeds the start index by one). -/
def Add {α : Type} (cmp : α → α → Bool) (data : List α) (val : α) : List α :=
  swim cmp (data ++ [val]).length (data ++ [val]) ((data ++ [val]).length - 1)

/-- The child-selection step of the sink loop in `removeAt`: starting from
left child index `c`, move to `c+1` when the right child exists and
outranks the left one. -/
def pickChild {α : Type} (cmp : α → α → Bool) (data : List α) (c : Nat) : Nat :=
  if c + 1 < data.length then
    match data[c + 1]?, data[c]? with
    | some a, some b => if cmp a b then c + 1 else c
    | _, _ => c
  else c

/-- The re-heapify loop of `bh.removeAt`: sift the element at index
`parent` down.  Each iteration strictly increases `parent`, so fuel
`≥ data.length - parent` is never exhausted. -/
def sink {α : Type} (cmp : α → α → Bool) : Nat → List α → Nat → List α
  | 0, data, _ => data
  | fuel + 1, data, parent =>
    if 2 * parent + 1 < data.length then
      let child := pickChild cmp data (2 * parent + 1)
      match data[child]?, data[parent]? with
      | some xc, some xp =>
        if cmp xc xp then sink cmp fuel (swap data child parent) child else data
      | _, _ => data
    else data

/-- `bh.removeAt(k)`: replace index `k` with the last element, shrink,
then sift index `k` down.  Only ever called with `k = 0` (from `Poll`). -/
def removeAt {α : Type} (cmp : α → α → Bool) (zero : α) (data : List α) (k : Nat) :
    GoRes α × List α :=
  if data.length = 0 then (.fail zero "heap empty", data)
  else
    match data[k]?, data[data.length - 1]? with
    | some removed, some last =>
        (.ok removed,
         sink cmp ((data.set k last).dropLast.length + 1)
           ((data.set k last).dropLast) k)
    | _, _ => (.panicked "index out of range", data)

/-- `bh.Peek()`: the root element, or an error on the empty heap. -/
def Peek {α : Type} (zero : α) (data : List α) : GoRes α :=
  match data with
  | [] => .fail zero "heap empty"
  | v :: _ => .ok v

/-- `bh.Poll()`: remove and return the root element. -/
def Poll {α : Type} (cmp : α → α → Bool) (zero : α) (data : List α) :
    GoRes α × List α :=
  if data.length = 0 then (.fail zero "heap empty", data)
  else removeAt cmp zero data 0

/-- `bh.Size()`. -/
def Size {α : Type} (data : List α) : Nat := data.length

/-- The value component of `v, _ := tempHeap.Poll()` in `Sort`: a Go
multiple-assignment keeps the value even when an error is returned.  The
`panicked` branch would abort the Go program; it is dead in `sortGo`
because `Poll` never panics. -/
def resVal {α : Type} (zero : α) : GoRes α → α
  | .ok v => v
  | .fail z _ => z
  | .panicked _ => zero

/-- The polling loop of `bh.Sort`: `size` iterations of `Poll` on the
temporary heap, accumulating the returned values. -/
def sortLoop {α : Type} (cmp : α → α → Bool) (zero : α) :
    Nat → List α → List α → List α
  | 0, _, acc => acc.reverse
  | n + 1, d, acc =>
    let r := Poll cmp zero d
    sortLoop cmp zero n r.2 (resVal zero r.1 :: acc)

/-- `bh.Sort()`: poll a copy of the backing slice to exhaustion; the
original heap state is returned unchanged (the Go method only mutates the
copy `tempHeap`). -/
def sortGo {α : Type} (cmp : α → α → Bool) (zero : α) (data : List α) :
    List α × List α :=
  (sortLoop cmp zero data.length data [], data)

/-- One parent/child pair of the heap property: the element at child index
`c` must not outrank the element at index `k` (vacuous when out of bounds). -/
def childOk {α : Type} (cmp : α → α → Bool) (data : List α) (k c : Nat) : Bool :=
  match data[c]?, data[k]? with
  | some xc, some xk => !cmp xc xk
  | _, _ => true

/-- The heap property of the spec: no child outranks its parent. -/
def heapPropB {α : Type} (cmp : α → α → Bool) (data : List α) : Bool :=
  (List.range data.length).all fun k =>
    childOk cmp data k (2 * k + 1) && childOk cmp data k (2 * k + 2)

end BinaryHeap

namespace LegacyHeap

/- ---------------------------------------------------------------------
Model of `priorityqueue.binaryHeap` (`binary_heap.go`), the older
sentinel-based min-heap.  Its empty-heap paths return `i.(T)` where
`i interface` holds the int `-1`: the type assertion yields `-1` when
`T = int` and panics at runtime otherwise.  The parameter
`sentinel : Option α` models that assertion: `some s` when `T` is int
(`s` being `-1`), `none` for every other element type.
`lt` models the natural order `<` of `T`.
--------------------------------------------------------------------- -/

/-- `bh.Peek()` of the legacy heap. -/
def Peek {α : Type} (sentinel : Option α) (data : List α) : GoRes α :=
  match data with
  | [] =>
    match sentinel with
    | some s => .fail s "heap empty"
    | none => .panicked "interface conversion: interface is int, not T"
  | v :: _ => .ok v

/-- The sink loop of the legacy `removeAt` (with its original quirks:
`child` starts at `2*(parent+1)`, the guard is `child < size-1`, and the
descent step is `child = 2*child`).  The loop makes progress only from
its real entry point (`parent = 0`, `child = 2`); `fuel` bounds the
iteration count and is instantiated with `data.length`, which the entry
point can never exhaust since `child` at least doubles each iteration. -/
def legacySink {α : Type} (lt : α → α → Bool) :
    Nat → List α → Nat → Nat → List α
  | 0, data, _, _ => data
  | fuel + 1, data, parent, child =>
    if child < data.length - 1 then
      let child :=
        match data[child + 1]?, data[child]? with
        | some a, some b => if lt a b then child + 1 else child
        | _, _ => child
      match data[child]?, data[parent]? with
      | some xc, some xp =>
        if lt xc xp then
          legacySink lt fuel (BinaryHeap.swap data child parent) child (2 * child)
        else data
      | _, _ => data
    else data

/-- `bh.removeAt(k)` of the legacy heap (note it writes the last element
to index `0`, not to index `k`). -/
def legacyRemoveAt {α : Type} (lt : α → α → Bool) (sentinel : Option α)
    (data : List α) (k : Nat) : GoRes α × List α :=
  match data with
  | [] =>
    match sentinel with
    | some s => (.fail s "heap empty", data)
    | none => (.panicked "interface conversion: interface is int, not T", data)
  | _ =>
    match data[k]?, data[data.length - 1]? with
    | some first, some last =>
      let d1 := data.set 0 last
      let d2 := if 0 < d1.length then d1.dropLast else d1
      (.ok first, legacySink lt d2.length d2 0 2)
    | _, _ => (.panicked "index out of range", data)

/-- `bh.Poll()` of the legacy heap. -/
def Poll {α : Type} (lt : α → α → Bool) (sentinel : Option α)
    (data : List α) : GoRes α × List α :=
  match data with
  | [] =>
    match sentinel with
    | some s => (.fail s "heap empty", data)
    | none => (.panicked "interface conversion: interface is int, not T", data)
  | _ => legacyRemoveAt lt sentinel data 0

end LegacyHeap

/-- The comparator is asymmetric (half of the strict-weak-ordering
requirement of the spec's edge-case policy). -/
def Asymm {α : Type} (cmp : α → α → Bool) : Prop :=
  ∀ a b, cmp a b = true → cmp b a = false

/-- The comparator is negatively transitive (the other half of a strict
weak ordering). -/
def NegTrans {α : Type} (cmp : α → α → Bool) : Prop :=
  ∀ a b c, cmp a c = true → cmp a b = true ∨ cmp b c = true

namespace BinaryHeap

/-- Propositional form of the heap property. -/
def heapProp {α : Type} (cmp : α → α → Bool) (l : List α) : Prop :=
  ∀ k c xc xk, (c = 2 * k + 1 ∨ c = 2 * k + 2) →
    l[c]? = some xc → l[k]? = some xk → cmp xc xk = false

def SwimInv1 {α : Type} (cmp : α → α → Bool) (data : List α) (k : Nat) : Prop :=
  ∀ p c xc xp, (c = 2 * p + 1 ∨ c = 2 * p + 2) → c ≠ k →
    data[c]? = some xc → data[p]? = some xp → cmp xc xp = false

def SwimInv2 {α : Type} (cmp : α → α → Bool) (data : List α) (k : Nat) : Prop :=
  ∀ c xc xg, (c = 2 * k + 1 ∨ c = 2 * k + 2) → 0 < k →
    data[c]? = some xc → data[(k - 1) / 2]? = some xg → cmp xc xg = false

def SinkInv1 {α : Type} (cmp : α → α → Bool) (data : List α) (j : Nat) : Prop :=
  ∀ p c xc xp, (c = 2 * p + 1 ∨ c = 2 * p + 2) → p ≠ j →
    data[c]? = some xc → data[p]? = some xp → cmp xc xp = false

def SinkBridge {α : Type} (cmp : α → α → Bool) (data : List α) (j : Nat) : Prop :=
  ∀ c xc xg, (c = 2 * j + 1 ∨ c = 2 * j + 2) → 0 < j →
    data[c]? = some xc → data[(j - 1) / 2]? = some xg → cmp xc xg = false

/-- An externally observable heap operation (`Add` or `Poll`). -/
inductive HeapOp (α : Type) where
  | add : α → HeapOp α
  | poll : HeapOp α

def applyHeapOp {α : Type} (cmp : α → α → Bool) (zero : α) (data : List α) :
    HeapOp α → List α
  | .add v => Add cmp data v
  | .poll => (Poll cmp zero data).2

/-- The heap state after a sequence of `Add`/`Poll` calls on an initially
empty `BinaryHeap`. -/
def runHeap {α : Type} (cmp : α → α → Bool) (zero : α)
    (ops : List (HeapOp α)) : List α :=
  ops.foldl (applyHeapOp cmp zero) []

/-- The sequence obtained by repeatedly calling `Poll` until the heap is
empty: `data.length` calls empty the heap since each successful `Poll`
removes exactly one element.  This is the polling loop of `Sort` run on
the copied slice. -/
def pollSeq {α : Type} (cmp : α → α → Bool) (zero : α) (data : List α) :
    List α :=
  sortLoop cmp zero data.length data []

end BinaryHeap

/-- The default comparator of `NewBinaryHeap` for `Int`:
`func(a, b T) bool { return a > b }` (natural-order max-heap). -/
def natGT : Int → Int → Bool := fun a b => a > b

/-- The heap built by `Add`ing 10,5,30,20,40,35,15 to an empty default
(max-order) heap. -/
def demoHeap : List Int :=
  BinaryHeap.runHeap natGT 0
    [.add 10, .add 5, .add 30, .add 20, .add 40, .add 35, .add 15]

/- ---------------------------------------------------------------------
Model of `treemap.TreeMap` (the red-black tree map).

Keys and values are `Int` (Go instantiates `K constraints.Ordered`,
`V any`; the test scenarios use ints; `var zero K/V` is `0`).  A
`*Node[K,V]` — nil or a node with `color`, `key`, `value`, `left`,
`right` — is represented by the inductive `RBTree`.  The non-owning
`parent` back-pointers, which the Go fixup loops walk, are represented
by zipper contexts: the chain of ancestors of a focused subtree,
innermost first (`List Ctx`), exactly the information the parent chain
provides.  `plug` rebuilds the full tree from a focus and its chain.
--------------------------------------------------------------------- -/

namespace TreeMap

inductive Color where
  | red : Color
  | black : Color
deriving DecidableEq, Repr

/-- A `*Node[K,V]`: nil, or a node with color, left, key, value, right. -/
inductive RBTree where
  | nil : RBTree
  | node : Color → RBTree → Int → Int → RBTree → RBTree
deriving DecidableEq, Repr

/-- `t.isRed(n)`: nil nodes count as Black. -/
def isRed : RBTree → Bool
  | .node .red _ _ _ _ => true
  | _ => false

/-- Repaint a node black (`n.color = Black`; no-op on nil, matching the
`if x != nil` guards of the source). -/
def blacken : RBTree → RBTree
  | .nil => .nil
  | .node _ l k v r => .node .black l k v r

/-- Repaint a node red (`sib.color = Red`; all call sites guard non-nil,
nil is kept as a defensive no-op). -/
def redden : RBTree → RBTree
  | .nil => .nil
  | .node _ l k v r => .node .red l k v r

inductive Dir where
  | left : Dir
  | right : Dir
deriving DecidableEq, Repr

/-- One link of the parent chain of a focused subtree: the parent's
color, key and value, the direction from the parent down to the focus,
and the sibling subtree on the other side. -/
structure Ctx where
  dir : Dir
  c : Color
  k : Int
  v : Int
  sib : RBTree
deriving DecidableEq, Repr

/-- Rebuild the parent node from the focused child. -/
def fill (t : RBTree) (cx : Ctx) : RBTree :=
  match cx.dir with
  | .left => .node cx.c t cx.k cx.v cx.sib
  | .right => .node cx.c cx.sib cx.k cx.v t

/-- Rebuild the whole tree from a focused subtree and its parent chain
(innermost context first). -/
def plug : RBTree → List Ctx → RBTree
  | t, [] => t
  | t, cx :: p => plug (fill t cx) p

/-- `insertBST` of treemap.go: BST descent linking a new red node at a
nil position; on an equal key the value is overwritten in place and the
flag records that `t.size--` ran (the caller `Put` increments size
unconditionally afterwards). -/
def insertBST : RBTree → Int → Int → RBTree × Bool
  | .nil, k, v => (.node .red .nil k v .nil, false)
  | .node c l key val r, k, v =>
    if k < key then
      let res := insertBST l k v
      (.node c res.1 key val r, res.2)
    else if key < k then
      let res := insertBST r k v
      (.node c l key val res.1, res.2)
    else
      (.node c l key v r, true)

/-- The descent of `insertBST` with the parent chain recorded: returns
the focused node (the freshly linked red node, or the updated existing
node), its parent chain (the `parent` pointers the Go code set during
the descent), and the overwrite flag. -/
def insertPath : RBTree → Int → Int → List Ctx → RBTree × List Ctx × Bool
  | .nil, k, v, acc => (.node .red .nil k v .nil, acc, false)
  | .node c l key val r, k, v, acc =>
    if k < key then insertPath l k v (⟨.left, c, key, val, r⟩ :: acc)
    else if key < k then insertPath r k v (⟨.right, c, key, val, l⟩ :: acc)
    else (.node c l key v r, acc, true)

/-- `fixInsert` on the zipper: the loop
`for n != t.root && t.isRed(n.parent)` followed by the final
`t.root.color = Black`.  One fuel unit is one loop iteration; case 1
(red uncle) pops two contexts, cases 2/3 (black uncle) rotate and leave
the focus under a black parent so the next check exits; `fuel ≥
path.length + 1` is therefore never exhausted, and on exhaustion the
exit action (rebuild, blacken root) is taken, matching a loop break. -/
def fixInsertGo : Nat → RBTree → List Ctx → RBTree
  | 0, n, path => blacken (plug n path)
  | fuel + 1, n, path =>
    match path with
    | [] => blacken n
    | p :: rest =>
      match p.c with
      | .black => blacken (plug n (p :: rest))
      | .red =>
        match rest with
        | [] => blacken (plug n [p])
        | g :: rest2 =>
          match g.dir with
          | .left =>
            -- n.parent == g.left; uncle u := g.right = g.sib
            if isRed g.sib then
              -- Case 1: p, u black; g red; continue from g
              fixInsertGo fuel
                (.node .red (fill n ⟨p.dir, .black, p.k, p.v, p.sib⟩)
                  g.k g.v (blacken g.sib))
                rest2
            else
              match p.dir with
              | .right =>
                -- Case 2 (left-right): n = p; rotateLeft(n); then case 3
                match n with
                | .node nc nl nk nv nr =>
                  fixInsertGo fuel (.node p.c p.sib p.k p.v nl)
                    (⟨.left, .black, nk, nv,
                       .node .red nr g.k g.v g.sib⟩ :: rest2)
                | .nil => blacken (plug n (p :: g :: rest2))
              | .left =>
                -- Case 3 (left-left): p black, g red, rotateRight(g)
                fixInsertGo fuel n
                  (⟨.left, .black, p.k, p.v,
                     .node .red p.sib g.k g.v g.sib⟩ :: rest2)
          | .right =>
            -- n.parent == g.right; uncle u := g.left = g.sib
            if isRed g.sib then
              fixInsertGo fuel
                (.node .red (blacken g.sib) g.k g.v
                  (fill n ⟨p.dir, .black, p.k, p.v, p.sib⟩))
                rest2
            else
              match p.dir with
              | .left =>
                -- Case 2 (right-left): n = p; rotateRight(n); then case 3
                match n with
                | .node nc nl nk nv nr =>
                  fixInsertGo fuel (.node p.c nr p.k p.v p.sib)
                    (⟨.right, .black, nk, nv,
                       .node .red g.sib g.k g.v nl⟩ :: rest2)
                | .nil => blacken (plug n (p :: g :: rest2))
              | .right =>
                -- Case 3 (right-right): p black, g red, rotateLeft(g)
                fixInsertGo fuel n
                  (⟨.right, .black, p.k, p.v,
                     .node .red g.sib g.k g.v p.sib⟩ :: rest2)

/-- The `TreeMap[K,V]` state: root and size. -/
structure TM where
  root : RBTree
  size : Int
deriving DecidableEq, Repr

/-- `NewTreeMap()`. -/
def NewTreeMap : TM := ⟨.nil, 0⟩

/-- `Put`: create a red node, `insertBST` it, `fixInsert` from the new
node, `t.size++`.  When the key already existed, `insertBST` updated
the value in place and ran `t.size--` (net size change zero), and
`fixInsert` runs on the dangling `newNode` whose parent is nil — its
loop body never executes and only the final root-blackening runs. -/
def Put (t : TM) (key value : Int) : TM :=
  let res := insertPath t.root key value []
  if res.2.2 then
    { root := blacken (plug res.1 res.2.1), size := t.size - 1 + 1 }
  else
    { root := fixInsertGo (res.2.1.length + 1) res.1 res.2.1,
      size := t.size + 1 }

/-- The loop of `Get`: descend comparing keys. -/
def getLoop : RBTree → Int → Int × Bool
  | .nil, _ => (0, false)
  | .node _ l k v r, key =>
    if key = k then (v, true)
    else if key < k then getLoop l key
    else getLoop r key

/-- `Get(key) -> (value, found)`. -/
def Get (t : TM) (key : Int) : Int × Bool := getLoop t.root key

/-- `ContainsKey` is derived from `Get`. -/
def ContainsKey (t : TM) (key : Int) : Bool := (Get t key).2

/-- `Size()`. -/
def Size (t : TM) : Int := t.size

/-- `findNode`: the same descent as `Get`, returning the node. -/
def findNode : RBTree → Int → Option RBTree
  | .nil, _ => none
  | .node c l k v r, key =>
    if key = k then some (.node c l k v r)
    else if key < k then findNode l key
    else findNode r key

/-- `findNode` with the parent chain recorded (the Go code reaches the
node's ancestors through its parent pointers). -/
def findPath : RBTree → Int → List Ctx → Option (RBTree × List Ctx)
  | .nil, _, _ => none
  | .node c l k v r, key, acc =>
    if key = k then some (.node c l k v r, acc)
    else if key < k then findPath l key (⟨.left, c, k, v, r⟩ :: acc)
    else findPath r key (⟨.right, c, k, v, l⟩ :: acc)

/-- `minimum(n)` (with `transplant(y, y.right)` folded in): descend the
left spine recording contexts; returns the leftmost node's color, key,
value, its right child (the node `x` that takes its place), and the
recorded chain. -/
def delMin : RBTree → List Ctx → Option (Color × Int × Int × RBTree × List Ctx)
  | .nil, _ => none
  | .node c .nil k v r, acc => some (c, k, v, r, acc)
  | .node c (.node lc ll lk lv lr) k v r, acc =>
    delMin (.node lc ll lk lv lr) (⟨.left, c, k, v, r⟩ :: acc)

/-- Cases 2–4 of the left branch of the `fixDelete` loop body (the
sibling `p.sib` is black or nil here).  Returns the next loop state
`(x, parent chain)`; cases 3/4 finish by setting `x = t.root`,
represented as the rebuilt tree with an empty chain. -/
def fixDelCasesL (x : RBTree) (p : Ctx) (rest : List Ctx) :
    RBTree × List Ctx :=
  match p.sib with
  | .nil =>
    -- Case 2 with nil sibling: x = parent (no recolor)
    (.node p.c x p.k p.v .nil, rest)
  | .node sc sl sk sv sr =>
    if !isRed sl && !isRed sr then
      -- Case 2: sibling red; x = parent
      (.node p.c x p.k p.v (.node .red sl sk sv sr), rest)
    else
      -- Case 3 when the far (right) child is black: sl is red;
      -- sl.color = Black, sib.color = Red, rotateRight(sib)
      let s2 : RBTree :=
        if isRed sr then .node sc sl sk sv sr
        else
          match sl with
          | .node _ lll llk llv llr =>
            .node .black lll llk llv (.node .red llr sk sv sr)
          | .nil => .node sc sl sk sv sr
      -- Case 4: sib.color = parent.color; sib.right black;
      -- parent black; rotateLeft(parent); x = t.root
      match s2 with
      | .node _ sl2 sk2 sv2 sr2 =>
        (plug (.node p.c (.node .black x p.k p.v sl2) sk2 sv2 (blacken sr2))
          rest, [])
      | .nil => (.node p.c x p.k p.v .nil, rest)

/-- The left branch of one `fixDelete` iteration (`x == parent.left`):
case 1 (red sibling) recolors, rotates left at the parent and falls
through to cases 2–4 with the updated sibling. -/
def fixDelStepL (x : RBTree) (p : Ctx) (rest : List Ctx) :
    RBTree × List Ctx :=
  match p.sib with
  | .node .red sl sk sv sr =>
    fixDelCasesL x ⟨.left, .red, p.k, p.v, sl⟩
      (⟨.left, .black, sk, sv, sr⟩ :: rest)
  | _ => fixDelCasesL x p rest

/-- Cases 2–4 of the right branch (mirror image). -/
def fixDelCasesR (x : RBTree) (p : Ctx) (rest : List Ctx) :
    RBTree × List Ctx :=
  match p.sib with
  | .nil => (.node p.c .nil p.k p.v x, rest)
  | .node sc sl sk sv sr =>
    if !isRed sl && !isRed sr then
      (.node p.c (.node .red sl sk sv sr) p.k p.v x, rest)
    else
      -- Case 3 when the far (left) child is black: sr is red;
      -- sr.color = Black, sib.color = Red, rotateLeft(sib)
      let s2 : RBTree :=
        if isRed sl then .node sc sl sk sv sr
        else
          match sr with
          | .node _ rrl rrk rrv rrr =>
            .node .black (.node .red sl sk sv rrl) rrk rrv rrr
          | .nil => .node sc sl sk sv sr
      -- Case 4: sib.color = parent.color; sib.left black;
      -- parent black; rotateRight(parent); x = t.root
      match s2 with
      | .node _ sl2 sk2 sv2 sr2 =>
        (plug (.node p.c (blacken sl2) sk2 sv2 (.node .black sr2 p.k p.v x))
          rest, [])
      | .nil => (.node p.c .nil p.k p.v x, rest)

/-- The right branch of one `fixDelete` iteration (`x == parent.right`). -/
def fixDelStepR (x : RBTree) (p : Ctx) (rest : List Ctx) :
    RBTree × List Ctx :=
  match p.sib with
  | .node .red sl sk sv sr =>
    fixDelCasesR x ⟨.right, .red, p.k, p.v, sr⟩
      (⟨.right, .black, sk, sv, sl⟩ :: rest)
  | _ => fixDelCasesR x p rest

/-- `fixDelete` on the zipper: the loop
`for x != t.root && !t.isRed(x)` followed by `if x != nil, x.color =
Black`.  The Go test `x == parent.left` is, for non-nil `x`, exactly
`p.dir = .left`; for nil `x` it reads `parent.left == nil`, which also
holds in the degenerate case `dir = .right ∧ sib = .nil` — there both
children of the parent are nil and both branches compute the same
state.  One fuel unit per iteration; case 2 pops a context, case 1
followed by case 2 leaves a red focus (the next check exits), cases 3/4
continue from the root (the next check exits); `fuel ≥ path.length + 2`
is never exhausted, and exhaustion performs the exit action. -/
def fixDeleteGo : Nat → RBTree → List Ctx → RBTree
  | 0, x, path => plug (blacken x) path
  | fuel + 1, x, path =>
    match path with
    | [] => blacken x
    | p :: rest =>
      if isRed x then plug (blacken x) (p :: rest)
      else
        let st :=
          if p.dir = .left ∨ (x = .nil ∧ p.sib = .nil) then
            fixDelStepL x p rest
          else fixDelStepR x p rest
        fixDeleteGo fuel st.1 st.2

/-- `Remove(key) -> (value, found)`: CLRS transplant with the
double-black fixup when the physically removed node was black. -/
def Remove (t : TM) (key : Int) : (Int × Bool) × TM :=
  match findPath t.root key [] with
  | none => ((0, false), t)
  | some (z, pz) =>
    match z with
    | .nil => ((0, false), t)
    | .node zc zl zk zv zr =>
      if zl = .nil then
        let newRoot :=
          if zc = .black then fixDeleteGo (pz.length + 2) zr pz
          else plug zr pz
        ((zv, true), { root := newRoot, size := t.size - 1 })
      else if zr = .nil then
        let newRoot :=
          if zc = .black then fixDeleteGo (pz.length + 2) zl pz
          else plug zl pz
        ((zv, true), { root := newRoot, size := t.size - 1 })
      else
        match delMin zr [] with
        | none => ((zv, true), t)
        | some (yc, yk, yv, yr, spine) =>
          let path := spine ++ ⟨.right, zc, yk, yv, zl⟩ :: pz
          let newRoot :=
            if yc = .black then fixDeleteGo (path.length + 2) yr path
            else plug yr path
          ((zv, true), { root := newRoot, size := t.size - 1 })

/-- The key/value of the leftmost node (the `for n.left != nil` loops of
`FirstKey`/`Min`). -/
def leftmost : RBTree → Option (Int × Int)
  | .nil => none
  | .node _ .nil k v _ => some (k, v)
  | .node _ (.node lc ll lk lv lr) _ _ _ => leftmost (.node lc ll lk lv lr)

/-- The key/value of the rightmost node (`LastKey`/`Max`). -/
def rightmost : RBTree → Option (Int × Int)
  | .nil => none
  | .node _ _ k v .nil => some (k, v)
  | .node _ _ _ _ (.node rc rl rk rv rr) => rightmost (.node rc rl rk rv rr)

/-- `FirstKey() -> (key, found)`. -/
def FirstKey (t : TM) : Int × Bool :=
  match leftmost t.root with
  | none => (0, false)
  | some (k, _) => (k, true)

/-- `LastKey() -> (key, found)`. -/
def LastKey (t : TM) : Int × Bool :=
  match rightmost t.root with
  | none => (0, false)
  | some (k, _) => (k, true)

/-- `Min() -> (key, value)`: zero values on the empty tree, no flag. -/
def Min (t : TM) : Int × Int :=
  match leftmost t.root with
  | none => (0, 0)
  | some kv => kv

/-- `Max() -> (key, value)`: zero values on the empty tree, no flag. -/
def Max (t : TM) : Int × Int :=
  match rightmost t.root with
  | none => (0, 0)
  | some kv => kv

/-- The loop of `CeilingKey`: the candidate pointer tracks the best
`current > key` seen so far (only its key is ever read). -/
def ceilingLoop : RBTree → Int → Option Int → Int × Bool
  | .nil, _, candidate =>
    (match candidate with
     | none => (0, false)
     | some ck => (ck, true))
  | .node _ l k _ r, key, candidate =>
    if key = k then (k, true)
    else if key < k then ceilingLoop l key (some k)
    else ceilingLoop r key candidate

/-- `CeilingKey(key) -> (key, found)`: smallest key ≥ the given key. -/
def CeilingKey (t : TM) (key : Int) : Int × Bool :=
  ceilingLoop t.root key none

/-- The loop of `FloorKey` (mirror of `ceilingLoop`). -/
def floorLoop : RBTree → Int → Option Int → Int × Bool
  | .nil, _, candidate =>
    (match candidate with
     | none => (0, false)
     | some ck => (ck, true))
  | .node _ l k _ r, key, candidate =>
    if key = k then (k, true)
    else if key < k then floorLoop l key candidate
    else floorLoop r key (some k)

/-- `FloorKey(key) -> (key, found)`: largest key ≤ the given key. -/
def FloorKey (t : TM) (key : Int) : Int × Bool :=
  floorLoop t.root key none

/-- `inorder` (the recursion behind `Keys`): ascending key sequence. -/
def inorderKeys : RBTree → List Int
  | .nil => []
  | .node _ l k _ r => inorderKeys l ++ k :: inorderKeys r

/-- `Keys()`. -/
def Keys (t : TM) : List Int := inorderKeys t.root

/-- In-order key/value sequence (for specification purposes). -/
def inorderKV : RBTree → List (Int × Int)
  | .nil => []
  | .node _ l k v r => inorderKV l ++ (k, v) :: inorderKV r

/-- An externally observable map operation (`Put` or `Remove`). -/
inductive MapOp where
  | put : Int → Int → MapOp
  | remove : Int → MapOp

def applyMapOp (t : TM) : MapOp → TM
  | .put k v => Put t k v
  | .remove k => (Remove t k).2

/-- The map state after a sequence of `Put`/`Remove` calls on
`NewTreeMap()`. -/
def runMap (ops : List MapOp) : TM :=
  ops.foldl applyMapOp NewTreeMap

/- Red-black validity predicates (spec §3 / §8). -/

/-- (a) the root is Black. -/
def rootBlack : RBTree → Bool
  | .nil => true
  | .node c _ _ _ _ => c = .black

/-- (b) no Red node has a Red child. -/
def noRedRed : RBTree → Bool
  | .nil => true
  | .node c l _ _ r =>
    (match c with
     | .red => !isRed l && !isRed r
     | .black => true)
    && noRedRed l && noRedRed r

/-- (c) uniform black-height: `some h` when every root-to-nil path
passes through exactly `h` Black nodes, `none` otherwise. -/
def blackHeight : RBTree → Option Nat
  | .nil => some 0
  | .node c l _ _ r =>
    match blackHeight l, blackHeight r with
    | some hl, some hr =>
      if hl = hr then some (hl + (if c = .black then 1 else 0)) else none
    | _, _ => none

/-- Shape-and-color projection (zeroes the values, keeps structure,
colors and keys), for the frame part of the duplicate-key `Put` claim. -/
def shapeColor : RBTree → RBTree
  | .nil => .nil
  | .node c l k _ r => .node c (shapeColor l) k 0 (shapeColor r)

/-- Strict ascent of a key sequence, as an executable check. -/
def sortedB : List Int → Bool
  | [] => true
  | [_] => true
  | a :: b :: rest => (decide (a < b)) && sortedB (b :: rest)

/-- Full red-black validity: black root, no red-red edge, uniform
black-height, strictly ascending in-order keys (hence no duplicates). -/
def validRB (t : RBTree) : Prop :=
  rootBlack t = true ∧ noRedRed t = true ∧ (blackHeight t).isSome = true ∧
    sortedB (inorderKeys t) = true

/- Specification-side list functions: the effect of `Put`/`Remove` on the
  in-order key/value sequence. -/

/-- Ordered insertion/overwrite into a sorted association list. -/
def kvInsert (k v : Int) : List (Int × Int) → List (Int × Int)
  | [] => [(k, v)]
  | (a, b) :: rest =>
    if k < a then (k, v) :: (a, b) :: rest
    else if a < k then (a, b) :: kvInsert k v rest
    else (k, v) :: rest

/-- Removal of the entry with key `k` from an association list. -/
def kvErase (k : Int) (l : List (Int × Int)) : List (Int × Int) :=
  l.filter fun p => p.1 ≠ k

/-- The bounded binary-search-tree property (equivalent to sortedness of
the in-order key sequence). -/
def bstP : RBTree → Prop
  | .nil => True
  | .node _ l k _ r =>
    bstP l ∧ bstP r ∧ (∀ x ∈ inorderKeys l, x < k) ∧
      (∀ x ∈ inorderKeys r, k < x)

/-- The in-order key/value entries contributed by the ancestors on the
left of a focused subtree (outermost composition order). -/
def ctxLeft : List Ctx → List (Int × Int)
  | [] => []
  | cx :: p =>
    match cx.dir with
    | .left => ctxLeft p
    | .right => ctxLeft p ++ inorderKV cx.sib ++ [(cx.k, cx.v)]

/-- The in-order entries contributed by the ancestors on the right. -/
def ctxRight : List Ctx → List (Int × Int)
  | [] => []
  | cx :: p =>
    match cx.dir with
    | .left => (cx.k, cx.v) :: inorderKV cx.sib ++ ctxRight p
    | .right => ctxRight p

/-- The black-height contribution of a color. -/
def colBH : Color → Nat
  | .red => 0
  | .black => 1

/-- Black-height consistency of a parent chain: plugging a subtree of
black-height `h` into the chain gives every sibling the matching
black-height. -/
def pathBH : List Ctx → Nat → Prop
  | [], _ => True
  | cx :: p, h => blackHeight cx.sib = some h ∧ pathBH p (h + colBH cx.c)

/-- Red-red freedom of a parent chain: each sibling is internally
red-red free, a red parent has a black sibling-child, and no two
adjacent chain nodes are both red. -/
def pathRR : List Ctx → Prop
  | [] => True
  | cx :: p =>
    noRedRed cx.sib = true ∧ (cx.c = .red → isRed cx.sib = false) ∧
      (match p with
       | [] => True
       | cy :: _ => cx.c = .red → cy.c = .black) ∧ pathRR p

/-- The outermost chain entry (the tree root, when the chain is
non-empty) is black. -/
def lastBlack : List Ctx → Prop
  | [] => True
  | [cx] => cx.c = .black
  | _ :: p => lastBlack p

/-- The innermost chain entry (the parent of the focus) is black (or the
chain is empty). -/
def headBlack : List Ctx → Prop
  | [] => True
  | cx :: _ => cx.c = .black

/-- Total black-height contribution of a parent chain. -/
def sumColBH : List Ctx → Nat
  | [] => 0
  | cx :: p => colBH cx.c + sumColBH p

/-- The loop invariant of `fixDelete` on a state `(x, chain)`: the focus
is red-red free once blackened, and the chain expects a child one black
level higher than `x` provides (the double-black deficit). -/
def delState (st : RBTree × List Ctx) : Prop :=
  ∃ h2, noRedRed (blacken st.1) = true ∧ blackHeight st.1 = some h2 ∧
    pathBH st.2 (h2 + 1) ∧ pathRR st.2 ∧ lastBlack st.2

/-- The map built by `Put`ting keys 10,5,30,20,40,35,15 (values 1..7)
into `NewTreeMap()` — the concrete scenario of the spec's test table. -/
def demoT : TM :=
  runMap [.put 10 1, .put 5 2, .put 30 3, .put 20 4, .put 40 5, .put 35 6,
    .put 15 7]

end TreeMap

/- =====================================================================
THEOREMS.
===================================================================== -/

namespace BinaryHeap

@[simp] theorem swap_length {α : Type} (data : List α) (i j : Nat) :
    (swap data i j).length = data.length := by
  unfold swap
  cases hi : data[i]? <;> cases hj : data[j]? <;> simp

theorem pickChild_ge {α : Type} (cmp : α → α → Bool) (data : List α) (c : Nat) :
    c ≤ pickChild cmp data c := by
  unfold pickChild
  split
  · cases data[c + 1]? <;> cases data[c]? <;> dsimp only <;> try omega
    split <;> omega
  · omega

theorem pickChild_lt {α : Type} (cmp : α → α → Bool) (data : List α) (c : Nat)
    (h : c < data.length) : pickChild cmp data c < data.length := by
  unfold pickChild
  split
  · rename_i h1
    cases data[c + 1]? <;> cases data[c]? <;> dsimp only <;> try omega
    split <;> omega
  · exact h

end BinaryHeap


/- ---------------------------------------------------------------------
Heap proofs.
--------------------------------------------------------------------- -/


theorem Asymm.self_false {α : Type} {cmp : α → α → Bool} (hA : Asymm cmp)
    (a : α) : cmp a a = false := by
  cases h : cmp a a with
  | false => rfl
  | true => have := hA a a h; simp [h] at this

theorem cmp_trans_true {α : Type} {cmp : α → α → Bool} (hA : Asymm cmp)
    (hN : NegTrans cmp) {a b c : α} (h1 : cmp a b = true) (h2 : cmp b c = true) :
    cmp a c = true := by
  rcases hN a c b h1 with h | h
  · exact h
  · rw [hA b c h2] at h; cases h

theorem cmp_trans_false {α : Type} {cmp : α → α → Bool} (hN : NegTrans cmp)
    {a b c : α} (h1 : cmp a b = false) (h2 : cmp b c = false) :
    cmp a c = false := by
  cases h : cmp a c with
  | false => rfl
  | true => rcases hN a b c h with h' | h' <;> simp_all

namespace BinaryHeap


theorem heapPropB_iff {α : Type} (cmp : α → α → Bool) (l : List α) :
    heapPropB cmp l = true ↔ heapProp cmp l := by
  constructor
  · intro hB k c xc xk hc hxc hxk
    have hk : k < l.length := (List.getElem?_eq_some.mp hxk).1
    have := (List.all_eq_true.mp hB) k (List.mem_range.mpr hk)
    simp only [Bool.and_eq_true] at this
    rcases hc with rfl | rfl
    · have h1 := this.1
      unfold childOk at h1
      rw [hxc, hxk] at h1
      simpa using h1
    · have h1 := this.2
      unfold childOk at h1
      rw [hxc, hxk] at h1
      simpa using h1
  · intro hP
    apply List.all_eq_true.mpr
    intro k _
    simp only [Bool.and_eq_true]
    constructor
    · unfold childOk
      cases hxc : l[2 * k + 1]? with
      | none => rfl
      | some xc =>
        cases hxk : l[k]? with
        | none => rfl
        | some xk => simp [hP k _ xc xk (Or.inl rfl) hxc hxk]
    · unfold childOk
      cases hxc : l[2 * k + 2]? with
      | none => rfl
      | some xc =>
        cases hxk : l[k]? with
        | none => rfl
        | some xk => simp [hP k _ xc xk (Or.inr rfl) hxc hxk]

theorem swap_getElem? {α : Type} (data : List α) (i j n : Nat) (a b : α)
    (hi : data[i]? = some a) (hj : data[j]? = some b) :
    (swap data i j)[n]? =
      if n = j then some a else if n = i then some b else data[n]? := by
  have hi' : i < data.length := (List.getElem?_eq_some.mp hi).1
  have hj' : j < data.length := (List.getElem?_eq_some.mp hj).1
  unfold swap
  rw [hi, hj]
  rw [List.getElem?_set, List.getElem?_set, List.length_set]
  by_cases h1 : n = j
  · subst h1
    simp [hj']
  · by_cases h2 : n = i
    · subst h2
      rw [if_neg (fun h => h1 h.symm), if_pos rfl, if_neg h1, if_pos rfl]
      simp [hi']
    · rw [if_neg (fun h => h1 h.symm), if_neg (fun h => h2 h.symm),
        if_neg h1, if_neg h2]

theorem set_self {α : Type} (l : List α) (i : Nat) (a : α) (h : l[i]? = some a) :
    l.set i a = l := by
  apply List.ext_getElem?
  intro n
  rw [List.getElem?_set]
  split
  · rename_i he; subst he
    have := (List.getElem?_eq_some.mp h).1
    simp [this, h.symm]
  · rfl

theorem set_perm {α : Type} (l : List α) (n : Nat) (x : α) (h : n < l.length) :
    (l.set n x).Perm (x :: l.eraseIdx n) := by
  induction l generalizing n with
  | nil => simp at h
  | cons y t ih =>
    cases n with
    | zero => simp
    | succ m =>
      simp only [List.set_cons_succ, List.eraseIdx_cons_succ]
      have hm : m < t.length := by simpa using h
      exact ((ih m hm).cons y).trans (List.Perm.swap x y _)

theorem erase_perm {α : Type} (l : List α) (n : Nat) (x : α)
    (h : l[n]? = some x) : l.Perm (x :: l.eraseIdx n) := by
  have hn := (List.getElem?_eq_some.mp h).1
  have h2 := set_perm l n x hn
  rwa [set_self l n x h] at h2

theorem set_set_perm {α : Type} (l : List α) (i j : Nat) (a b : α)
    (hi : l[i]? = some a) (hj : l[j]? = some b) :
    ((l.set i b).set j a).Perm l := by
  induction l generalizing i j with
  | nil => simp at hi
  | cons x t ih =>
    cases i with
    | zero =>
      cases j with
      | zero =>
        rw [hi] at hj
        cases hj
        simp only [List.getElem?_cons_zero, Option.some.injEq] at hi
        subst hi
        simp
      | succ m =>
        simp only [List.getElem?_cons_zero, Option.some.injEq] at hi
        subst hi
        simp only [List.getElem?_cons_succ] at hj
        simp only [List.set_cons_zero, List.set_cons_succ]
        have hm := (List.getElem?_eq_some.mp hj).1
        exact ((set_perm t m x hm).cons b).trans
          ((List.Perm.swap x b _).trans (((erase_perm t m b hj).symm).cons x))
    | succ k =>
      cases j with
      | zero =>
        simp only [List.getElem?_cons_zero, Option.some.injEq] at hj
        subst hj
        simp only [List.getElem?_cons_succ] at hi
        simp only [List.set_cons_succ, List.set_cons_zero]
        have hk := (List.getElem?_eq_some.mp hi).1
        exact ((set_perm t k x hk).cons a).trans
          ((List.Perm.swap x a _).trans (((erase_perm t k a hi).symm).cons x))
      | succ m =>
        simp only [List.getElem?_cons_succ] at hi hj
        simp only [List.set_cons_succ]
        exact (ih k m hi hj).cons x

theorem swap_perm {α : Type} (data : List α) (i j : Nat) :
    (swap data i j).Perm data := by
  unfold swap
  cases hi : data[i]? with
  | none => exact List.Perm.refl _
  | some a =>
    cases hj : data[j]? with
    | none => exact List.Perm.refl _
    | some b => exact set_set_perm data i j a b hi hj

/- ---------------------------------------------------------------------
Sift-up correctness.  The loop invariant of `swim` at state `(data, k)`:
`SwimInv1` — every parent/child pair holds except possibly the pair whose
child is `k`; `SwimInv2` — the children of `k` do not outrank `k`'s
parent (the grandparent bridge).
--------------------------------------------------------------------- -/


theorem swim_inv1_step {α : Type} {cmp : α → α → Bool} (hA : Asymm cmp)
    (hN : NegTrans cmp) {data : List α} {k : Nat} {xk xp : α}
    (h1 : SwimInv1 cmp data k) (h2 : SwimInv2 cmp data k) (hk0 : 0 < k)
    (hxk : data[k]? = some xk) (hxp : data[(k - 1) / 2]? = some xp)
    (hcmp : cmp xk xp = true) :
    SwimInv1 cmp (swap data k ((k - 1) / 2)) ((k - 1) / 2) := by
  intro p c xc xp' hc hcP hxc' hxp'
  have hget := fun n => swap_getElem? data k ((k - 1) / 2) n xk xp hxk hxp
  have hPk : (k - 1) / 2 < k := by omega
  rw [hget c] at hxc'
  rw [hget p] at hxp'
  by_cases hck : c = k
  · have hpP : p = (k - 1) / 2 := by omega
    rw [if_neg hcP, if_pos hck] at hxc'
    rw [if_pos hpP] at hxp'
    simp only [Option.some.injEq] at hxc' hxp'
    rw [← hxc', ← hxp']
    exact hA _ _ hcmp
  · rw [if_neg hcP, if_neg hck] at hxc'
    by_cases hpk : p = k
    · rw [if_neg (by omega), if_pos hpk] at hxp'
      simp only [Option.some.injEq] at hxp'
      rw [← hxp']
      exact h2 c xc xp (by omega) hk0 hxc' hxp
    · by_cases hpP : p = (k - 1) / 2
      · rw [if_pos hpP] at hxp'
        simp only [Option.some.injEq] at hxp'
        rw [← hxp']
        cases hfc : cmp xc xk with
        | false => rfl
        | true =>
          exfalso
          have hPc : c = 2 * ((k - 1) / 2) + 1 ∨ c = 2 * ((k - 1) / 2) + 2 := by
            omega
          have htr := cmp_trans_true hA hN hfc hcmp
          rw [h1 _ c xc xp hPc hck hxc' hxp] at htr
          cases htr
      · rw [if_neg hpP, if_neg hpk] at hxp'
        exact h1 p c xc xp' hc hck hxc' hxp'

theorem swim_inv2_step {α : Type} {cmp : α → α → Bool}
    (hN : NegTrans cmp) {data : List α} {k : Nat} {xk xp : α}
    (h1 : SwimInv1 cmp data k) (hk0 : 0 < k)
    (hxk : data[k]? = some xk) (hxp : data[(k - 1) / 2]? = some xp) :
    SwimInv2 cmp (swap data k ((k - 1) / 2)) ((k - 1) / 2) := by
  intro c xc xg hc hP0 hxc' hxg'
  have hget := fun n => swap_getElem? data k ((k - 1) / 2) n xk xp hxk hxp
  have hPk : (k - 1) / 2 < k := by omega
  -- positions: P := (k-1)/2, its parent G := (P-1)/2 < P < k
  have hGP : ((k - 1) / 2 - 1) / 2 < (k - 1) / 2 := by omega
  rw [hget c] at hxc'
  rw [hget _] at hxg'
  rw [if_neg (by omega), if_neg (by omega)] at hxg'
  -- P is itself a child of G
  have hPchild : (k - 1) / 2 = 2 * (((k - 1) / 2 - 1) / 2) + 1 ∨
      (k - 1) / 2 = 2 * (((k - 1) / 2 - 1) / 2) + 2 := by omega
  by_cases hck : c = k
  · subst hck
    rw [if_neg (by omega), if_pos rfl] at hxc'
    cases hxc'
    exact h1 _ _ xp xg hPchild (by omega) hxp hxg'
  · rw [if_neg (by omega), if_neg hck] at hxc'
    have hfirst := h1 _ c xc xp hc hck hxc' hxp
    have hsecond := h1 _ _ xp xg hPchild (by omega) hxp hxg'
    exact cmp_trans_false hN hfirst hsecond

theorem swim_heapProp {α : Type} {cmp : α → α → Bool} (hA : Asymm cmp)
    (hN : NegTrans cmp) :
    ∀ fuel data k, k < fuel → SwimInv1 cmp data k → SwimInv2 cmp data k →
      heapProp cmp (swim cmp fuel data k) := by
  intro fuel
  induction fuel with
  | zero => intro data k hk; omega
  | succ f ih =>
    intro data k hk h1 h2
    simp only [swim]
    by_cases hk0 : 0 < k
    · simp only [if_pos hk0]
      cases hxk : data[k]? with
      | none =>
        intro p c xc xp hc hxc hxp
        by_cases hck : c = k
        · subst hck; rw [hxk] at hxc; cases hxc
        · exact h1 p c xc xp hc hck hxc hxp
      | some xk =>
        cases hxp : data[(k - 1) / 2]? with
        | none =>
          have hlen : k < data.length := (List.getElem?_eq_some.mp hxk).1
          have hnone : data.length ≤ (k - 1) / 2 := List.getElem?_eq_none_iff.mp hxp
          omega
        | some xp =>
          dsimp only
          by_cases hcmp : cmp xk xp = true
          · rw [if_pos hcmp]
            exact ih _ _ (by omega)
              (swim_inv1_step hA hN h1 h2 hk0 hxk hxp hcmp)
              (swim_inv2_step hN h1 hk0 hxk hxp)
          · rw [if_neg hcmp]
            have hcmp2 : cmp xk xp = false := by
              cases h : cmp xk xp
              · rfl
              · exact absurd h hcmp
            intro p c xc xp2 hcrel hxc2 hxp2
            by_cases hck : c = k
            · have hpP : p = (k - 1) / 2 := by omega
              rw [hck, hxk] at hxc2
              rw [hpP, hxp] at hxp2
              simp only [Option.some.injEq] at hxc2 hxp2
              rw [← hxc2, ← hxp2]
              exact hcmp2
            · exact h1 p c xc xp2 hcrel hck hxc2 hxp2
    · simp only [if_neg hk0]
      intro p c xc xp hc hxc hxp
      exact h1 p c xc xp hc (by omega) hxc hxp

theorem Add_heapProp {α : Type} {cmp : α → α → Bool} (hA : Asymm cmp)
    (hN : NegTrans cmp) (data : List α) (val : α) (hp : heapProp cmp data) :
    heapProp cmp (Add cmp data val) := by
  unfold Add
  have hlen : (data ++ [val]).length = data.length + 1 := by simp
  apply swim_heapProp hA hN _ _ _ (by simp)
  · intro p c xc xp hc hck hxc hxp
    have hc' : c < (data ++ [val]).length := (List.getElem?_eq_some.mp hxc).1
    have hcd : c < data.length := by omega
    have hpd : p < data.length := by omega
    rw [List.getElem?_append_left hcd] at hxc
    rw [List.getElem?_append_left hpd] at hxp
    exact hp p c xc xp hc hxc hxp
  · intro c xc xg hc hk0 hxc hxg
    have hc' : c < (data ++ [val]).length := (List.getElem?_eq_some.mp hxc).1
    omega

/- ---------------------------------------------------------------------
Sift-down correctness.  The loop invariant of `sink` at state `(data, j)`:
`SinkInv1` — every parent/child pair holds except possibly the pairs whose
parent is `j`; `SinkBridge` — the children of `j` do not outrank `j`'s
parent.
--------------------------------------------------------------------- -/


theorem pickChild_le {α : Type} (cmp : α → α → Bool) (data : List α) (c : Nat) :
    pickChild cmp data c ≤ c + 1 := by
  unfold pickChild
  split
  · cases data[c + 1]? <;> cases data[c]? <;> dsimp only <;> try omega
    split <;> omega
  · omega

theorem pickChild_spec {α : Type} (cmp : α → α → Bool) (data : List α) (c : Nat)
    (hc : c < data.length) :
    (pickChild cmp data c = c ∧
      (∀ xr xl, data[c + 1]? = some xr → data[c]? = some xl →
        cmp xr xl = false)) ∨
    (pickChild cmp data c = c + 1 ∧
      (∀ xr xl, data[c + 1]? = some xr → data[c]? = some xl →
        cmp xr xl = true)) := by
  unfold pickChild
  split
  · rename_i h1
    cases hr : data[c + 1]? with
    | none => exact absurd (List.getElem?_eq_none_iff.mp hr) (by omega)
    | some a =>
      cases hl : data[c]? with
      | none => exact absurd (List.getElem?_eq_none_iff.mp hl) (by omega)
      | some b =>
        dsimp only
        by_cases hab : cmp a b = true
        · rw [if_pos hab]
          right
          refine ⟨rfl, fun xr xl hxr hxl => ?_⟩
          simp only [Option.some.injEq] at hxr hxl
          rw [← hxr, ← hxl]; exact hab
        · rw [if_neg hab]
          left
          refine ⟨rfl, fun xr xl hxr hxl => ?_⟩
          simp only [Option.some.injEq] at hxr hxl
          rw [← hxr, ← hxl]
          cases h : cmp a b
          · rfl
          · exact absurd h hab
  · left
    refine ⟨rfl, fun xr xl hxr hxl => ?_⟩
    exact absurd (List.getElem?_eq_some.mp hxr).1 (by omega)

/-- The child not selected by `pickChild` does not outrank the selected one. -/
theorem pick_other_le {α : Type} {cmp : α → α → Bool} (hA : Asymm cmp)
    {data : List α} {j : Nat} (hj : 2 * j + 1 < data.length) :
    ∀ o xo xc, (o = 2 * j + 1 ∨ o = 2 * j + 2) →
      o ≠ pickChild cmp data (2 * j + 1) →
      data[o]? = some xo → data[pickChild cmp data (2 * j + 1)]? = some xc →
      cmp xo xc = false := by
  intro o xo xc ho hne hxo hxc
  rcases pickChild_spec cmp data (2 * j + 1) hj with ⟨heq, hno⟩ | ⟨heq, hyes⟩
  · rw [heq] at hxc hne
    have ho2 : o = 2 * j + 2 := by omega
    rw [ho2] at hxo
    exact hno xo xc hxo hxc
  · rw [heq] at hxc hne
    have ho1 : o = 2 * j + 1 := by omega
    rw [ho1] at hxo
    exact hA _ _ (hyes xc xo hxc hxo)

theorem sink_inv1_step {α : Type} {cmp : α → α → Bool} (hA : Asymm cmp)
    {data : List α} {j : Nat} {xc xj : α}
    (h1 : SinkInv1 cmp data j) (h3 : SinkBridge cmp data j)
    (hguard : 2 * j + 1 < data.length)
    (hxc : data[pickChild cmp data (2 * j + 1)]? = some xc)
    (hxj : data[j]? = some xj) (hcmp : cmp xc xj = true) :
    SinkInv1 cmp (swap data (pickChild cmp data (2 * j + 1)) j)
      (pickChild cmp data (2 * j + 1)) := by
  have hch : pickChild cmp data (2 * j + 1) = 2 * j + 1 ∨
      pickChild cmp data (2 * j + 1) = 2 * j + 2 := by
    have := pickChild_ge cmp data (2 * j + 1)
    have := pickChild_le cmp data (2 * j + 1)
    omega
  set child := pickChild cmp data (2 * j + 1) with hchdef
  have hget := fun n => swap_getElem? data child j n xc xj hxc hxj
  intro p c2 y2 yp hrel hpne hy2 hyp
  rw [hget c2] at hy2
  rw [hget p] at hyp
  by_cases hc2j : c2 = j
  · -- c2 is position j; its parent is (j-1)/2
    have hj1 : 0 < j := by omega
    have hpP : p = (j - 1) / 2 := by omega
    rw [if_pos hc2j] at hy2
    rw [if_neg (by omega), if_neg (by omega)] at hyp
    simp only [Option.some.injEq] at hy2
    rw [← hy2]
    rw [hpP] at hyp
    exact h3 child xc yp hch hj1 hxc hyp
  · by_cases hc2c : c2 = child
    · -- pair (j, child) after the swap
      have hpj : p = j := by omega
      rw [if_neg hc2j, if_pos hc2c] at hy2
      rw [if_pos hpj] at hyp
      simp only [Option.some.injEq] at hy2 hyp
      rw [← hy2, ← hyp]
      exact hA _ _ hcmp
    · rw [if_neg hc2j, if_neg hc2c] at hy2
      by_cases hpj : p = j
      · -- c2 is the unselected child of j
        have ho : c2 = 2 * j + 1 ∨ c2 = 2 * j + 2 := by omega
        rw [if_pos hpj] at hyp
        simp only [Option.some.injEq] at hyp
        rw [← hyp]
        exact pick_other_le hA hguard c2 y2 xc ho hc2c hy2 hxc
      · rw [if_neg hpj, if_neg hpne] at hyp
        exact h1 p c2 y2 yp hrel hpj hy2 hyp

theorem sink_bridge_step {α : Type} {cmp : α → α → Bool}
    {data : List α} {j : Nat} {xc xj : α}
    (h1 : SinkInv1 cmp data j)
    (hxc : data[pickChild cmp data (2 * j + 1)]? = some xc)
    (hxj : data[j]? = some xj) :
    SinkBridge cmp (swap data (pickChild cmp data (2 * j + 1)) j)
      (pickChild cmp data (2 * j + 1)) := by
  have hch : pickChild cmp data (2 * j + 1) = 2 * j + 1 ∨
      pickChild cmp data (2 * j + 1) = 2 * j + 2 := by
    have := pickChild_ge cmp data (2 * j + 1)
    have := pickChild_le cmp data (2 * j + 1)
    omega
  set child := pickChild cmp data (2 * j + 1) with hchdef
  have hget := fun n => swap_getElem? data child j n xc xj hxc hxj
  intro c2 y2 xg hrel h0 hy2 hxg
  have hcpj : (child - 1) / 2 = j := by omega
  rw [hcpj] at hxg
  rw [hget c2] at hy2
  rw [hget j] at hxg
  rw [if_pos rfl] at hxg
  rw [if_neg (by omega), if_neg (by omega)] at hy2
  simp only [Option.some.injEq] at hxg
  rw [← hxg]
  exact h1 child c2 y2 xc hrel (by omega) hy2 hxc

theorem sink_heapProp {α : Type} {cmp : α → α → Bool} (hA : Asymm cmp)
    (hN : NegTrans cmp) :
    ∀ fuel data j, data.length ≤ fuel + j →
      SinkInv1 cmp data j → SinkBridge cmp data j →
      heapProp cmp (sink cmp fuel data j) := by
  intro fuel
  induction fuel with
  | zero =>
    intro data j hfuel h1 _
    simp only [sink]
    intro p c2 y2 yp hrel hy2 hyp
    by_cases hpj : p = j
    · have := (List.getElem?_eq_some.mp hy2).1
      omega
    · exact h1 p c2 y2 yp hrel hpj hy2 hyp
  | succ f ih =>
    intro data j hfuel h1 h3
    simp only [sink]
    by_cases hguard : 2 * j + 1 < data.length
    · rw [if_pos hguard]
      cases hxc : data[pickChild cmp data (2 * j + 1)]? with
      | none =>
        exact absurd (List.getElem?_eq_none_iff.mp hxc)
          (by have := pickChild_lt cmp data (2 * j + 1) hguard; omega)
      | some xc =>
        cases hxj : data[j]? with
        | none => exact absurd (List.getElem?_eq_none_iff.mp hxj) (by omega)
        | some xj =>
          dsimp only
          by_cases hcmp : cmp xc xj = true
          · rw [if_pos hcmp]
            apply ih _ _ ?_ (sink_inv1_step hA h1 h3 hguard hxc hxj hcmp)
              (sink_bridge_step h1 hxc hxj)
            have := pickChild_ge cmp data (2 * j + 1)
            rw [swap_length]
            omega
          · rw [if_neg hcmp]
            have hcmp2 : cmp xc xj = false := by
              cases h : cmp xc xj
              · rfl
              · exact absurd h hcmp
            intro p c2 y2 yp hrel hy2 hyp
            by_cases hpj : p = j
            · by_cases hc2c : c2 = pickChild cmp data (2 * j + 1)
              · rw [hc2c, hxc] at hy2
                rw [hpj, hxj] at hyp
                simp only [Option.some.injEq] at hy2 hyp
                rw [← hy2, ← hyp]
                exact hcmp2
              · -- c2 is the unselected child of j
                rw [hpj, hxj] at hyp
                simp only [Option.some.injEq] at hyp
                rw [← hyp]
                rcases pickChild_spec cmp data (2 * j + 1) hguard with
                  ⟨heq, hno⟩ | ⟨heq, hyes⟩
                · -- selected = 2j+1, so c2 = 2j+2
                  have hc22 : c2 = 2 * j + 2 := by omega
                  rw [hc22] at hy2
                  rw [heq] at hxc
                  have hfst := hno y2 xc hy2 hxc
                  exact cmp_trans_false hN hfst hcmp2
                · -- selected = 2j+2, so c2 = 2j+1
                  have hc21 : c2 = 2 * j + 1 := by omega
                  rw [hc21] at hy2
                  rw [heq] at hxc
                  have hsel := hyes xc y2 hxc hy2
                  cases hfin : cmp y2 xj with
                  | false => rfl
                  | true =>
                    exfalso
                    have := cmp_trans_true hA hN hsel hfin
                    rw [hcmp2] at this
                    cases this
            · exact h1 p c2 y2 yp hrel hpj hy2 hyp
    · rw [if_neg hguard]
      intro p c2 y2 yp hrel hy2 hyp
      by_cases hpj : p = j
      · have := (List.getElem?_eq_some.mp hy2).1
        omega
      · exact h1 p c2 y2 yp hrel hpj hy2 hyp

/-- Index view of the shrunken slice `data[:size-1]` after `data[k] = last`. -/
theorem d1_getElem? {α : Type} (data : List α) (k : Nat) (last : α) (n : Nat) :
    ((data.set k last).dropLast)[n]? =
      if n < data.length - 1 then
        (if k = n then some last else data[n]?)
      else none := by
  rw [List.dropLast_eq_take, List.getElem?_take, List.length_set]
  split
  · rename_i h1
    rw [List.getElem?_set]
    by_cases hk : k = n
    · rw [if_pos hk, if_pos hk, if_pos (by omega)]
    · rw [if_neg hk, if_neg hk]
  · rfl

theorem Poll_heapProp {α : Type} {cmp : α → α → Bool} (hA : Asymm cmp)
    (hN : NegTrans cmp) (zero : α) (data : List α) (hp : heapProp cmp data) :
    heapProp cmp (Poll cmp zero data).2 := by
  unfold Poll
  by_cases hlen : data.length = 0
  · rw [if_pos hlen]; exact hp
  · rw [if_neg hlen]
    unfold removeAt
    rw [if_neg hlen]
    cases hx0 : data[0]? with
    | none => exact absurd (List.getElem?_eq_none_iff.mp hx0) (by omega)
    | some x0 =>
      cases hxl : data[data.length - 1]? with
      | none => exact absurd (List.getElem?_eq_none_iff.mp hxl) (by omega)
      | some last =>
        dsimp only
        apply sink_heapProp hA hN _ _ _ (by omega)
        · intro p c2 y2 yp hrel hpne hy2 hyp
          rw [d1_getElem?] at hy2 hyp
          by_cases hc1 : c2 < data.length - 1
          · rw [if_pos hc1, if_neg (by omega)] at hy2
            by_cases hp1 : p < data.length - 1
            · rw [if_pos hp1, if_neg (by omega)] at hyp
              exact hp p c2 y2 yp hrel hy2 hyp
            · rw [if_neg hp1] at hyp
              cases hyp
          · rw [if_neg hc1] at hy2
            cases hy2
        · intro c2 y2 xg hrel h0 hy2 hxg
          omega

/- ---------------------------------------------------------------------
Public operation sequences and the heap-validity invariant.
--------------------------------------------------------------------- -/


theorem heapProp_nil {α : Type} (cmp : α → α → Bool) : heapProp cmp [] := by
  intro k c xc xk hc hxc hxk
  simp at hxc

theorem runHeap_heapProp {α : Type} {cmp : α → α → Bool} (hA : Asymm cmp)
    (hN : NegTrans cmp) (zero : α) (ops : List (HeapOp α)) :
    heapProp cmp (runHeap cmp zero ops) := by
  suffices h : ∀ data, heapProp cmp data →
      heapProp cmp (ops.foldl (applyHeapOp cmp zero) data) from
    h [] (heapProp_nil cmp)
  induction ops with
  | nil => intro data hp; exact hp
  | cons op rest ih =>
    intro data hp
    cases op with
    | add v => exact ih _ (Add_heapProp hA hN _ _ hp)
    | poll => exact ih _ (Poll_heapProp hA hN _ _ hp)

/- ---------------------------------------------------------------------
Extraction order.
--------------------------------------------------------------------- -/

theorem swim_perm {α : Type} (cmp : α → α → Bool) :
    ∀ fuel data k, (swim cmp fuel data k).Perm data := by
  intro fuel
  induction fuel with
  | zero => intro data k; exact .refl _
  | succ f ih =>
    intro data k
    simp only [swim]
    split
    · cases h1 : data[k]? with
      | none => exact .refl _
      | some xk =>
        cases h2 : data[(k - 1) / 2]? with
        | none => exact .refl _
        | some xp =>
          dsimp only
          split
          · exact (ih _ _).trans (swap_perm data k _)
          · exact .refl _
    · exact .refl _

theorem sink_perm {α : Type} (cmp : α → α → Bool) :
    ∀ fuel data j, (sink cmp fuel data j).Perm data := by
  intro fuel
  induction fuel with
  | zero => intro data j; exact .refl _
  | succ f ih =>
    intro data j
    simp only [sink]
    split
    · cases h1 : data[pickChild cmp data (2 * j + 1)]? with
      | none => exact .refl _
      | some xc =>
        cases h2 : data[j]? with
        | none => exact .refl _
        | some xj =>
          dsimp only
          split
          · exact (ih _ _).trans (swap_perm data _ j)
          · exact .refl _
    · exact .refl _

theorem Poll_fst {α : Type} (cmp : α → α → Bool) (zero : α) (data : List α)
    (h : data ≠ []) :
    ∃ x0, data[0]? = some x0 ∧ (Poll cmp zero data).1 = .ok x0 := by
  have hlen : data.length ≠ 0 := by simpa using h
  cases hx0 : data[0]? with
  | none => exact absurd (List.getElem?_eq_none_iff.mp hx0) (by omega)
  | some x0 =>
    refine ⟨x0, rfl, ?_⟩
    unfold Poll removeAt
    rw [if_neg hlen, if_neg hlen, hx0]
    cases hxl : data[data.length - 1]? with
    | none => exact absurd (List.getElem?_eq_none_iff.mp hxl) (by omega)
    | some last => rfl

theorem Poll_tail_perm {α : Type} (cmp : α → α → Bool) (zero : α)
    (data : List α) (h : data ≠ []) :
    (Poll cmp zero data).2.Perm data.tail := by
  have hlen : data.length ≠ 0 := by simpa using h
  unfold Poll removeAt
  rw [if_neg hlen, if_neg hlen]
  cases hx0 : data[0]? with
  | none => exact absurd (List.getElem?_eq_none_iff.mp hx0) (by omega)
  | some x0 =>
    cases hxl : data[data.length - 1]? with
    | none => exact absurd (List.getElem?_eq_none_iff.mp hxl) (by omega)
    | some last =>
      dsimp only
      apply (sink_perm cmp _ _ _).trans
      -- (data.set 0 last).dropLast ~ data.tail
      cases data with
      | nil => exact absurd rfl h
      | cons x t =>
        rw [List.set_cons_zero]
        cases ht : t with
        | nil => exact .refl _
        | cons y s =>
          have htne : t ≠ [] := by rw [ht]; simp
          rw [← ht]
          rw [List.dropLast_cons_of_ne_nil htne]
          -- last is the last element of t
          have hlast : t.getLast htne = last := by
            have h1 : (x :: t)[(x :: t).length - 1]? = t[t.length - 1]? := by
              have : (x :: t).length - 1 = (t.length - 1) + 1 := by
                have := List.length_pos.mpr htne
                simp [List.length_cons]
                omega
              rw [this, List.getElem?_cons_succ]
            rw [h1] at hxl
            have h2 : t[t.length - 1]? = some (t.getLast htne) := by
              rw [List.getLast_eq_getElem]
              exact List.getElem?_eq_getElem (by have := List.length_pos.mpr htne; omega)
            rw [h2] at hxl
            exact Option.some.injEq _ _ ▸ hxl.symm ▸ rfl
          show (last :: t.dropLast).Perm t
          calc (last :: t.dropLast).Perm (t.dropLast ++ [last]) :=
            (List.perm_append_singleton last t.dropLast).symm
            _ = t := by rw [← hlast]; exact List.dropLast_append_getLast htne

theorem Poll_length {α : Type} (cmp : α → α → Bool) (zero : α)
    (data : List α) (h : data ≠ []) :
    (Poll cmp zero data).2.length = data.length - 1 := by
  rw [(Poll_tail_perm cmp zero data h).length_eq, List.length_tail]


theorem sortLoop_acc {α : Type} (cmp : α → α → Bool) (zero : α) :
    ∀ (n : Nat) (d acc : List α),
      sortLoop cmp zero n d acc = acc.reverse ++ sortLoop cmp zero n d [] := by
  intro n
  induction n with
  | zero => intro d acc; simp [sortLoop]
  | succ m ih =>
    intro d acc
    simp only [sortLoop]
    rw [ih ((Poll cmp zero d).2) (resVal zero (Poll cmp zero d).1 :: acc),
      ih ((Poll cmp zero d).2) [resVal zero (Poll cmp zero d).1]]
    simp

theorem pollSeq_cons {α : Type} (cmp : α → α → Bool) (zero : α)
    (data : List α) (h : data ≠ []) :
    ∃ x0, data[0]? = some x0 ∧
      pollSeq cmp zero data = x0 :: pollSeq cmp zero (Poll cmp zero data).2 := by
  obtain ⟨x0, hx0, hfst⟩ := Poll_fst cmp zero data h
  refine ⟨x0, hx0, ?_⟩
  have hlen : data.length ≠ 0 := by simpa using h
  unfold pollSeq
  cases hn : data.length with
  | zero => exact absurd hn hlen
  | succ m =>
    simp only [sortLoop]
    rw [sortLoop_acc cmp zero m ((Poll cmp zero data).2)]
    rw [hfst]
    have hm : (Poll cmp zero data).2.length = m := by
      rw [Poll_length cmp zero data h, hn]
      omega
    rw [hm]
    rfl

theorem pollSeq_perm {α : Type} (cmp : α → α → Bool) (zero : α) :
    ∀ (n : Nat) (data : List α), data.length = n →
      (pollSeq cmp zero data).Perm data := by
  intro n
  induction n with
  | zero =>
    intro data hlen
    have : data = [] := List.length_eq_zero.mp hlen
    subst this
    exact .refl _
  | succ m ih =>
    intro data hlen
    have hne : data ≠ [] := by intro h; subst h; simp at hlen
    obtain ⟨x0, hx0, hcons⟩ := pollSeq_cons cmp zero data hne
    rw [hcons]
    have hm : (Poll cmp zero data).2.length = m := by
      rw [Poll_length cmp zero data hne, hlen]
      omega
    have htail := (ih _ hm).trans (Poll_tail_perm cmp zero data hne)
    have hhead : data = x0 :: data.tail := by
      cases data with
      | nil => exact absurd rfl hne
      | cons y t =>
        simp only [List.getElem?_cons_zero, Option.some.injEq] at hx0
        rw [hx0]
        rfl
    have heq : x0 :: data.tail = data := hhead.symm
    exact heq ▸ (htail.cons x0)

/-- Every element of a heap fails to outrank the root. -/
theorem heapProp_root_dom {α : Type} {cmp : α → α → Bool} (hA : Asymm cmp)
    (hN : NegTrans cmp) {data : List α} (hp : heapProp cmp data) :
    ∀ (i : Nat) (xi x0 : α), data[i]? = some xi → data[0]? = some x0 →
      cmp xi x0 = false := by
  intro i
  induction i using Nat.strong_induction_on with
  | _ i ih =>
    intro xi x0 hxi hx0
    cases i with
    | zero =>
      rw [hxi] at hx0
      simp only [Option.some.injEq] at hx0
      rw [← hx0]
      exact hA.self_false xi
    | succ m =>
      have hi : m + 1 < data.length := (List.getElem?_eq_some.mp hxi).1
      cases hxp : data[m / 2]? with
      | none => exact absurd (List.getElem?_eq_none_iff.mp hxp) (by omega)
      | some xp =>
        have hrel : m + 1 = 2 * (m / 2) + 1 ∨ m + 1 = 2 * (m / 2) + 2 := by
          omega
        have h1 := hp (m / 2) (m + 1) xi xp hrel hxi hxp
        have h2 := ih (m / 2) (by omega) xp x0 hxp hx0
        exact cmp_trans_false hN h1 h2

/-- The extraction sequence is ordered: each later element fails to
outrank any earlier one, in particular its immediate predecessor. -/
theorem pollSeq_chain {α : Type} {cmp : α → α → Bool} (hA : Asymm cmp)
    (hN : NegTrans cmp) (zero : α) :
    ∀ (n : Nat) (data : List α), data.length = n → heapProp cmp data →
      List.Chain' (fun a b => cmp b a = false) (pollSeq cmp zero data) := by
  intro n
  induction n with
  | zero =>
    intro data hlen _
    have : data = [] := List.length_eq_zero.mp hlen
    subst this
    exact List.chain'_nil
  | succ m ih =>
    intro data hlen hp
    have hne : data ≠ [] := by intro h; subst h; simp at hlen
    obtain ⟨x0, hx0, hcons⟩ := pollSeq_cons cmp zero data hne
    rw [hcons]
    have hm : (Poll cmp zero data).2.length = m := by
      rw [Poll_length cmp zero data hne, hlen]
      omega
    have hp2 := Poll_heapProp hA hN zero data hp
    apply List.chain'_cons'.mpr
    refine ⟨?_, ?_⟩
    · intro b hb
      -- b is the root of the next heap, hence a member of the old heap
      cases hd2 : (Poll cmp zero data).2 with
      | nil =>
        rw [hd2] at hb
        unfold pollSeq at hb
        simp [sortLoop] at hb
      | cons y t =>
        have hne2 : (Poll cmp zero data).2 ≠ [] := by rw [hd2]; simp
        obtain ⟨b0, hb0, hcons2⟩ := pollSeq_cons cmp zero _ hne2
        rw [hcons2] at hb
        simp only [List.head?_cons, Option.mem_def, Option.some.injEq] at hb
        -- b = b0, the root of the polled heap
        have hmem : b0 ∈ (Poll cmp zero data).2 := by
          obtain ⟨hlt, he⟩ := List.getElem?_eq_some.mp hb0
          exact he ▸ List.getElem_mem hlt
        have hmem2 : b0 ∈ data.tail :=
          (Poll_tail_perm cmp zero data hne).mem_iff.mp hmem
        have hmem3 : b0 ∈ data := List.mem_of_mem_tail hmem2
        obtain ⟨i, hilt, hie⟩ := List.getElem_of_mem hmem3
        have hi2 : data[i]? = some b0 := by
          rw [List.getElem?_eq_getElem hilt, hie]
        rw [← hb]
        exact heapProp_root_dom hA hN hp i b0 x0 hi2 hx0
    · exact ih _ hm hp2

end BinaryHeap

/- ---------------------------------------------------------------------
Concrete instances used by the heap claims.
--------------------------------------------------------------------- -/


theorem natGT_asymm : Asymm natGT := by
  intro a b h
  simp only [natGT, decide_eq_true_eq] at h
  simp only [natGT, decide_eq_false_iff_not]
  omega

theorem natGT_negTrans : NegTrans natGT := by
  intro a b c h
  simp only [natGT, decide_eq_true_eq] at h
  simp only [natGT, decide_eq_true_eq]
  omega

namespace TreeMap

/- ---------------------------------------------------------------------
In-order machinery for the tree map.
--------------------------------------------------------------------- -/

theorem inorderKV_blacken (t : RBTree) : inorderKV (blacken t) = inorderKV t := by
  cases t <;> rfl

theorem inorderKeys_eq_map (t : RBTree) :
    inorderKeys t = (inorderKV t).map Prod.fst := by
  induction t with
  | nil => rfl
  | node c l k v r ihl ihr => simp [inorderKeys, inorderKV, ihl, ihr]

theorem plug_append (t : RBTree) (p1 p2 : List Ctx) :
    plug t (p1 ++ p2) = plug (plug t p1) p2 := by
  induction p1 generalizing t with
  | nil => rfl
  | cons cx p ih => simp [plug, ih]

theorem inorderKV_plug (p : List Ctx) :
    ∀ t, inorderKV (plug t p) = ctxLeft p ++ inorderKV t ++ ctxRight p := by
  induction p with
  | nil => intro t; simp [plug, ctxLeft, ctxRight]
  | cons cx p ih =>
    intro t
    obtain ⟨d, c, k, v, sib⟩ := cx
    cases d <;> simp [plug, fill, ih, ctxLeft, ctxRight, inorderKV]

theorem sortedB_iff_chain (l : List Int) :
    sortedB l = true ↔ l.Chain' (· < ·) := by
  induction l with
  | nil => simp [sortedB]
  | cons a rest ih =>
    cases rest with
    | nil => simp [sortedB]
    | cons b rest2 =>
      rw [sortedB, Bool.and_eq_true, List.chain'_cons, ih]
      simp

theorem sortedB_iff (l : List Int) :
    sortedB l = true ↔ l.Pairwise (· < ·) := by
  rw [sortedB_iff_chain, List.chain'_iff_pairwise]

theorem bstP_iff (t : RBTree) :
    bstP t ↔ (inorderKeys t).Pairwise (· < ·) := by
  induction t with
  | nil => simp [bstP, inorderKeys, List.Pairwise.nil]
  | node c l k v r ihl ihr =>
    simp only [bstP, inorderKeys]
    rw [List.pairwise_append, List.pairwise_cons]
    constructor
    · rintro ⟨hl, hr, hlk, hrk⟩
      refine ⟨ihl.mp hl, ⟨hrk, ihr.mp hr⟩, ?_⟩
      intro x hx y hy
      rcases List.mem_cons.mp hy with rfl | hy2
      · exact hlk x hx
      · exact lt_trans (hlk x hx) (hrk y hy2)
    · rintro ⟨hpl, ⟨hrk, hpr⟩, hcross⟩
      exact ⟨ihl.mpr hpl, ihr.mpr hpr,
        fun x hx => hcross x hx k (List.mem_cons_self k _), hrk⟩

/- ---------------------------------------------------------------------
Search correctness.
--------------------------------------------------------------------- -/

theorem getLoop_notfound : ∀ (t : RBTree) (k : Int), k ∉ inorderKeys t →
    getLoop t k = (0, false) := by
  intro t
  induction t with
  | nil => intro k _; rfl
  | node c l key val r ihl ihr =>
    intro k hk
    simp only [inorderKeys, List.mem_append, List.mem_cons] at hk
    push_neg at hk
    rw [getLoop]
    rw [if_neg hk.2.1]
    by_cases hlt : k < key
    · rw [if_pos hlt]; exact ihl k hk.1
    · rw [if_neg hlt]; exact ihr k hk.2.2

theorem getLoop_found : ∀ (t : RBTree), bstP t → ∀ (k v : Int),
    (k, v) ∈ inorderKV t → getLoop t k = (v, true) := by
  intro t
  induction t with
  | nil => intro _ k v h; simp [inorderKV] at h
  | node c l key val r ihl ihr =>
    intro hbst k v hmem
    obtain ⟨hbl, hbr, hlk, hrk⟩ := hbst
    simp only [inorderKV, List.mem_append, List.mem_cons] at hmem
    rw [getLoop]
    rcases hmem with hL | hE | hR
    · have hkl : k ∈ inorderKeys l := by
        rw [inorderKeys_eq_map]
        exact List.mem_map.mpr ⟨(k, v), hL, rfl⟩
      have hklt : k < key := hlk k hkl
      rw [if_neg (by omega), if_pos hklt]
      exact ihl hbl k v hL
    · obtain ⟨hk, hv⟩ := Prod.mk.injEq .. ▸ hE
      rw [Prod.mk.injEq] at hE
      rw [if_pos hE.1, hE.2]
    · have hkr : k ∈ inorderKeys r := by
        rw [inorderKeys_eq_map]
        exact List.mem_map.mpr ⟨(k, v), hR, rfl⟩
      have hkgt : key < k := hrk k hkr
      rw [if_neg (by omega), if_neg (by omega)]
      exact ihr hbr k v hR

/-- A key reported absent by `Get` is absent (under the BST property). -/
theorem notMem_of_get_false (t : RBTree) (hbst : bstP t) (k : Int)
    (h : (getLoop t k).2 = false) : k ∉ inorderKeys t := by
  intro hmem
  rw [inorderKeys_eq_map] at hmem
  obtain ⟨⟨k2, v⟩, hin, he⟩ := List.mem_map.mp hmem
  cases he
  rw [getLoop_found t hbst k2 v hin] at h
  cases h

theorem findPath_none : ∀ (t : RBTree) (k : Int) (acc : List Ctx),
    k ∉ inorderKeys t → findPath t k acc = none := by
  intro t
  induction t with
  | nil => intro k acc _; rfl
  | node c l key val r ihl ihr =>
    intro k acc hk
    simp only [inorderKeys, List.mem_append, List.mem_cons] at hk
    push_neg at hk
    rw [findPath]
    rw [if_neg hk.2.1]
    by_cases hlt : k < key
    · rw [if_pos hlt]; exact ihl k _ hk.1
    · rw [if_neg hlt]; exact ihr k _ hk.2.2

theorem findPath_some : ∀ (t : RBTree) (k : Int) (acc : List Ctx)
    (z : RBTree) (pz : List Ctx), findPath t k acc = some (z, pz) →
    plug z pz = plug t acc ∧ ∃ c l v r, z = .node c l k v r := by
  intro t
  induction t with
  | nil => intro k acc z pz h; cases h
  | node c l key val r ihl ihr =>
    intro k acc z pz h
    rw [findPath] at h
    by_cases he : k = key
    · rw [if_pos he] at h
      simp only [Option.some.injEq, Prod.mk.injEq] at h
      obtain ⟨hz, hpz⟩ := h
      subst hz hpz he
      exact ⟨rfl, c, l, val, r, rfl⟩
    · rw [if_neg he] at h
      by_cases hlt : k < key
      · rw [if_pos hlt] at h
        obtain ⟨hplug, hshape⟩ := ihl k _ z pz h
        exact ⟨hplug, hshape⟩
      · rw [if_neg hlt] at h
        obtain ⟨hplug, hshape⟩ := ihr k _ z pz h
        exact ⟨hplug, hshape⟩

/- ---------------------------------------------------------------------
The effect of insertion on the in-order sequence.
--------------------------------------------------------------------- -/

theorem kvInsert_append_lt (k v key val : Int) (l2 : List (Int × Int))
    (hk : k < key) : ∀ l1, kvInsert k v (l1 ++ (key, val) :: l2)
      = kvInsert k v l1 ++ (key, val) :: l2 := by
  intro l1
  induction l1 with
  | nil => simp [kvInsert, hk]
  | cons p rest ih =>
    obtain ⟨a, b⟩ := p
    simp only [List.cons_append, kvInsert]
    split_ifs with h1 h2
    · simp
    · simp [ih]
    · simp

theorem kvInsert_append_gt (k v key val : Int) (l2 : List (Int × Int))
    (hk : key < k) : ∀ l1, (∀ p ∈ l1, p.1 < k) →
      kvInsert k v (l1 ++ (key, val) :: l2)
        = l1 ++ (key, val) :: kvInsert k v l2 := by
  intro l1
  induction l1 with
  | nil =>
    intro _
    simp only [List.nil_append, kvInsert]
    rw [if_neg (by omega), if_pos hk]
  | cons p rest ih =>
    intro hlt
    obtain ⟨a, b⟩ := p
    have ha : a < k := hlt (a, b) (List.mem_cons_self _ _)
    simp only [List.cons_append, kvInsert]
    rw [if_neg (by omega), if_pos ha]
    simp only [List.append_eq]
    rw [ih (fun q hq => hlt q (List.mem_cons_of_mem _ hq))]

theorem kvInsert_append_eq (k v val : Int) (l2 : List (Int × Int)) :
    ∀ l1, (∀ p ∈ l1, p.1 < k) →
      kvInsert k v (l1 ++ (k, val) :: l2) = l1 ++ (k, v) :: l2 := by
  intro l1
  induction l1 with
  | nil =>
    intro _
    simp only [List.nil_append, kvInsert]
    rw [if_neg (by omega), if_neg (by omega)]
  | cons p rest ih =>
    intro hlt
    obtain ⟨a, b⟩ := p
    have ha : a < k := hlt (a, b) (List.mem_cons_self _ _)
    simp only [List.cons_append, kvInsert]
    rw [if_neg (by omega), if_pos ha]
    simp only [List.append_eq]
    rw [ih (fun q hq => hlt q (List.mem_cons_of_mem _ hq))]

theorem keys_lt_of_bst_left {l : RBTree} {key k : Int}
    (hlk : ∀ x ∈ inorderKeys l, x < key) (hk : key < k) :
    ∀ p ∈ inorderKV l, p.1 < k := by
  intro p hp
  have hmem : p.1 ∈ inorderKeys l := by
    rw [inorderKeys_eq_map]
    exact List.mem_map.mpr ⟨p, hp, rfl⟩
  exact lt_trans (hlk p.1 hmem) hk

theorem insertBST_inorderKV : ∀ (t : RBTree) (k v : Int), bstP t →
    inorderKV (insertBST t k v).1 = kvInsert k v (inorderKV t) := by
  intro t
  induction t with
  | nil => intro k v _; simp [insertBST, inorderKV, kvInsert]
  | node c l key val r ihl ihr =>
    intro k v hbst
    obtain ⟨hbl, hbr, hlk, hrk⟩ := hbst
    rw [insertBST]
    by_cases hlt : k < key
    · rw [if_pos hlt]
      simp only [inorderKV]
      rw [ihl k v hbl, kvInsert_append_lt k v key val _ hlt]
    · rw [if_neg hlt]
      by_cases hgt : key < k
      · rw [if_pos hgt]
        simp only [inorderKV]
        rw [ihr k v hbr,
          kvInsert_append_gt k v key val _ hgt _
            (fun p hp => keys_lt_of_bst_left hlk hgt p hp)]
      · rw [if_neg hgt]
        have he : k = key := by omega
        subst he
        simp only [inorderKV]
        rw [kvInsert_append_eq k v val _ _
          (fun p hp => by
            have hmem : p.1 ∈ inorderKeys l := by
              rw [inorderKeys_eq_map]
              exact List.mem_map.mpr ⟨p, hp, rfl⟩
            exact hlk p.1 hmem)]

theorem insertBST_flag : ∀ (t : RBTree) (k v : Int), bstP t →
    ((insertBST t k v).2 = true ↔ k ∈ inorderKeys t) := by
  intro t
  induction t with
  | nil => intro k v _; simp [insertBST, inorderKeys]
  | node c l key val r ihl ihr =>
    intro k v hbst
    obtain ⟨hbl, hbr, hlk, hrk⟩ := hbst
    rw [insertBST]
    by_cases hlt : k < key
    · rw [if_pos hlt]
      simp only [inorderKeys, List.mem_append, List.mem_cons]
      rw [ihl k v hbl]
      constructor
      · exact fun h => Or.inl h
      · rintro (h | h | h)
        · exact h
        · omega
        · exact absurd (hrk k h) (by omega)
    · rw [if_neg hlt]
      by_cases hgt : key < k
      · rw [if_pos hgt]
        simp only [inorderKeys, List.mem_append, List.mem_cons]
        rw [ihr k v hbr]
        constructor
        · exact fun h => Or.inr (Or.inr h)
        · rintro (h | h | h)
          · exact absurd (hlk k h) (by omega)
          · omega
          · exact h
      · rw [if_neg hgt]
        have he : k = key := by omega
        subst he
        simp [inorderKeys]

theorem insertPath_spec : ∀ (t : RBTree) (k v : Int) (acc : List Ctx),
    plug (insertPath t k v acc).1 (insertPath t k v acc).2.1
      = plug (insertBST t k v).1 acc ∧
    (insertPath t k v acc).2.2 = (insertBST t k v).2 := by
  intro t
  induction t with
  | nil => intro k v acc; exact ⟨rfl, rfl⟩
  | node c l key val r ihl ihr =>
    intro k v acc
    rw [insertPath, insertBST]
    by_cases hlt : k < key
    · rw [if_pos hlt, if_pos hlt]
      exact ihl k v _
    · rw [if_neg hlt, if_neg hlt]
      by_cases hgt : key < k
      · rw [if_pos hgt, if_pos hgt]
        exact ihr k v _
      · rw [if_neg hgt, if_neg hgt]
        exact ⟨rfl, rfl⟩

theorem mem_keysOf_kvInsert (k v x : Int) :
    ∀ l : List (Int × Int), x ∈ (kvInsert k v l).map Prod.fst →
      x = k ∨ x ∈ l.map Prod.fst := by
  intro l
  induction l with
  | nil => intro h; simp [kvInsert] at h; exact Or.inl h
  | cons p rest ih =>
    obtain ⟨a, b⟩ := p
    rw [kvInsert]
    split_ifs with h1 h2
    · intro h
      simp only [List.map_cons, List.mem_cons] at h ⊢
      tauto
    · intro h
      simp only [List.map_cons, List.mem_cons] at h ⊢
      rcases h with h | h
      · tauto
      · rcases ih h with h | h <;> tauto
    · intro h
      simp only [List.map_cons, List.mem_cons] at h ⊢
      tauto

theorem kvInsert_sorted (k v : Int) :
    ∀ l : List (Int × Int), (l.map Prod.fst).Pairwise (· < ·) →
      ((kvInsert k v l).map Prod.fst).Pairwise (· < ·) := by
  intro l
  induction l with
  | nil => intro _; simp [kvInsert]
  | cons p rest ih =>
    obtain ⟨a, b⟩ := p
    intro hp
    simp only [List.map_cons, List.pairwise_cons] at hp
    obtain ⟨ha, hrest⟩ := hp
    rw [kvInsert]
    split_ifs with h1 h2
    · simp only [List.map_cons, List.pairwise_cons]
      refine ⟨?_, ha, hrest⟩
      intro x hx
      rcases List.mem_cons.mp hx with rfl | hx2
      · exact h1
      · exact lt_trans h1 (ha x hx2)
    · simp only [List.map_cons, List.pairwise_cons]
      refine ⟨?_, ih hrest⟩
      intro x hx
      rcases mem_keysOf_kvInsert k v x rest hx with rfl | hx2
      · exact h2
      · exact ha x hx2
    · have he : k = a := by omega
      subst he
      simp only [List.map_cons, List.pairwise_cons]
      exact ⟨ha, hrest⟩

theorem kvInsert_mem (k v : Int) :
    ∀ l : List (Int × Int), (k, v) ∈ kvInsert k v l := by
  intro l
  induction l with
  | nil => simp [kvInsert]
  | cons p rest ih =>
    obtain ⟨a, b⟩ := p
    rw [kvInsert]
    split_ifs with h1 h2
    · exact List.mem_cons_self _ _
    · exact List.mem_cons_of_mem _ ih
    · exact List.mem_cons_self _ _

theorem fixInsertGo_inorderKV :
    ∀ (fuel : Nat) (n : RBTree) (path : List Ctx),
      inorderKV (fixInsertGo fuel n path) = inorderKV (plug n path) := by
  intro fuel
  induction fuel with
  | zero => intro n path; simp [fixInsertGo, inorderKV_blacken]
  | succ f ih =>
    intro n path
    match path with
    | [] => simp [fixInsertGo, inorderKV_blacken, plug]
    | ⟨pd, pc, pk, pv, psib⟩ :: rest =>
      match pc with
      | .black => simp [fixInsertGo, inorderKV_blacken]
      | .red =>
        match rest with
        | [] => simp [fixInsertGo, inorderKV_blacken]
        | ⟨gd, gc, gk, gv, gsib⟩ :: rest2 =>
          match gd with
          | .left =>
            by_cases hu : isRed gsib = true
            · simp only [fixInsertGo]
              rw [if_pos hu, ih]
              cases pd <;>
                simp [inorderKV_plug, ctxLeft, ctxRight, inorderKV, fill,
                  inorderKV_blacken, List.append_assoc]
            · simp only [fixInsertGo]
              rw [if_neg hu]
              match pd with
              | .right =>
                match n with
                | .nil =>
                  simp [inorderKV_blacken]
                | .node nc nl nk nv nr =>
                  rw [ih]
                  simp [inorderKV_plug, ctxLeft, ctxRight, inorderKV, fill,
                    List.append_assoc]
              | .left =>
                rw [ih]
                simp [inorderKV_plug, ctxLeft, ctxRight, inorderKV, fill,
                  List.append_assoc]
          | .right =>
            by_cases hu : isRed gsib = true
            · simp only [fixInsertGo]
              rw [if_pos hu, ih]
              cases pd <;>
                simp [inorderKV_plug, ctxLeft, ctxRight, inorderKV, fill,
                  inorderKV_blacken, List.append_assoc]
            · simp only [fixInsertGo]
              rw [if_neg hu]
              match pd with
              | .left =>
                match n with
                | .nil =>
                  simp [inorderKV_blacken]
                | .node nc nl nk nv nr =>
                  rw [ih]
                  simp [inorderKV_plug, ctxLeft, ctxRight, inorderKV, fill,
                    List.append_assoc]
              | .right =>
                rw [ih]
                simp [inorderKV_plug, ctxLeft, ctxRight, inorderKV, fill,
                  List.append_assoc]

theorem Put_root_inorderKV (t : TM) (k v : Int) (h : bstP t.root) :
    inorderKV (Put t k v).root = kvInsert k v (inorderKV t.root) := by
  obtain ⟨hplug, hflag⟩ := insertPath_spec t.root k v []
  rw [Put]
  by_cases hf : (insertPath t.root k v []).2.2 = true
  · rw [if_pos hf]
    dsimp only
    rw [inorderKV_blacken, hplug]
    simp only [plug]
    exact insertBST_inorderKV t.root k v h
  · rw [if_neg hf]
    dsimp only
    rw [fixInsertGo_inorderKV, hplug]
    simp only [plug]
    exact insertBST_inorderKV t.root k v h

theorem Put_bstP (t : TM) (k v : Int) (h : bstP t.root) :
    bstP (Put t k v).root := by
  rw [bstP_iff, inorderKeys_eq_map, Put_root_inorderKV t k v h]
  apply kvInsert_sorted
  rw [← inorderKeys_eq_map, ← bstP_iff]
  exact h

theorem Get_after_Put (t : TM) (k v : Int) (h : bstP t.root) :
    Get (Put t k v) k = (v, true) := by
  apply getLoop_found _ (Put_bstP t k v h) k v
  rw [Put_root_inorderKV t k v h]
  exact kvInsert_mem k v _

theorem Put_size_existing (t : TM) (k v : Int) (h : bstP t.root)
    (hc : ContainsKey t k = true) : (Put t k v).size = t.size := by
  have hmem : k ∈ inorderKeys t.root := by
    by_contra hnot
    rw [ContainsKey, Get, getLoop_notfound t.root k hnot] at hc
    cases hc
  obtain ⟨hplug, hflag⟩ := insertPath_spec t.root k v []
  have hf : (insertPath t.root k v []).2.2 = true := by
    rw [hflag]
    exact (insertBST_flag t.root k v h).mpr hmem
  rw [Put, if_pos hf]
  dsimp only
  omega

theorem Put_size_new (t : TM) (k v : Int) (h : bstP t.root)
    (hc : ContainsKey t k = false) : (Put t k v).size = t.size + 1 := by
  have hnot : k ∉ inorderKeys t.root := notMem_of_get_false t.root h k hc
  obtain ⟨hplug, hflag⟩ := insertPath_spec t.root k v []
  have hf : (insertPath t.root k v []).2.2 = false := by
    cases hq : (insertPath t.root k v []).2.2 with
    | false => rfl
    | true =>
      rw [hflag] at hq
      exact absurd ((insertBST_flag t.root k v h).mp hq) hnot
  rw [Put, if_neg (by rw [hf]; exact Bool.false_ne_true)]

theorem insertBST_dup_shape : ∀ (t : RBTree) (k v : Int),
    (insertBST t k v).2 = true →
    shapeColor (insertBST t k v).1 = shapeColor t := by
  intro t
  induction t with
  | nil => intro k v h; simp [insertBST] at h
  | node c l key val r ihl ihr =>
    intro k v h
    rw [insertBST] at h ⊢
    by_cases hlt : k < key
    · rw [if_pos hlt] at h ⊢
      dsimp only at h ⊢
      simp only [shapeColor]
      rw [ihl k v h]
    · rw [if_neg hlt] at h ⊢
      by_cases hgt : key < k
      · rw [if_pos hgt] at h ⊢
        dsimp only at h ⊢
        simp only [shapeColor]
        rw [ihr k v h]
      · rw [if_neg hgt] at h ⊢
        simp [shapeColor]

theorem Put_dup_shape (t : TM) (k v : Int) (h : bstP t.root)
    (hroot : rootBlack t.root = true) (hc : ContainsKey t k = true) :
    shapeColor (Put t k v).root = shapeColor t.root := by
  have hmem : k ∈ inorderKeys t.root := by
    by_contra hnot
    rw [ContainsKey, Get, getLoop_notfound t.root k hnot] at hc
    cases hc
  obtain ⟨hplug, hflag⟩ := insertPath_spec t.root k v []
  have hf : (insertPath t.root k v []).2.2 = true := by
    rw [hflag]
    exact (insertBST_flag t.root k v h).mpr hmem
  have hfB : (insertBST t.root k v).2 = true := by rw [← hflag]; exact hf
  rw [Put, if_pos hf]
  dsimp only
  rw [hplug]
  simp only [plug]
  -- the tree is non-empty (the key is present) and its root is black,
  -- and insertBST keeps the root node's color, so blacken is a no-op
  cases ht : t.root with
  | nil =>
    rw [ht] at hfB
    simp [insertBST] at hfB
  | node c l key2 val r =>
    rw [ht] at hroot hfB
    have hc2 : c = .black := by
      cases c
      · simp [rootBlack] at hroot
      · rfl
    subst hc2
    rw [insertBST] at hfB ⊢
    by_cases hlt : k < key2
    · rw [if_pos hlt] at hfB ⊢
      dsimp only at hfB ⊢
      simp only [blacken, shapeColor]
      rw [insertBST_dup_shape l k v hfB]
    · rw [if_neg hlt] at hfB ⊢
      by_cases hgt : key2 < k
      · rw [if_pos hgt] at hfB ⊢
        dsimp only at hfB ⊢
        simp only [blacken, shapeColor]
        rw [insertBST_dup_shape r k v hfB]
      · rw [if_neg hgt]
        simp [blacken, shapeColor]

/- ---------------------------------------------------------------------
The effect of deletion on the in-order sequence.
--------------------------------------------------------------------- -/

theorem delMin_some : ∀ (t : RBTree) (acc : List Ctx), t ≠ .nil →
    ∃ yc yk yv yr sp, delMin t acc = some (yc, yk, yv, yr, sp) := by
  intro t
  induction t with
  | nil => intro acc h; exact absurd rfl h
  | node c l k v r ihl ihr =>
    intro acc _
    cases l with
    | nil => exact ⟨c, k, v, r, acc, rfl⟩
    | node lc ll lk lv lr =>
      obtain ⟨yc, yk, yv, yr, sp, hs⟩ := ihl (⟨.left, c, k, v, r⟩ :: acc)
        (by simp)
      exact ⟨yc, yk, yv, yr, sp, hs⟩

theorem delMin_spec : ∀ (t : RBTree) (acc : List Ctx) (yc : Color)
    (yk yv : Int) (yr : RBTree) (sp : List Ctx),
    delMin t acc = some (yc, yk, yv, yr, sp) →
    ∃ sp', sp = sp' ++ acc ∧ plug (.node yc .nil yk yv yr) sp' = t ∧
      inorderKV t = (yk, yv) :: inorderKV (plug yr sp') := by
  intro t
  induction t with
  | nil => intro acc yc yk yv yr sp h; cases h
  | node c l k v r ihl ihr =>
    intro acc yc yk yv yr sp h
    cases l with
    | nil =>
      rw [delMin] at h
      simp only [Option.some.injEq, Prod.mk.injEq] at h
      obtain ⟨h1, h2, h3, h4, h5⟩ := h
      subst h1 h2 h3 h4 h5
      exact ⟨[], by simp, rfl, by simp [inorderKV, plug]⟩
    | node lc ll lk lv lr =>
      rw [delMin] at h
      obtain ⟨sp'', hsp, hplug, hio⟩ := ihl _ yc yk yv yr sp h
      refine ⟨sp'' ++ [⟨.left, c, k, v, r⟩], by rw [hsp]; simp, ?_, ?_⟩
      · rw [plug_append, hplug]
        rfl
      · rw [plug_append]
        show inorderKV (RBTree.node lc ll lk lv lr) ++ (k, v) :: inorderKV r
          = (yk, yv) :: (inorderKV (plug yr sp'') ++ (k, v) :: inorderKV r)
        rw [hio]
        simp

/-- Any step result of the left branch of the `fixDelete` body preserves
the in-order sequence of the rebuilt tree. -/
theorem fixDelCasesL_inorderKV (x : RBTree) (p : Ctx) (rest : List Ctx)
    (hdir : p.dir = .left ∨ (x = .nil ∧ p.sib = .nil)) :
    inorderKV (plug (fixDelCasesL x p rest).1 (fixDelCasesL x p rest).2)
      = inorderKV (plug x (p :: rest)) := by
  obtain ⟨pd, pc, pk, pv, psib⟩ := p
  rcases hdir with hdir | ⟨hx, hs⟩
  · simp only at hdir
    subst hdir
    cases psib with
    | nil => simp [fixDelCasesL, plug, fill, inorderKV]
    | node sc sl sk sv sr =>
      rw [fixDelCasesL]
      dsimp only
      by_cases h2 : (!isRed sl && !isRed sr) = true
      · rw [if_pos h2]
        simp [inorderKV_plug, ctxLeft, ctxRight, inorderKV, fill,
          List.append_assoc]
      · rw [if_neg h2]
        by_cases h3 : isRed sr = true
        · rw [if_pos h3]
          dsimp only
          simp [inorderKV_plug, ctxLeft, ctxRight, inorderKV, fill,
            inorderKV_blacken, List.append_assoc]
        · rw [if_neg h3]
          cases sl with
          | nil =>
            dsimp only
            simp [inorderKV_plug, ctxLeft, ctxRight, inorderKV, fill,
              inorderKV_blacken, List.append_assoc]
          | node llc lll llk llv llr =>
            dsimp only
            simp [inorderKV_plug, ctxLeft, ctxRight, inorderKV, fill,
              inorderKV_blacken, List.append_assoc]
  · simp only at hx hs
    subst hx hs
    cases pd <;> simp [fixDelCasesL, plug, fill, inorderKV]

theorem fixDelStepL_inorderKV (x : RBTree) (p : Ctx) (rest : List Ctx)
    (hdir : p.dir = .left ∨ (x = .nil ∧ p.sib = .nil)) :
    inorderKV (plug (fixDelStepL x p rest).1 (fixDelStepL x p rest).2)
      = inorderKV (plug x (p :: rest)) := by
  obtain ⟨pd, pc, pk, pv, psib⟩ := p
  rw [fixDelStepL]
  cases psib with
  | nil => exact fixDelCasesL_inorderKV x _ rest (by simpa using hdir)
  | node sc sl sk sv sr =>
    cases sc with
    | black => exact fixDelCasesL_inorderKV x _ rest (by simpa using hdir)
    | red =>
      have hdir2 : pd = Dir.left := by
        rcases hdir with h | ⟨_, h⟩
        · simpa using h
        · cases h
      subst hdir2
      rw [fixDelCasesL_inorderKV x _ _ (Or.inl rfl)]
      simp [inorderKV_plug, ctxLeft, ctxRight, inorderKV, fill,
        List.append_assoc]

/-- Mirror image for the right branch. -/
theorem fixDelCasesR_inorderKV (x : RBTree) (p : Ctx) (rest : List Ctx)
    (hdir : p.dir = .right) :
    inorderKV (plug (fixDelCasesR x p rest).1 (fixDelCasesR x p rest).2)
      = inorderKV (plug x (p :: rest)) := by
  obtain ⟨pd, pc, pk, pv, psib⟩ := p
  simp only at hdir
  subst hdir
  cases psib with
  | nil => simp [fixDelCasesR, plug, fill, inorderKV]
  | node sc sl sk sv sr =>
    rw [fixDelCasesR]
    dsimp only
    by_cases h2 : (!isRed sl && !isRed sr) = true
    · rw [if_pos h2]
      simp [inorderKV_plug, ctxLeft, ctxRight, inorderKV, fill,
        List.append_assoc]
    · rw [if_neg h2]
      by_cases h3 : isRed sl = true
      · rw [if_pos h3]
        dsimp only
        simp [inorderKV_plug, ctxLeft, ctxRight, inorderKV, fill,
          inorderKV_blacken, List.append_assoc]
      · rw [if_neg h3]
        cases sr with
        | nil =>
          dsimp only
          simp [inorderKV_plug, ctxLeft, ctxRight, inorderKV, fill,
            inorderKV_blacken, List.append_assoc]
        | node rc2 rl2 rk2 rv2 rr2 =>
          dsimp only
          simp [inorderKV_plug, ctxLeft, ctxRight, inorderKV, fill,
            inorderKV_blacken, List.append_assoc]

theorem fixDelStepR_inorderKV (x : RBTree) (p : Ctx) (rest : List Ctx)
    (hdir : p.dir = .right) :
    inorderKV (plug (fixDelStepR x p rest).1 (fixDelStepR x p rest).2)
      = inorderKV (plug x (p :: rest)) := by
  obtain ⟨pd, pc, pk, pv, psib⟩ := p
  simp only at hdir
  subst hdir
  rw [fixDelStepR]
  cases psib with
  | nil => exact fixDelCasesR_inorderKV x _ rest rfl
  | node sc sl sk sv sr =>
    cases sc with
    | black => exact fixDelCasesR_inorderKV x _ rest rfl
    | red =>
      rw [fixDelCasesR_inorderKV x _ _ rfl]
      simp [inorderKV_plug, ctxLeft, ctxRight, inorderKV, fill,
        List.append_assoc]

theorem inorderKV_plug_blacken (x : RBTree) (path : List Ctx) :
    inorderKV (plug (blacken x) path) = inorderKV (plug x path) := by
  rw [inorderKV_plug, inorderKV_plug, inorderKV_blacken]

theorem fixDeleteGo_inorderKV :
    ∀ (fuel : Nat) (x : RBTree) (path : List Ctx),
      inorderKV (fixDeleteGo fuel x path) = inorderKV (plug x path) := by
  intro fuel
  induction fuel with
  | zero => intro x path; simp [fixDeleteGo, inorderKV_plug_blacken]
  | succ f ih =>
    intro x path
    match path with
    | [] => simp [fixDeleteGo, inorderKV_blacken, plug]
    | p :: rest =>
      rw [fixDeleteGo]
      by_cases hred : isRed x = true
      · rw [if_pos hred]
        exact inorderKV_plug_blacken x (p :: rest)
      · rw [if_neg hred]
        dsimp only
        by_cases hdir : p.dir = Dir.left ∨ (x = .nil ∧ p.sib = .nil)
        · rw [if_pos hdir, ih]
          exact fixDelStepL_inorderKV x p rest hdir
        · rw [if_neg hdir, ih]
          apply fixDelStepR_inorderKV x p rest
          rcases hq : p.dir with _ | _
          · exact absurd (Or.inl hq) hdir
          · rfl

theorem kvErase_append (k v : Int) (l1 l2 : List (Int × Int))
    (h1 : ∀ p ∈ l1, p.1 ≠ k) (h2 : ∀ p ∈ l2, p.1 ≠ k) :
    kvErase k (l1 ++ (k, v) :: l2) = l1 ++ l2 := by
  rw [kvErase, List.filter_append, List.filter_cons]
  rw [List.filter_eq_self.mpr (by intro p hp; simpa using h1 p hp)]
  rw [List.filter_eq_self.mpr (by intro p hp; simpa using h2 p hp)]
  simp

theorem findPath_mem : ∀ (t : RBTree) (k : Int) (acc : List Ctx), bstP t →
    k ∈ inorderKeys t → ∃ z pz, findPath t k acc = some (z, pz) := by
  intro t
  induction t with
  | nil => intro k acc _ h; simp [inorderKeys] at h
  | node c l key val r ihl ihr =>
    intro k acc hbst hmem
    obtain ⟨hbl, hbr, hlk, hrk⟩ := hbst
    rw [findPath]
    by_cases he : k = key
    · rw [if_pos he]; exact ⟨_, _, rfl⟩
    · rw [if_neg he]
      simp only [inorderKeys, List.mem_append, List.mem_cons] at hmem
      rcases hmem with hL | hE | hR
      · rw [if_pos (hlk k hL)]
        exact ihl k _ hbl hL
      · exact absurd hE he
      · rw [if_neg (by have := hrk k hR; omega)]
        exact ihr k _ hbr hR

theorem keys_kvErase_not_mem (k : Int) (l : List (Int × Int)) :
    k ∉ (kvErase k l).map Prod.fst := by
  intro h
  obtain ⟨p, hp, he⟩ := List.mem_map.mp h
  rw [kvErase, List.mem_filter] at hp
  rw [he] at hp
  simpa using hp.2

theorem kvErase_sorted (k : Int) (l : List (Int × Int))
    (h : (l.map Prod.fst).Pairwise (· < ·)) :
    ((kvErase k l).map Prod.fst).Pairwise (· < ·) :=
  h.sublist ((List.filter_sublist l).map Prod.fst)

theorem Remove_found_spec (t : TM) (key : Int) (h : bstP t.root)
    (hmem : key ∈ inorderKeys t.root) :
    (Remove t key).1.2 = true ∧
    inorderKV (Remove t key).2.root = kvErase key (inorderKV t.root) ∧
    (Remove t key).2.size = t.size - 1 := by
  obtain ⟨z, pz, hfp⟩ := findPath_mem t.root key [] h hmem
  obtain ⟨hplug, zc, zl, zv, zr, hz⟩ := findPath_some t.root key [] z pz hfp
  subst hz
  simp only [plug] at hplug
  have hio : inorderKV t.root
      = (ctxLeft pz ++ inorderKV zl)
        ++ (key, zv) :: (inorderKV zr ++ ctxRight pz) := by
    conv_lhs => rw [← hplug]
    rw [inorderKV_plug]
    simp [inorderKV, List.append_assoc]
  have hsorted : (inorderKeys t.root).Pairwise (· < ·) := (bstP_iff t.root).mp h
  rw [inorderKeys_eq_map, hio] at hsorted
  simp only [List.map_append, List.map_cons, List.pairwise_append,
    List.pairwise_cons] at hsorted
  have hne1 : ∀ p ∈ ctxLeft pz ++ inorderKV zl, p.1 ≠ key := by
    intro p hp
    have hm : p.1 ∈ (ctxLeft pz).map Prod.fst ++ (inorderKV zl).map Prod.fst := by
      rw [← List.map_append]; exact List.mem_map.mpr ⟨p, hp, rfl⟩
    have := hsorted.2.2 p.1 hm key (List.mem_cons_self _ _)
    omega
  have hne2 : ∀ p ∈ inorderKV zr ++ ctxRight pz, p.1 ≠ key := by
    intro p hp
    have hm : p.1 ∈ (inorderKV zr).map Prod.fst ++ (ctxRight pz).map Prod.fst := by
      rw [← List.map_append]; exact List.mem_map.mpr ⟨p, hp, rfl⟩
    have := hsorted.2.1.1 p.1 hm
    omega
  have herase : kvErase key (inorderKV t.root)
      = (ctxLeft pz ++ inorderKV zl) ++ (inorderKV zr ++ ctxRight pz) := by
    rw [hio]
    exact kvErase_append key zv _ _ hne1 hne2
  rw [Remove, hfp]
  dsimp only
  by_cases hzl : zl = RBTree.nil
  · rw [if_pos hzl]
    refine ⟨rfl, ?_, rfl⟩
    show inorderKV (if zc = Color.black then fixDeleteGo (pz.length + 2) zr pz
      else plug zr pz) = _
    have hstep : inorderKV (if zc = Color.black then
        fixDeleteGo (pz.length + 2) zr pz else plug zr pz)
        = inorderKV (plug zr pz) := by
      split
      · exact fixDeleteGo_inorderKV _ zr pz
      · rfl
    rw [hstep, herase, inorderKV_plug, hzl]
    simp [inorderKV, List.append_assoc]
  · rw [if_neg hzl]
    by_cases hzr : zr = RBTree.nil
    · rw [if_pos hzr]
      refine ⟨rfl, ?_, rfl⟩
      show inorderKV (if zc = Color.black then
        fixDeleteGo (pz.length + 2) zl pz else plug zl pz) = _
      have hstep : inorderKV (if zc = Color.black then
          fixDeleteGo (pz.length + 2) zl pz else plug zl pz)
          = inorderKV (plug zl pz) := by
        split
        · exact fixDeleteGo_inorderKV _ zl pz
        · rfl
      rw [hstep, herase, inorderKV_plug, hzr]
      simp [inorderKV, List.append_assoc]
    · rw [if_neg hzr]
      obtain ⟨yc, yk, yv, yr, sp, hdm⟩ := delMin_some zr [] hzr
      rw [hdm]
      obtain ⟨sp, hspeq, hplugy, hioy⟩ := delMin_spec zr [] yc yk yv yr sp hdm
      rw [List.append_nil] at hspeq
      subst hspeq
      refine ⟨rfl, ?_, rfl⟩
      show inorderKV (if yc = Color.black then
        fixDeleteGo ((sp ++ ⟨.right, zc, yk, yv, zl⟩ :: pz).length + 2) yr
          (sp ++ ⟨.right, zc, yk, yv, zl⟩ :: pz)
        else plug yr (sp ++ ⟨.right, zc, yk, yv, zl⟩ :: pz)) = _
      have hstep : inorderKV (if yc = Color.black then
          fixDeleteGo ((sp ++ ⟨.right, zc, yk, yv, zl⟩ :: pz).length + 2) yr
            (sp ++ ⟨.right, zc, yk, yv, zl⟩ :: pz)
          else plug yr (sp ++ ⟨.right, zc, yk, yv, zl⟩ :: pz))
          = inorderKV (plug yr (sp ++ ⟨.right, zc, yk, yv, zl⟩ :: pz)) := by
        split
        · exact fixDeleteGo_inorderKV _ yr _
        · rfl
      rw [hstep, herase, plug_append]
      show inorderKV (plug (.node zc zl yk yv (plug yr sp)) pz) = _
      rw [inorderKV_plug]
      rw [show inorderKV (RBTree.node zc zl yk yv (plug yr sp))
        = inorderKV zl ++ (yk, yv) :: inorderKV (plug yr sp) from rfl]
      rw [show inorderKV zr = (yk, yv) :: inorderKV (plug yr sp) from hioy]
      simp [List.append_assoc]

theorem Remove_notfound (t : TM) (key : Int) (h : bstP t.root)
    (hc : ContainsKey t key = false) : Remove t key = ((0, false), t) := by
  have hnot : key ∉ inorderKeys t.root := notMem_of_get_false t.root h key hc
  rw [Remove, findPath_none t.root key [] hnot]

theorem Get_after_Remove (t : TM) (key : Int) (h : bstP t.root)
    (hmem : key ∈ inorderKeys t.root) :
    Get (Remove t key).2 key = (0, false) := by
  obtain ⟨_, hio, _⟩ := Remove_found_spec t key h hmem
  apply getLoop_notfound
  rw [inorderKeys_eq_map, hio]
  exact keys_kvErase_not_mem key _

theorem Remove_bstP (t : TM) (key : Int) (h : bstP t.root) :
    bstP (Remove t key).2.root := by
  by_cases hmem : key ∈ inorderKeys t.root
  · obtain ⟨_, hio, _⟩ := Remove_found_spec t key h hmem
    rw [bstP_iff, inorderKeys_eq_map, hio]
    apply kvErase_sorted
    rw [← inorderKeys_eq_map, ← bstP_iff]
    exact h
  · rw [Remove, findPath_none t.root key [] hmem]
    exact h

theorem inorderKV_node_ne_nil (c : Color) (l : RBTree) (k v : Int) (r : RBTree) :
    inorderKV (.node c l k v r) ≠ [] := by
  simp [inorderKV]

theorem leftmost_eq_head (t : RBTree) : leftmost t = (inorderKV t).head? := by
  induction t with
  | nil => rfl
  | node c l k v r ihl _ =>
    cases l with
    | nil => simp [leftmost, inorderKV]
    | node lc ll lk lv lr =>
      rw [show leftmost (.node c (.node lc ll lk lv lr) k v r)
        = leftmost (.node lc ll lk lv lr) from rfl, ihl]
      have hne := inorderKV_node_ne_nil lc ll lk lv lr
      cases h : inorderKV (RBTree.node lc ll lk lv lr) with
      | nil => exact absurd h hne
      | cons a as =>
        show some a = (inorderKV (.node c (.node lc ll lk lv lr) k v r)).head?
        rw [show inorderKV (RBTree.node c (.node lc ll lk lv lr) k v r)
          = inorderKV (RBTree.node lc ll lk lv lr) ++ (k, v) :: inorderKV r
          from rfl, h]
        rfl

theorem getLast?_append_cons {α : Type} :
    ∀ (l1 : List α) (a : α) (l2 : List α),
      (l1 ++ a :: l2).getLast? = (a :: l2).getLast? := by
  intro l1
  induction l1 with
  | nil => intro a l2; rfl
  | cons x xs ih =>
    intro a l2
    rw [List.cons_append]
    cases hxs : xs ++ a :: l2 with
    | nil => exact absurd hxs (by simp)
    | cons y ys =>
      rw [List.getLast?_cons_cons, ← hxs, ih]

theorem rightmost_eq_getLast (t : RBTree) :
    rightmost t = (inorderKV t).getLast? := by
  induction t with
  | nil => rfl
  | node c l k v r _ ihr =>
    cases r with
    | nil =>
      show some (k, v)
        = (inorderKV l ++ (k, v) :: inorderKV RBTree.nil).getLast?
      rw [getLast?_append_cons]
      rfl
    | node rc rl rk rv rr =>
      rw [show rightmost (.node c l k v (.node rc rl rk rv rr))
        = rightmost (.node rc rl rk rv rr) from rfl, ihr]
      have hne := inorderKV_node_ne_nil rc rl rk rv rr
      show _ = (inorderKV l ++ (k, v) :: inorderKV (RBTree.node rc rl rk rv rr)).getLast?
      rw [getLast?_append_cons]
      cases h : inorderKV (RBTree.node rc rl rk rv rr) with
      | nil => exact absurd h hne
      | cons a as => rw [List.getLast?_cons_cons]

theorem mem_of_getLast?_eq {α : Type} :
    ∀ (l : List α) (a : α), l.getLast? = some a → a ∈ l := by
  intro l
  induction l with
  | nil => intro a h; cases h
  | cons x xs ih =>
    intro a h
    cases xs with
    | nil =>
      rw [show ([x] : List α).getLast? = some x from rfl,
        Option.some.injEq] at h
      rw [← h]; exact List.mem_cons_self _ _
    | cons y ys =>
      rw [List.getLast?_cons_cons] at h
      exact List.mem_cons_of_mem _ (ih a h)

theorem head_min_of_sorted (l : List Int) (h : l.Pairwise (· < ·)) (k : Int)
    (hk : l.head? = some k) : k ∈ l ∧ ∀ k2 ∈ l, k ≤ k2 := by
  cases l with
  | nil => cases hk
  | cons a as =>
    rw [List.head?_cons, Option.some.injEq] at hk
    subst hk
    refine ⟨List.mem_cons_self _ _, ?_⟩
    intro k2 hk2
    rcases List.mem_cons.mp hk2 with he | hm
    · omega
    · have := (List.pairwise_cons.mp h).1 k2 hm; omega

theorem getLast_max_of_sorted : ∀ (l : List Int), l.Pairwise (· < ·) →
    ∀ (k : Int), l.getLast? = some k → ∀ k2 ∈ l, k2 ≤ k := by
  intro l
  induction l with
  | nil => intro _ k hk; cases hk
  | cons a as ih =>
    intro h k hk k2 hk2
    cases as with
    | nil =>
      rw [show ([a] : List Int).getLast? = some a from rfl,
        Option.some.injEq] at hk
      rcases List.mem_cons.mp hk2 with he | hm
      · omega
      · cases hm
    | cons b bs =>
      rw [List.getLast?_cons_cons] at hk
      have hmem : k ∈ b :: bs := mem_of_getLast?_eq _ _ hk
      rcases List.mem_cons.mp hk2 with he | hm
      · have := (List.pairwise_cons.mp h).1 k hmem; omega
      · exact ih (List.pairwise_cons.mp h).2 k hk k2 hm

theorem ceilingLoop_all_lt : ∀ (t : RBTree) (x : Int) (cand : Option Int),
    (∀ k ∈ inorderKeys t, k < x) →
    ceilingLoop t x cand
      = (match cand with | none => (0, false) | some ck => (ck, true)) := by
  intro t
  induction t with
  | nil => intro x cand _; rfl
  | node c l key v r ihl ihr =>
    intro x cand hall
    have hkey : key < x := hall key (by simp [inorderKeys])
    rw [ceilingLoop, if_neg (by omega), if_neg (by omega)]
    exact ihr x cand fun k hk => hall k (by simp [inorderKeys]; tauto)

theorem ceilingLoop_found : ∀ (t : RBTree) (x : Int) (cand : Option Int),
    bstP t →
    (∀ ck, cand = some ck → x ≤ ck ∧ ∀ k ∈ inorderKeys t, k < ck) →
    (∃ k ∈ inorderKeys t, x ≤ k) →
    ∃ k, ceilingLoop t x cand = (k, true) ∧ k ∈ inorderKeys t ∧ x ≤ k ∧
      (∀ k2 ∈ inorderKeys t, x ≤ k2 → k ≤ k2) ∧
      ∀ ck, cand = some ck → k ≤ ck := by
  intro t
  induction t with
  | nil => intro x cand _ _ hex; simp [inorderKeys] at hex
  | node c l key v r ihl ihr =>
    intro x cand hbst hcand hex
    obtain ⟨hbl, hbr, hlk, hrk⟩ := hbst
    rw [ceilingLoop]
    by_cases he : x = key
    · rw [if_pos he]
      refine ⟨key, rfl, by simp [inorderKeys], by omega, ?_, ?_⟩
      · intro k2 hk2 hx2
        simp only [inorderKeys, List.mem_append, List.mem_cons] at hk2
        rcases hk2 with hL | hE | hR
        · have := hlk k2 hL; omega
        · omega
        · have := hrk k2 hR; omega
      · intro ck hck
        have := (hcand ck hck).2 key (by simp [inorderKeys])
        omega
    · rw [if_neg he]
      by_cases hlt : x < key
      · rw [if_pos hlt]
        have hcand' : ∀ ck, some key = some ck →
            x ≤ ck ∧ ∀ k ∈ inorderKeys l, k < ck := by
          intro ck hck
          rw [Option.some.injEq] at hck
          exact ⟨by omega, fun k hk => by have := hlk k hk; omega⟩
        by_cases hexl : ∃ k ∈ inorderKeys l, x ≤ k
        · obtain ⟨k, hres, hmem, hxk, hmin, hcd⟩ := ihl x (some key) hbl hcand' hexl
          have hkkey : k ≤ key := hcd key rfl
          refine ⟨k, hres, by simp [inorderKeys]; tauto, hxk, ?_, ?_⟩
          · intro k2 hk2 hx2
            simp only [inorderKeys, List.mem_append, List.mem_cons] at hk2
            rcases hk2 with hL | hE | hR
            · exact hmin k2 hL hx2
            · omega
            · have := hrk k2 hR; omega
          · intro ck hck
            have := (hcand ck hck).2 key (by simp [inorderKeys])
            omega
        · push_neg at hexl
          rw [ceilingLoop_all_lt l x (some key)
            (fun k hk => by have := hexl k hk; omega)]
          refine ⟨key, rfl, by simp [inorderKeys], by omega, ?_, ?_⟩
          · intro k2 hk2 hx2
            simp only [inorderKeys, List.mem_append, List.mem_cons] at hk2
            rcases hk2 with hL | hE | hR
            · have := hexl k2 hL; omega
            · omega
            · have := hrk k2 hR; omega
          · intro ck hck
            have := (hcand ck hck).2 key (by simp [inorderKeys])
            omega
      · rw [if_neg hlt]
        have hgt : key < x := by omega
        have hcand' : ∀ ck, cand = some ck →
            x ≤ ck ∧ ∀ k ∈ inorderKeys r, k < ck := by
          intro ck hck
          refine ⟨(hcand ck hck).1, fun k hk => ?_⟩
          exact (hcand ck hck).2 k (by simp [inorderKeys]; tauto)
        have hexr : ∃ k ∈ inorderKeys r, x ≤ k := by
          obtain ⟨k0, hk0, hxk0⟩ := hex
          simp only [inorderKeys, List.mem_append, List.mem_cons] at hk0
          rcases hk0 with hL | hE | hR
          · have := hlk k0 hL; omega
          · omega
          · exact ⟨k0, hR, hxk0⟩
        obtain ⟨k, hres, hmem, hxk, hmin, hcd⟩ := ihr x cand hbr hcand' hexr
        refine ⟨k, hres, by simp [inorderKeys]; tauto, hxk, ?_, hcd⟩
        intro k2 hk2 hx2
        simp only [inorderKeys, List.mem_append, List.mem_cons] at hk2
        rcases hk2 with hL | hE | hR
        · have := hlk k2 hL; omega
        · omega
        · exact hmin k2 hR hx2

theorem floorLoop_all_gt : ∀ (t : RBTree) (x : Int) (cand : Option Int),
    (∀ k ∈ inorderKeys t, x < k) →
    floorLoop t x cand
      = (match cand with | none => (0, false) | some ck => (ck, true)) := by
  intro t
  induction t with
  | nil => intro x cand _; rfl
  | node c l key v r ihl ihr =>
    intro x cand hall
    have hkey : x < key := hall key (by simp [inorderKeys])
    rw [floorLoop, if_neg (by omega), if_pos (by omega)]
    exact ihl x cand fun k hk => hall k (by simp [inorderKeys]; tauto)

theorem floorLoop_found : ∀ (t : RBTree) (x : Int) (cand : Option Int),
    bstP t →
    (∀ ck, cand = some ck → ck ≤ x ∧ ∀ k ∈ inorderKeys t, ck < k) →
    (∃ k ∈ inorderKeys t, k ≤ x) →
    ∃ k, floorLoop t x cand = (k, true) ∧ k ∈ inorderKeys t ∧ k ≤ x ∧
      (∀ k2 ∈ inorderKeys t, k2 ≤ x → k2 ≤ k) ∧
      ∀ ck, cand = some ck → ck ≤ k := by
  intro t
  induction t with
  | nil => intro x cand _ _ hex; simp [inorderKeys] at hex
  | node c l key v r ihl ihr =>
    intro x cand hbst hcand hex
    obtain ⟨hbl, hbr, hlk, hrk⟩ := hbst
    rw [floorLoop]
    by_cases he : x = key
    · rw [if_pos he]
      refine ⟨key, rfl, by simp [inorderKeys], by omega, ?_, ?_⟩
      · intro k2 hk2 hx2
        simp only [inorderKeys, List.mem_append, List.mem_cons] at hk2
        rcases hk2 with hL | hE | hR
        · have := hlk k2 hL; omega
        · omega
        · have := hrk k2 hR; omega
      · intro ck hck
        have := (hcand ck hck).2 key (by simp [inorderKeys])
        omega
    · rw [if_neg he]
      by_cases hlt : x < key
      · rw [if_pos hlt]
        have hcand' : ∀ ck, cand = some ck →
            ck ≤ x ∧ ∀ k ∈ inorderKeys l, ck < k := by
          intro ck hck
          refine ⟨(hcand ck hck).1, fun k hk => ?_⟩
          exact (hcand ck hck).2 k (by simp [inorderKeys]; tauto)
        have hexl : ∃ k ∈ inorderKeys l, k ≤ x := by
          obtain ⟨k0, hk0, hxk0⟩ := hex
          simp only [inorderKeys, List.mem_append, List.mem_cons] at hk0
          rcases hk0 with hL | hE | hR
          · exact ⟨k0, hL, hxk0⟩
          · omega
          · have := hrk k0 hR; omega
        obtain ⟨k, hres, hmem, hxk, hmin, hcd⟩ := ihl x cand hbl hcand' hexl
        refine ⟨k, hres, by simp [inorderKeys]; tauto, hxk, ?_, hcd⟩
        intro k2 hk2 hx2
        simp only [inorderKeys, List.mem_append, List.mem_cons] at hk2
        rcases hk2 with hL | hE | hR
        · exact hmin k2 hL hx2
        · omega
        · have := hrk k2 hR; omega
      · rw [if_neg hlt]
        have hgt : key < x := by omega
        have hcand' : ∀ ck, some key = some ck →
            ck ≤ x ∧ ∀ k ∈ inorderKeys r, ck < k := by
          intro ck hck
          rw [Option.some.injEq] at hck
          exact ⟨by omega, fun k hk => by have := hrk k hk; omega⟩
        by_cases hexr : ∃ k ∈ inorderKeys r, k ≤ x
        · obtain ⟨k, hres, hmem, hxk, hmin, hcd⟩ := ihr x (some key) hbr hcand' hexr
          have hkkey : key ≤ k := hcd key rfl
          refine ⟨k, hres, by simp [inorderKeys]; tauto, hxk, ?_, ?_⟩
          · intro k2 hk2 hx2
            simp only [inorderKeys, List.mem_append, List.mem_cons] at hk2
            rcases hk2 with hL | hE | hR
            · have := hlk k2 hL; omega
            · omega
            · exact hmin k2 hR hx2
          · intro ck hck
            have := (hcand ck hck).2 key (by simp [inorderKeys])
            omega
        · push_neg at hexr
          rw [floorLoop_all_gt r x (some key)
            (fun k hk => by have := hexr k hk; omega)]
          refine ⟨key, rfl, by simp [inorderKeys], by omega, ?_, ?_⟩
          · intro k2 hk2 hx2
            simp only [inorderKeys, List.mem_append, List.mem_cons] at hk2
            rcases hk2 with hL | hE | hR
            · have := hlk k2 hL; omega
            · omega
            · have := hexr k2 hR; omega
          · intro ck hck
            have := (hcand ck hck).2 key (by simp [inorderKeys])
            omega

theorem getLast?_cons_ne_none {α : Type} :
    ∀ (a : α) (l : List α), (a :: l).getLast? ≠ none := by
  intro a l
  induction l generalizing a with
  | nil =>
    intro hcon
    rw [show ([a] : List α).getLast? = some a from rfl] at hcon
    exact Option.noConfusion hcon
  | cons b bs ih =>
    rw [List.getLast?_cons_cons]
    exact ih b

theorem getLast?_map_fst {α β : Type} (f : α → β) :
    ∀ l : List α, (l.map f).getLast? = (l.getLast?).map f := by
  intro l
  induction l with
  | nil => rfl
  | cons a as ih =>
    cases as with
    | nil => rfl
    | cons b bs =>
      rw [List.map_cons, List.map_cons, List.getLast?_cons_cons,
        ← List.map_cons, ih, List.getLast?_cons_cons]

theorem FirstKey_min (t : TM) (h : bstP t.root) (hne : t.root ≠ RBTree.nil) :
    ∃ k, FirstKey t = (k, true) ∧ (Min t).1 = k ∧ k ∈ Keys t ∧
      ∀ k2 ∈ Keys t, k ≤ k2 := by
  cases hkv : inorderKV t.root with
  | nil =>
    exfalso
    cases htr : t.root with
    | nil => exact hne htr
    | node c l k v r =>
      rw [htr] at hkv
      exact inorderKV_node_ne_nil c l k v r hkv
  | cons a as =>
    obtain ⟨ak, av⟩ := a
    have hl : leftmost t.root = some (ak, av) := by
      rw [leftmost_eq_head, hkv]; rfl
    have hhead : (inorderKeys t.root).head? = some ak := by
      rw [inorderKeys_eq_map, hkv]; rfl
    have hp : (inorderKeys t.root).Pairwise (· < ·) := (bstP_iff _).mp h
    obtain ⟨hmem, hmin⟩ := head_min_of_sorted _ hp ak hhead
    refine ⟨ak, ?_, ?_, hmem, hmin⟩
    · rw [FirstKey, hl]
    · rw [Min, hl]

theorem LastKey_max (t : TM) (h : bstP t.root) (hne : t.root ≠ RBTree.nil) :
    ∃ k, LastKey t = (k, true) ∧ (Max t).1 = k ∧ k ∈ Keys t ∧
      ∀ k2 ∈ Keys t, k2 ≤ k := by
  cases hg : (inorderKV t.root).getLast? with
  | none =>
    exfalso
    cases htr : t.root with
    | nil => exact hne htr
    | node c l k v r =>
      rw [htr] at hg
      rw [show inorderKV (RBTree.node c l k v r)
        = inorderKV l ++ (k, v) :: inorderKV r from rfl,
        getLast?_append_cons] at hg
      exact getLast?_cons_ne_none _ _ hg
  | some a =>
    obtain ⟨ak, av⟩ := a
    have hr : rightmost t.root = some (ak, av) := by
      rw [rightmost_eq_getLast, hg]
    have hlast : (inorderKeys t.root).getLast? = some ak := by
      rw [inorderKeys_eq_map, getLast?_map_fst, hg]; rfl
    have hp : (inorderKeys t.root).Pairwise (· < ·) := (bstP_iff _).mp h
    have hmem : ak ∈ inorderKeys t.root := mem_of_getLast?_eq _ _ hlast
    refine ⟨ak, ?_, ?_, hmem, getLast_max_of_sorted _ hp ak hlast⟩
    · rw [LastKey, hr]
    · rw [Max, hr]

/-- The demo map is a binary search tree (checked by evaluation via
`sortedB`). -/
theorem demoT_bst : bstP demoT.root :=
  (bstP_iff _).mpr ((sortedB_iff _).mp (by decide))

/- Basic color/black-height lemmas for the red-black validity proof. -/

theorem colBH_if (c : Color) :
    (if c = Color.black then 1 else 0) = colBH c := by
  cases c <;> rfl

theorem blackHeight_node (c : Color) (l : RBTree) (k v : Int) (r : RBTree)
    (a : Nat) (hl : blackHeight l = some a) (hr : blackHeight r = some a) :
    blackHeight (.node c l k v r) = some (a + colBH c) := by
  simp only [blackHeight, hl, hr, colBH_if]
  simp

theorem blackHeight_node_inv (c : Color) (l : RBTree) (k v : Int)
    (r : RBTree) (h : Nat)
    (hh : blackHeight (.node c l k v r) = some h) :
    ∃ a, blackHeight l = some a ∧ blackHeight r = some a ∧
      h = a + colBH c := by
  cases hl : blackHeight l with
  | none => simp [blackHeight, hl] at hh
  | some a =>
    cases hr : blackHeight r with
    | none => simp [blackHeight, hl, hr] at hh
    | some b =>
      simp only [blackHeight, hl, hr] at hh
      by_cases hab : a = b
      · rw [if_pos hab, Option.some.injEq, colBH_if] at hh
        exact ⟨a, rfl, by rw [hab], hh.symm⟩
      · rw [if_neg hab] at hh
        cases hh

theorem noRedRed_node (c : Color) (l : RBTree) (k v : Int) (r : RBTree) :
    noRedRed (.node c l k v r) = true ↔
      (c = .red → isRed l = false ∧ isRed r = false) ∧
        noRedRed l = true ∧ noRedRed r = true := by
  cases c <;>
    simp [noRedRed, Bool.and_eq_true, Bool.not_eq_true', and_assoc]

theorem rootBlack_blacken (t : RBTree) : rootBlack (blacken t) = true := by
  cases t <;> simp [blacken, rootBlack]

theorem rootBlack_of_not_red (t : RBTree) (h : isRed t = false) :
    rootBlack t = true := by
  cases t with
  | nil => rfl
  | node c l k v r => cases c with
    | red => simp [isRed] at h
    | black => rfl

theorem noRedRed_blacken (t : RBTree) (h : noRedRed t = true) :
    noRedRed (blacken t) = true := by
  cases t with
  | nil => exact h
  | node c l k v r =>
    rw [blacken, noRedRed_node]
    rw [noRedRed_node] at h
    exact ⟨fun hc => Color.noConfusion hc, h.2.1, h.2.2⟩

theorem blacken_of_not_red (t : RBTree) (h : isRed t = false) :
    blacken t = t := by
  cases t with
  | nil => rfl
  | node c l k v r => cases c with
    | red => simp [isRed] at h
    | black => rfl

theorem blackHeight_blacken_red (t : RBTree) (h : Nat) (hr : isRed t = true)
    (hh : blackHeight t = some h) :
    blackHeight (blacken t) = some (h + 1) := by
  cases t with
  | nil => simp [isRed] at hr
  | node c l k v r =>
    cases c with
    | black => simp [isRed] at hr
    | red =>
      obtain ⟨a, hl2, hr2, he⟩ := blackHeight_node_inv _ _ _ _ _ _ hh
      rw [blacken, blackHeight_node _ _ _ _ _ a hl2 hr2]
      have hae : a + colBH Color.black = h + 1 := by
        simp [colBH] at he ⊢; omega
      rw [hae]

theorem blackHeight_blacken_isSome (t : RBTree)
    (h : (blackHeight t).isSome = true) :
    (blackHeight (blacken t)).isSome = true := by
  cases hr : isRed t with
  | true =>
    obtain ⟨a, ha⟩ := Option.isSome_iff_exists.mp h
    rw [blackHeight_blacken_red t a hr ha]; rfl
  | false => rw [blacken_of_not_red t hr]; exact h

theorem isRed_false_of_noConf (c : Color) (hc : c ≠ Color.red) :
    c = Color.black := by
  cases c
  · exact absurd rfl hc
  · rfl

theorem noRedRed_fill (t : RBTree) (cx : Ctx) (ht : noRedRed t = true)
    (hs : noRedRed cx.sib = true)
    (hc : cx.c = .red → isRed t = false ∧ isRed cx.sib = false) :
    noRedRed (fill t cx) = true := by
  obtain ⟨d, cc, ck, cv, csib⟩ := cx
  cases d with
  | left =>
    show noRedRed (.node cc t ck cv csib) = true
    rw [noRedRed_node]
    exact ⟨fun h => hc h, ht, hs⟩
  | right =>
    show noRedRed (.node cc csib ck cv t) = true
    rw [noRedRed_node]
    exact ⟨fun h => ⟨(hc h).2, (hc h).1⟩, hs, ht⟩

theorem blackHeight_fill (t : RBTree) (cx : Ctx) (h : Nat)
    (ht : blackHeight t = some h) (hs : blackHeight cx.sib = some h) :
    blackHeight (fill t cx) = some (h + colBH cx.c) := by
  obtain ⟨d, cc, ck, cv, csib⟩ := cx
  cases d with
  | left => exact blackHeight_node cc t ck cv csib h ht hs
  | right => exact blackHeight_node cc csib ck cv t h hs ht

theorem isRed_fill (t : RBTree) (cx : Ctx) :
    isRed (fill t cx) = true ↔ cx.c = .red := by
  obtain ⟨d, cc, ck, cv, csib⟩ := cx
  cases d <;> cases cc <;> simp [fill, isRed]

theorem rootBlack_fill (t : RBTree) (cx : Ctx) :
    rootBlack (fill t cx) = true ↔ cx.c = .black := by
  obtain ⟨d, cc, ck, cv, csib⟩ := cx
  cases d <;> cases cc <;> simp [fill, rootBlack]

theorem lastBlack_tail (cx : Ctx) (p : List Ctx) (h : lastBlack (cx :: p)) :
    lastBlack p := by
  cases p with
  | nil => trivial
  | cons cy q => exact h

theorem lastBlack_cons (cx : Ctx) (p : List Ctx)
    (h1 : p = [] → cx.c = .black) (h2 : lastBlack p) :
    lastBlack (cx :: p) := by
  cases p with
  | nil => exact h1 rfl
  | cons cy q => exact h2

theorem lastBlack_nil_elim (cx : Ctx) (h : lastBlack [cx]) :
    cx.c = .black := h

theorem pathRR_cons (cx : Ctx) (p : List Ctx) :
    pathRR (cx :: p) ↔
      noRedRed cx.sib = true ∧ (cx.c = .red → isRed cx.sib = false) ∧
        (cx.c = .red → headBlack p) ∧ pathRR p := by
  cases p with
  | nil => simp [pathRR, headBlack]
  | cons cy q => simp [pathRR, headBlack]

theorem plug_nrr : ∀ (p : List Ctx) (t : RBTree), noRedRed t = true →
    pathRR p → (isRed t = true → headBlack p) →
    noRedRed (plug t p) = true := by
  intro p
  induction p with
  | nil => intro t ht _ _; exact ht
  | cons cx q ih =>
    intro t ht hrr hseam
    rw [pathRR_cons] at hrr
    show noRedRed (plug (fill t cx) q) = true
    apply ih
    · apply noRedRed_fill t cx ht hrr.1
      intro hc
      refine ⟨?_, hrr.2.1 hc⟩
      cases hit : isRed t with
      | false => rfl
      | true =>
        have hb : cx.c = Color.black := hseam hit
        rw [hc] at hb
        exact Color.noConfusion hb
    · exact hrr.2.2.2
    · intro hred
      exact hrr.2.2.1 ((isRed_fill t cx).mp hred)

theorem plug_bh : ∀ (p : List Ctx) (t : RBTree) (h : Nat),
    blackHeight t = some h → pathBH p h →
    blackHeight (plug t p) = some (h + sumColBH p) := by
  intro p
  induction p with
  | nil => intro t h ht _; simpa [sumColBH] using ht
  | cons cx q ih =>
    intro t h ht hbh
    obtain ⟨hsib, hrest⟩ := hbh
    show blackHeight (plug (fill t cx) q) = some (h + sumColBH (cx :: q))
    rw [show sumColBH (cx :: q) = colBH cx.c + sumColBH q from rfl]
    have := ih (fill t cx) (h + colBH cx.c)
      (blackHeight_fill t cx h ht hsib) hrest
    rw [this]
    congr 1
    omega

theorem rootBlack_plug : ∀ (p : List Ctx) (t : RBTree), lastBlack p →
    (p = [] → rootBlack t = true) → rootBlack (plug t p) = true := by
  intro p
  induction p with
  | nil => intro t _ h; exact h rfl
  | cons cx q ih =>
    intro t hlast _
    show rootBlack (plug (fill t cx) q) = true
    apply ih
    · exact lastBlack_tail cx q hlast
    · intro hq
      rw [rootBlack_fill]
      rw [hq] at hlast
      exact lastBlack_nil_elim cx hlast

theorem isRed_blacken (t : RBTree) : isRed (blacken t) = false := by
  cases t <;> rfl

theorem bool_false_of_not_true (b : Bool) (h : ¬ b = true) : b = false := by
  cases b
  · rfl
  · exact absurd rfl h

theorem isRed_of_rootBlack (t : RBTree) (h : rootBlack t = true) :
    isRed t = false := by
  cases t with
  | nil => rfl
  | node c l k v r => cases c with
    | red => simp [rootBlack] at h
    | black => rfl

theorem black_of_not_isRed (c : Color) (l : RBTree) (k v : Int) (r : RBTree)
    (h : isRed (.node c l k v r) = false) : c = Color.black := by
  cases c with
  | red => simp [isRed] at h
  | black => rfl

theorem isRed_fill_black (t : RBTree) (cx : Ctx) (h : cx.c = .black) :
    isRed (fill t cx) = false := by
  cases hf : isRed (fill t cx) with
  | false => rfl
  | true =>
    have := (isRed_fill t cx).mp hf
    rw [h] at this
    exact Color.noConfusion this

theorem blackHeight_red_inv (l : RBTree) (k v : Int) (r : RBTree) (h : Nat)
    (hh : blackHeight (.node .red l k v r) = some h) :
    blackHeight l = some h ∧ blackHeight r = some h := by
  obtain ⟨a, hl, hr, he⟩ := blackHeight_node_inv _ _ _ _ _ _ hh
  have hah : a = h := by simp [colBH] at he; omega
  rw [hah] at hl hr
  exact ⟨hl, hr⟩

theorem blackHeight_black_inv (l : RBTree) (k v : Int) (r : RBTree) (h : Nat)
    (hh : blackHeight (.node .black l k v r) = some h) :
    ∃ a, blackHeight l = some a ∧ blackHeight r = some a ∧ h = a + 1 := by
  obtain ⟨a, hl, hr, he⟩ := blackHeight_node_inv _ _ _ _ _ _ hh
  exact ⟨a, hl, hr, by simp [colBH] at he; omega⟩

theorem blackHeight_red_node (l : RBTree) (k v : Int) (r : RBTree) (a : Nat)
    (hl : blackHeight l = some a) (hr : blackHeight r = some a) :
    blackHeight (.node .red l k v r) = some a := by
  rw [blackHeight_node _ _ _ _ _ a hl hr]
  simp [colBH]

theorem blackHeight_black_node (l : RBTree) (k v : Int) (r : RBTree) (a : Nat)
    (hl : blackHeight l = some a) (hr : blackHeight r = some a) :
    blackHeight (.node .black l k v r) = some (a + 1) := by
  rw [blackHeight_node _ _ _ _ _ a hl hr]
  simp [colBH]

theorem pathBH_append : ∀ (p1 p2 : List Ctx) (h : Nat),
    pathBH (p1 ++ p2) h ↔ pathBH p1 h ∧ pathBH p2 (h + sumColBH p1) := by
  intro p1
  induction p1 with
  | nil => intro p2 h; simp [pathBH, sumColBH]
  | cons cx q ih =>
    intro p2 h
    rw [List.cons_append,
      show pathBH (cx :: (q ++ p2)) h
        = (blackHeight cx.sib = some h ∧ pathBH (q ++ p2) (h + colBH cx.c))
        from rfl,
      show pathBH (cx :: q) h
        = (blackHeight cx.sib = some h ∧ pathBH q (h + colBH cx.c))
        from rfl,
      ih,
      show sumColBH (cx :: q) = colBH cx.c + sumColBH q from rfl,
      show h + (colBH cx.c + sumColBH q) = h + colBH cx.c + sumColBH q
        from by omega]
    tauto

theorem pathRR_append : ∀ (p1 p2 : List Ctx), pathRR p1 → pathRR p2 →
    (∀ cx, p1.getLast? = some cx → cx.c = .red → headBlack p2) →
    pathRR (p1 ++ p2) := by
  intro p1
  induction p1 with
  | nil => intro p2 _ h2 _; exact h2
  | cons cx q ih =>
    intro p2 h1 h2 hj
    rw [pathRR_cons] at h1
    rw [List.cons_append, pathRR_cons]
    refine ⟨h1.1, h1.2.1, ?_, ih p2 h1.2.2.2 h2 ?_⟩
    · intro hred
      cases q with
      | nil => exact hj cx rfl hred
      | cons cy qq => exact h1.2.2.1 hred
    · intro cy hcy hredy
      apply hj cy ?_ hredy
      cases q with
      | nil => cases hcy
      | cons cz qq => rw [List.getLast?_cons_cons]; exact hcy

theorem lastBlack_append : ∀ (p1 p2 : List Ctx), lastBlack p1 →
    lastBlack p2 → (p2 = [] → lastBlack p1) → lastBlack (p1 ++ p2) := by
  intro p1
  induction p1 with
  | nil => intro p2 _ h2 _; exact h2
  | cons cx q ih =>
    intro p2 h1 h2 _
    cases hq : q ++ p2 with
    | nil =>
      have hqn : q = [] := by
        cases q with
        | nil => rfl
        | cons a b => cases hq
      have hp2 : p2 = [] := by
        cases p2 with
        | nil => rfl
        | cons a b => rw [hqn] at hq; cases hq
      show lastBlack (cx :: (q ++ p2))
      rw [hq]
      rw [hqn] at h1
      exact h1
    | cons cy qq =>
      show lastBlack (cx :: (q ++ p2))
      rw [hq]
      show lastBlack (cy :: qq)
      rw [← hq]
      exact ih p2 (lastBlack_tail cx q h1) h2
        (fun _ => lastBlack_tail cx q h1)

theorem insertPath_new : ∀ (t : RBTree) (k v : Int) (acc : List Ctx),
    (insertPath t k v acc).2.2 = false →
    (insertPath t k v acc).1 = .node .red .nil k v .nil := by
  intro t
  induction t with
  | nil => intro k v acc _; rfl
  | node c l key val r ihl ihr =>
    intro k v acc hf
    rw [insertPath] at hf ⊢
    by_cases h1 : k < key
    · rw [if_pos h1] at hf ⊢; exact ihl k v _ hf
    · rw [if_neg h1] at hf ⊢
      by_cases h2 : key < k
      · rw [if_pos h2] at hf ⊢; exact ihr k v _ hf
      · rw [if_neg h2] at hf; cases hf

theorem insertPath_entry : ∀ (t : RBTree) (k v : Int) (acc : List Ctx)
    (h : Nat),
    noRedRed t = true → blackHeight t = some h →
    pathBH acc h → pathRR acc → lastBlack acc →
    (isRed t = true → headBlack acc) →
    (acc = [] → isRed t = false) →
    ∃ hn, noRedRed (insertPath t k v acc).1 = true ∧
      blackHeight (insertPath t k v acc).1 = some hn ∧
      pathBH (insertPath t k v acc).2.1 hn ∧
      pathRR (insertPath t k v acc).2.1 ∧
      lastBlack (insertPath t k v acc).2.1 ∧
      ((insertPath t k v acc).2.2 = true →
        isRed (insertPath t k v acc).1 = true →
        headBlack (insertPath t k v acc).2.1) := by
  intro t
  induction t with
  | nil =>
    intro k v acc h hnr hbh hpbh hprr hlast _ _
    rw [show blackHeight RBTree.nil = some 0 from rfl,
      Option.some.injEq] at hbh
    refine ⟨0, rfl, ?_, ?_, hprr, hlast, fun hf => by cases hf⟩
    · exact blackHeight_red_node _ k v _ 0 rfl rfl
    · rw [← hbh] at hpbh; exact hpbh
  | node c l key val r ihl ihr =>
    intro k v acc h hnr hbh hpbh hprr hlast hseam hroot
    have hcomp := (noRedRed_node c l key val r).mp hnr
    obtain ⟨a, hbl, hbr, hha⟩ := blackHeight_node_inv c l key val r h hbh
    have hcblack : isRed (RBTree.node c l key val r) = true ↔ c = .red := by
      cases c <;> simp [isRed]
    rw [insertPath]
    by_cases h1 : k < key
    · rw [if_pos h1]
      apply ihl k v _ a hcomp.2.1 hbl
      · exact ⟨hbr, by rw [← hha]; exact hpbh⟩
      · rw [pathRR_cons]
        exact ⟨hcomp.2.2, fun hc => (hcomp.1 hc).2,
          fun hc => hseam (hcblack.mpr hc), hprr⟩
      · apply lastBlack_cons _ _ _ hlast
        intro hacc
        exact black_of_not_isRed c l key val r (hroot hacc)
      · intro hredl
        show c = Color.black
        cases c with
        | red => rw [(hcomp.1 rfl).1] at hredl; cases hredl
        | black => rfl
      · intro hcon; cases hcon
    · rw [if_neg h1]
      by_cases h2 : key < k
      · rw [if_pos h2]
        apply ihr k v _ a hcomp.2.2 hbr
        · exact ⟨hbl, by rw [← hha]; exact hpbh⟩
        · rw [pathRR_cons]
          exact ⟨hcomp.2.1, fun hc => (hcomp.1 hc).1,
            fun hc => hseam (hcblack.mpr hc), hprr⟩
        · apply lastBlack_cons _ _ _ hlast
          intro hacc
          exact black_of_not_isRed c l key val r (hroot hacc)
        · intro hredr
          show c = Color.black
          cases c with
          | red => rw [(hcomp.1 rfl).2] at hredr; cases hredr
          | black => rfl
        · intro hcon; cases hcon
      · rw [if_neg h2]
        refine ⟨h, ?_, ?_, hpbh, hprr, hlast, ?_⟩
        · rw [noRedRed_node]; exact hcomp
        · rw [blackHeight_node c l key v r a hbl hbr, ← hha]
        · intro _ hr
          apply hseam
          cases c with
          | red => rfl
          | black => simp [isRed] at hr

/-- Loop invariant of `fixInsert`: from a red focus with black-height
matching its chain and no red-red violation except possibly at the
focus-parent seam, the rebuilt root is a valid coloring. -/
theorem fixInsertGo_valid :
    ∀ (fuel : Nat) (n : RBTree) (path : List Ctx) (h : Nat),
      path.length + 1 ≤ fuel →
      isRed n = true → noRedRed n = true → blackHeight n = some h →
      pathBH path h → pathRR path → lastBlack path →
      rootBlack (fixInsertGo fuel n path) = true ∧
      noRedRed (fixInsertGo fuel n path) = true ∧
      (blackHeight (fixInsertGo fuel n path)).isSome = true := by
  intro fuel
  induction fuel with
  | zero =>
    intro n path h hfuel _ _ _ _ _ _
    exact absurd hfuel (by omega)
  | succ f ih =>
    intro n path h hfuel hred hnrr hbh hpbh hprr hlast
    cases path with
    | nil =>
      simp only [fixInsertGo]
      exact ⟨rootBlack_blacken n, noRedRed_blacken n hnrr,
        blackHeight_blacken_isSome n (by rw [hbh]; rfl)⟩
    | cons cx rest =>
      obtain ⟨pd, pc, pk, pv, psib⟩ := cx
      have hsib : blackHeight psib = some h := hpbh.1
      have hrest : pathBH rest (h + colBH pc) := hpbh.2
      have hcomp := (pathRR_cons _ _).mp hprr
      cases pc with
      | black =>
        simp only [fixInsertGo]
        refine ⟨rootBlack_blacken _, noRedRed_blacken _ ?_,
          blackHeight_blacken_isSome _ ?_⟩
        · exact plug_nrr _ _ hnrr hprr (fun _ => rfl)
        · rw [plug_bh _ _ h hbh hpbh]; rfl
      | red =>
        cases rest with
        | nil => exact Color.noConfusion (lastBlack_nil_elim _ hlast)
        | cons g rest2 =>
          obtain ⟨gd, gc, gk, gv, gsib⟩ := g
          have hgc : gc = Color.black := hcomp.2.2.1 rfl
          subst hgc
          have hgsib : blackHeight gsib = some h := by
            have h0 := hrest.1
            simpa [colBH] using h0
          have hrest2 : pathBH rest2 (h + 1) := by
            have h0 := hrest.2
            simpa [colBH] using h0
          have hgcomp := (pathRR_cons _ _).mp hcomp.2.2.2
          have hlast2 : lastBlack rest2 :=
            lastBlack_tail _ _ (lastBlack_tail _ _ hlast)
          have hfuel2 : rest2.length + 2 ≤ f := by
            simp [List.length_cons] at hfuel; omega
          cases gd with
          | left =>
            by_cases hu : isRed gsib = true
            · simp only [fixInsertGo]
              rw [if_pos hu]
              have hnn : noRedRed (.node .red
                  (fill n ⟨pd, .black, pk, pv, psib⟩) gk gv
                  (blacken gsib)) = true := by
                rw [noRedRed_node]
                refine ⟨fun _ => ⟨isRed_fill_black n _ rfl,
                  isRed_blacken gsib⟩, ?_, noRedRed_blacken _ hgcomp.1⟩
                exact noRedRed_fill n _ hnrr hcomp.1
                  (fun hc => Color.noConfusion hc)
              have hbn : blackHeight (.node .red
                  (fill n ⟨pd, .black, pk, pv, psib⟩) gk gv
                  (blacken gsib)) = some (h + 1) := by
                apply blackHeight_red_node _ _ _ _ (h + 1)
                · have h1 := blackHeight_fill n ⟨pd, .black, pk, pv, psib⟩
                    h hbh hsib
                  simpa [colBH] using h1
                · exact blackHeight_blacken_red gsib h hu hgsib
              exact ih _ _ (h + 1) (by omega) rfl hnn hbn hrest2
                hgcomp.2.2.2 hlast2
            · simp only [fixInsertGo]
              rw [if_neg hu]
              have hu' : isRed gsib = false := bool_false_of_not_true _ hu
              cases pd with
              | right =>
                cases n with
                | nil => simp [isRed] at hred
                | node nc nl nk nv nr =>
                  have hnc : nc = Color.red := by
                    cases nc with
                    | red => rfl
                    | black => simp [isRed] at hred
                  subst hnc
                  have hncomp := (noRedRed_node _ _ _ _ _).mp hnrr
                  obtain ⟨hbnl, hbnr⟩ := blackHeight_red_inv nl nk nv nr h hbh
                  have hnn : noRedRed (.node .red psib pk pv nl) = true := by
                    rw [noRedRed_node]
                    exact ⟨fun _ => ⟨hcomp.2.1 rfl, (hncomp.1 rfl).1⟩,
                      hcomp.1, hncomp.2.1⟩
                  have hbn : blackHeight (.node .red psib pk pv nl)
                      = some h := blackHeight_red_node _ _ _ _ h hsib hbnl
                  have hsibnew : blackHeight (.node .red nr gk gv gsib)
                      = some h := blackHeight_red_node _ _ _ _ h hbnr hgsib
                  have hpbh2 : pathBH
                      (⟨Dir.left, Color.black, nk, nv,
                        .node .red nr gk gv gsib⟩ :: rest2) h := by
                    refine ⟨hsibnew, ?_⟩
                    simpa [colBH] using hrest2
                  have hprr2 : pathRR
                      (⟨Dir.left, Color.black, nk, nv,
                        .node .red nr gk gv gsib⟩ :: rest2) := by
                    rw [pathRR_cons]
                    refine ⟨?_, fun hc => Color.noConfusion hc,
                      fun hc => Color.noConfusion hc, hgcomp.2.2.2⟩
                    rw [noRedRed_node]
                    exact ⟨fun _ => ⟨(hncomp.1 rfl).2, hu'⟩,
                      hncomp.2.2, hgcomp.1⟩
                  have hlast3 : lastBlack
                      (⟨Dir.left, Color.black, nk, nv,
                        .node .red nr gk gv gsib⟩ :: rest2) :=
                    lastBlack_cons _ _ (fun _ => rfl) hlast2
                  exact ih _ _ h (by simp [List.length_cons]; omega) rfl
                    hnn hbn hpbh2 hprr2 hlast3
              | left =>
                have hsibnew : blackHeight (.node .red psib gk gv gsib)
                    = some h := blackHeight_red_node _ _ _ _ h hsib hgsib
                have hpbh2 : pathBH
                    (⟨Dir.left, Color.black, pk, pv,
                      .node .red psib gk gv gsib⟩ :: rest2) h := by
                  refine ⟨hsibnew, ?_⟩
                  simpa [colBH] using hrest2
                have hprr2 : pathRR
                    (⟨Dir.left, Color.black, pk, pv,
                      .node .red psib gk gv gsib⟩ :: rest2) := by
                  rw [pathRR_cons]
                  refine ⟨?_, fun hc => Color.noConfusion hc,
                    fun hc => Color.noConfusion hc, hgcomp.2.2.2⟩
                  rw [noRedRed_node]
                  exact ⟨fun _ => ⟨hcomp.2.1 rfl, hu'⟩, hcomp.1, hgcomp.1⟩
                have hlast3 : lastBlack
                    (⟨Dir.left, Color.black, pk, pv,
                      .node .red psib gk gv gsib⟩ :: rest2) :=
                  lastBlack_cons _ _ (fun _ => rfl) hlast2
                exact ih _ _ h (by simp [List.length_cons]; omega) hred
                  hnrr hbh hpbh2 hprr2 hlast3
          | right =>
            by_cases hu : isRed gsib = true
            · simp only [fixInsertGo]
              rw [if_pos hu]
              have hnn : noRedRed (.node .red (blacken gsib) gk gv
                  (fill n ⟨pd, .black, pk, pv, psib⟩)) = true := by
                rw [noRedRed_node]
                refine ⟨fun _ => ⟨isRed_blacken gsib,
                  isRed_fill_black n _ rfl⟩,
                  noRedRed_blacken _ hgcomp.1, ?_⟩
                exact noRedRed_fill n _ hnrr hcomp.1
                  (fun hc => Color.noConfusion hc)
              have hbn : blackHeight (.node .red (blacken gsib) gk gv
                  (fill n ⟨pd, .black, pk, pv, psib⟩)) = some (h + 1) := by
                apply blackHeight_red_node _ _ _ _ (h + 1)
                · exact blackHeight_blacken_red gsib h hu hgsib
                · have h1 := blackHeight_fill n ⟨pd, .black, pk, pv, psib⟩
                    h hbh hsib
                  simpa [colBH] using h1
              exact ih _ _ (h + 1) (by omega) rfl hnn hbn hrest2
                hgcomp.2.2.2 hlast2
            · simp only [fixInsertGo]
              rw [if_neg hu]
              have hu' : isRed gsib = false := bool_false_of_not_true _ hu
              cases pd with
              | left =>
                cases n with
                | nil => simp [isRed] at hred
                | node nc nl nk nv nr =>
                  have hnc : nc = Color.red := by
                    cases nc with
                    | red => rfl
                    | black => simp [isRed] at hred
                  subst hnc
                  have hncomp := (noRedRed_node _ _ _ _ _).mp hnrr
                  obtain ⟨hbnl, hbnr⟩ := blackHeight_red_inv nl nk nv nr h hbh
                  have hnn : noRedRed (.node .red nr pk pv psib) = true := by
                    rw [noRedRed_node]
                    exact ⟨fun _ => ⟨(hncomp.1 rfl).2, hcomp.2.1 rfl⟩,
                      hncomp.2.2, hcomp.1⟩
                  have hbn : blackHeight (.node .red nr pk pv psib)
                      = some h := blackHeight_red_node _ _ _ _ h hbnr hsib
                  have hsibnew : blackHeight (.node .red gsib gk gv nl)
                      = some h := blackHeight_red_node _ _ _ _ h hgsib hbnl
                  have hpbh2 : pathBH
                      (⟨Dir.right, Color.black, nk, nv,
                        .node .red gsib gk gv nl⟩ :: rest2) h := by
                    refine ⟨hsibnew, ?_⟩
                    simpa [colBH] using hrest2
                  have hprr2 : pathRR
                      (⟨Dir.right, Color.black, nk, nv,
                        .node .red gsib gk gv nl⟩ :: rest2) := by
                    rw [pathRR_cons]
                    refine ⟨?_, fun hc => Color.noConfusion hc,
                      fun hc => Color.noConfusion hc, hgcomp.2.2.2⟩
                    rw [noRedRed_node]
                    exact ⟨fun _ => ⟨hu', (hncomp.1 rfl).1⟩,
                      hgcomp.1, hncomp.2.1⟩
                  have hlast3 : lastBlack
                      (⟨Dir.right, Color.black, nk, nv,
                        .node .red gsib gk gv nl⟩ :: rest2) :=
                    lastBlack_cons _ _ (fun _ => rfl) hlast2
                  exact ih _ _ h (by simp [List.length_cons]; omega) rfl
                    hnn hbn hpbh2 hprr2 hlast3
              | right =>
                have hsibnew : blackHeight (.node .red gsib gk gv psib)
                    = some h := blackHeight_red_node _ _ _ _ h hgsib hsib
                have hpbh2 : pathBH
                    (⟨Dir.right, Color.black, pk, pv,
                      .node .red gsib gk gv psib⟩ :: rest2) h := by
                  refine ⟨hsibnew, ?_⟩
                  simpa [colBH] using hrest2
                have hprr2 : pathRR
                    (⟨Dir.right, Color.black, pk, pv,
                      .node .red gsib gk gv psib⟩ :: rest2) := by
                  rw [pathRR_cons]
                  refine ⟨?_, fun hc => Color.noConfusion hc,
                    fun hc => Color.noConfusion hc, hgcomp.2.2.2⟩
                  rw [noRedRed_node]
                  exact ⟨fun _ => ⟨hu', hcomp.2.1 rfl⟩, hgcomp.1, hcomp.1⟩
                have hlast3 : lastBlack
                    (⟨Dir.right, Color.black, pk, pv,
                      .node .red gsib gk gv psib⟩ :: rest2) :=
                  lastBlack_cons _ _ (fun _ => rfl) hlast2
                exact ih _ _ h (by simp [List.length_cons]; omega) hred
                  hnrr hbh hpbh2 hprr2 hlast3

theorem Put_valid (t : TM) (k v : Int) (hrb : rootBlack t.root = true)
    (hnr : noRedRed t.root = true)
    (hbh : (blackHeight t.root).isSome = true) :
    rootBlack (Put t k v).root = true ∧ noRedRed (Put t k v).root = true ∧
      (blackHeight (Put t k v).root).isSome = true := by
  obtain ⟨H, hH⟩ := Option.isSome_iff_exists.mp hbh
  obtain ⟨hn, e1, e2, e3, e4, e5, e6⟩ := insertPath_entry t.root k v [] H
    hnr hH trivial trivial trivial (fun _ => trivial)
    (fun _ => isRed_of_rootBlack _ hrb)
  rw [Put]
  by_cases hf : (insertPath t.root k v []).2.2 = true
  · rw [if_pos hf]
    dsimp only
    refine ⟨rootBlack_blacken _, noRedRed_blacken _ ?_,
      blackHeight_blacken_isSome _ ?_⟩
    · exact plug_nrr _ _ e1 e4 (e6 hf)
    · rw [plug_bh _ _ hn e2 e3]; rfl
  · rw [if_neg hf]
    dsimp only
    have hff : (insertPath t.root k v []).2.2 = false :=
      bool_false_of_not_true _ hf
    have hnew := insertPath_new t.root k v [] hff
    exact fixInsertGo_valid _ _ _ hn (le_refl _) (by rw [hnew]; rfl)
      e1 e2 e3 e4 e5

theorem isRed_node_red_elim (c : Color) (l : RBTree) (k v : Int) (r : RBTree)
    (h : isRed (.node c l k v r) = true) : c = Color.red := by
  cases c with
  | red => rfl
  | black => simp [isRed] at h

theorem fixDelCasesL_valid (x : RBTree) (pd : Dir) (pc : Color) (pk pv : Int)
    (psib : RBTree) (rest : List Ctx) (hx : Nat)
    (hxr : isRed x = false) (hnrx : noRedRed x = true)
    (hbx : blackHeight x = some hx)
    (hsb : isRed psib = false)
    (hsibh : blackHeight psib = some (hx + 1))
    (hsnr : noRedRed psib = true)
    (hrest : pathBH rest (hx + 1 + colBH pc))
    (hprr : pathRR rest)
    (hpred : pc = .red → headBlack rest)
    (hlastR : lastBlack rest) :
    delState (fixDelCasesL x ⟨pd, pc, pk, pv, psib⟩ rest) ∧
      ((fixDelCasesL x ⟨pd, pc, pk, pv, psib⟩ rest).2 = [] ∨
        ((fixDelCasesL x ⟨pd, pc, pk, pv, psib⟩ rest).2 = rest ∧
          (pc = .red →
            isRed (fixDelCasesL x ⟨pd, pc, pk, pv, psib⟩ rest).1 = true))) := by
  cases psib with
  | nil =>
    exfalso
    rw [show blackHeight RBTree.nil = some 0 from rfl,
      Option.some.injEq] at hsibh
    omega
  | node sc sl sk sv sr =>
    have hscb : sc = Color.black := black_of_not_isRed _ _ _ _ _ hsb
    subst hscb
    obtain ⟨a, hbsl, hbsr, hae⟩ := blackHeight_black_inv sl sk sv sr (hx + 1)
      hsibh
    have ha : hx = a := by omega
    subst ha
    have hsnrc := (noRedRed_node _ _ _ _ _).mp hsnr
    by_cases hbb : (!isRed sl && !isRed sr) = true
    · have hslb : isRed sl = false := by
        simp only [Bool.and_eq_true, Bool.not_eq_true'] at hbb
        exact hbb.1
      have hsrb : isRed sr = false := by
        simp only [Bool.and_eq_true, Bool.not_eq_true'] at hbb
        exact hbb.2
      have hres : fixDelCasesL x ⟨pd, pc, pk, pv, .node .black sl sk sv sr⟩
          rest = (.node pc x pk pv (.node .red sl sk sv sr), rest) := by
        simp only [fixDelCasesL]
        rw [if_pos hbb]
      rw [hres]
      refine ⟨⟨hx + colBH pc, ?_, ?_, ?_, hprr, hlastR⟩, Or.inr ⟨rfl, ?_⟩⟩
      · show noRedRed (.node .black x pk pv (.node .red sl sk sv sr)) = true
        rw [noRedRed_node]
        refine ⟨fun hc => Color.noConfusion hc, hnrx, ?_⟩
        rw [noRedRed_node]
        exact ⟨fun _ => ⟨hslb, hsrb⟩, hsnrc.2.1, hsnrc.2.2⟩
      · exact blackHeight_node _ _ _ _ _ hx hbx
          (blackHeight_red_node _ _ _ _ hx hbsl hbsr)
      · have heq : hx + 1 + colBH pc = hx + colBH pc + 1 := by omega
        rw [heq] at hrest
        exact hrest
      · intro hpc; rw [hpc]; rfl
    · have hbb' : isRed sl = true ∨ isRed sr = true := by
        by_cases h1 : isRed sl = true
        · exact Or.inl h1
        · by_cases h2 : isRed sr = true
          · exact Or.inr h2
          · exfalso
            apply hbb
            simp [bool_false_of_not_true _ h1, bool_false_of_not_true _ h2]
      by_cases hsr : isRed sr = true
      · have hres : fixDelCasesL x ⟨pd, pc, pk, pv, .node .black sl sk sv sr⟩
            rest
            = (plug (.node pc (.node .black x pk pv sl) sk sv (blacken sr))
                rest, []) := by
          simp only [fixDelCasesL]
          rw [if_neg hbb, if_pos hsr]
        rw [hres]
        have hT : blackHeight (.node pc (.node .black x pk pv sl) sk sv
            (blacken sr)) = some (hx + 1 + colBH pc) := by
          apply blackHeight_node _ _ _ _ _ (hx + 1)
          · exact blackHeight_black_node _ _ _ _ hx hbx hbsl
          · exact blackHeight_blacken_red sr hx hsr hbsr
        have hTn : noRedRed (.node pc (.node .black x pk pv sl) sk sv
            (blacken sr)) = true := by
          rw [noRedRed_node]
          refine ⟨fun _ => ⟨rfl, isRed_blacken sr⟩, ?_,
            noRedRed_blacken _ hsnrc.2.2⟩
          rw [noRedRed_node]
          exact ⟨fun hc => Color.noConfusion hc, hnrx, hsnrc.2.1⟩
        have hplugN : noRedRed (plug (.node pc (.node .black x pk pv sl) sk sv
            (blacken sr)) rest) = true := by
          apply plug_nrr _ _ hTn hprr
          intro hr
          exact hpred (isRed_node_red_elim _ _ _ _ _ hr)
        have hplugB := plug_bh rest _ _ hT hrest
        exact ⟨⟨_, noRedRed_blacken _ hplugN, hplugB, trivial, trivial,
          trivial⟩, Or.inl rfl⟩
      · have hsl : isRed sl = true := by
          rcases hbb' with h | h
          · exact h
          · exact absurd h hsr
        cases sl with
        | nil => simp [isRed] at hsl
        | node slc lll llk llv llr =>
          have hslc : slc = Color.red := isRed_node_red_elim _ _ _ _ _ hsl
          subst hslc
          obtain ⟨hblll, hbllr⟩ := blackHeight_red_inv lll llk llv llr hx hbsl
          have hslcomp := (noRedRed_node _ _ _ _ _).mp hsnrc.2.1
          have hres : fixDelCasesL x
              ⟨pd, pc, pk, pv,
                .node .black (.node .red lll llk llv llr) sk sv sr⟩ rest
              = (plug (.node pc (.node .black x pk pv lll) llk llv
                  (blacken (.node .red llr sk sv sr))) rest, []) := by
            simp only [fixDelCasesL]
            rw [if_neg hbb, if_neg hsr]
          rw [hres]
          have hT : blackHeight (.node pc (.node .black x pk pv lll) llk llv
              (blacken (.node .red llr sk sv sr)))
              = some (hx + 1 + colBH pc) := by
            apply blackHeight_node _ _ _ _ _ (hx + 1)
            · exact blackHeight_black_node _ _ _ _ hx hbx hblll
            · exact blackHeight_blacken_red _ hx rfl
                (blackHeight_red_node _ _ _ _ hx hbllr hbsr)
          have hTn : noRedRed (.node pc (.node .black x pk pv lll) llk llv
              (blacken (.node .red llr sk sv sr))) = true := by
            rw [noRedRed_node]
            refine ⟨fun _ => ⟨rfl, isRed_blacken _⟩, ?_,
              noRedRed_blacken _ ?_⟩
            · rw [noRedRed_node]
              exact ⟨fun hc => Color.noConfusion hc, hnrx, hslcomp.2.1⟩
            · rw [noRedRed_node]
              exact ⟨fun _ => ⟨(hslcomp.1 rfl).2,
                bool_false_of_not_true _ hsr⟩, hslcomp.2.2, hsnrc.2.2⟩
          have hplugN : noRedRed (plug (.node pc (.node .black x pk pv lll)
              llk llv (blacken (.node .red llr sk sv sr))) rest) = true := by
            apply plug_nrr _ _ hTn hprr
            intro hr
            exact hpred (isRed_node_red_elim _ _ _ _ _ hr)
          have hplugB := plug_bh rest _ _ hT hrest
          exact ⟨⟨_, noRedRed_blacken _ hplugN, hplugB, trivial, trivial,
            trivial⟩, Or.inl rfl⟩

theorem fixDelCasesR_valid (x : RBTree) (pd : Dir) (pc : Color) (pk pv : Int)
    (psib : RBTree) (rest : List Ctx) (hx : Nat)
    (hxr : isRed x = false) (hnrx : noRedRed x = true)
    (hbx : blackHeight x = some hx)
    (hsb : isRed psib = false)
    (hsibh : blackHeight psib = some (hx + 1))
    (hsnr : noRedRed psib = true)
    (hrest : pathBH rest (hx + 1 + colBH pc))
    (hprr : pathRR rest)
    (hpred : pc = .red → headBlack rest)
    (hlastR : lastBlack rest) :
    delState (fixDelCasesR x ⟨pd, pc, pk, pv, psib⟩ rest) ∧
      ((fixDelCasesR x ⟨pd, pc, pk, pv, psib⟩ rest).2 = [] ∨
        ((fixDelCasesR x ⟨pd, pc, pk, pv, psib⟩ rest).2 = rest ∧
          (pc = .red →
            isRed (fixDelCasesR x ⟨pd, pc, pk, pv, psib⟩ rest).1 = true))) := by
  cases psib with
  | nil =>
    exfalso
    rw [show blackHeight RBTree.nil = some 0 from rfl,
      Option.some.injEq] at hsibh
    omega
  | node sc sl sk sv sr =>
    have hscb : sc = Color.black := black_of_not_isRed _ _ _ _ _ hsb
    subst hscb
    obtain ⟨a, hbsl, hbsr, hae⟩ := blackHeight_black_inv sl sk sv sr (hx + 1)
      hsibh
    have ha : hx = a := by omega
    subst ha
    have hsnrc := (noRedRed_node _ _ _ _ _).mp hsnr
    by_cases hbb : (!isRed sl && !isRed sr) = true
    · have hslb : isRed sl = false := by
        simp only [Bool.and_eq_true, Bool.not_eq_true'] at hbb
        exact hbb.1
      have hsrb : isRed sr = false := by
        simp only [Bool.and_eq_true, Bool.not_eq_true'] at hbb
        exact hbb.2
      have hres : fixDelCasesR x ⟨pd, pc, pk, pv, .node .black sl sk sv sr⟩
          rest = (.node pc (.node .red sl sk sv sr) pk pv x, rest) := by
        simp only [fixDelCasesR]
        rw [if_pos hbb]
      rw [hres]
      refine ⟨⟨hx + colBH pc, ?_, ?_, ?_, hprr, hlastR⟩, Or.inr ⟨rfl, ?_⟩⟩
      · show noRedRed (.node .black (.node .red sl sk sv sr) pk pv x) = true
        rw [noRedRed_node]
        refine ⟨fun hc => Color.noConfusion hc, ?_, hnrx⟩
        rw [noRedRed_node]
        exact ⟨fun _ => ⟨hslb, hsrb⟩, hsnrc.2.1, hsnrc.2.2⟩
      · exact blackHeight_node _ _ _ _ _ hx
          (blackHeight_red_node _ _ _ _ hx hbsl hbsr) hbx
      · have heq : hx + 1 + colBH pc = hx + colBH pc + 1 := by omega
        rw [heq] at hrest
        exact hrest
      · intro hpc; rw [hpc]; rfl
    · have hbb' : isRed sl = true ∨ isRed sr = true := by
        by_cases h1 : isRed sl = true
        · exact Or.inl h1
        · by_cases h2 : isRed sr = true
          · exact Or.inr h2
          · exfalso
            apply hbb
            simp [bool_false_of_not_true _ h1, bool_false_of_not_true _ h2]
      by_cases hsl : isRed sl = true
      · have hres : fixDelCasesR x ⟨pd, pc, pk, pv, .node .black sl sk sv sr⟩
            rest
            = (plug (.node pc (blacken sl) sk sv (.node .black sr pk pv x))
                rest, []) := by
          simp only [fixDelCasesR]
          rw [if_neg hbb, if_pos hsl]
        rw [hres]
        have hT : blackHeight (.node pc (blacken sl) sk sv
            (.node .black sr pk pv x)) = some (hx + 1 + colBH pc) := by
          apply blackHeight_node _ _ _ _ _ (hx + 1)
          · exact blackHeight_blacken_red sl hx hsl hbsl
          · exact blackHeight_black_node _ _ _ _ hx hbsr hbx
        have hTn : noRedRed (.node pc (blacken sl) sk sv
            (.node .black sr pk pv x)) = true := by
          rw [noRedRed_node]
          refine ⟨fun _ => ⟨isRed_blacken sl, rfl⟩,
            noRedRed_blacken _ hsnrc.2.1, ?_⟩
          rw [noRedRed_node]
          exact ⟨fun hc => Color.noConfusion hc, hsnrc.2.2, hnrx⟩
        have hplugN : noRedRed (plug (.node pc (blacken sl) sk sv
            (.node .black sr pk pv x)) rest) = true := by
          apply plug_nrr _ _ hTn hprr
          intro hr
          exact hpred (isRed_node_red_elim _ _ _ _ _ hr)
        have hplugB := plug_bh rest _ _ hT hrest
        exact ⟨⟨_, noRedRed_blacken _ hplugN, hplugB, trivial, trivial,
          trivial⟩, Or.inl rfl⟩
      · have hsr : isRed sr = true := by
          rcases hbb' with h | h
          · exact absurd h hsl
          · exact h
        cases sr with
        | nil => simp [isRed] at hsr
        | node src rrl rrk rrv rrr =>
          have hsrc : src = Color.red := isRed_node_red_elim _ _ _ _ _ hsr
          subst hsrc
          obtain ⟨hbrrl, hbrrr⟩ := blackHeight_red_inv rrl rrk rrv rrr hx hbsr
          have hsrcomp := (noRedRed_node _ _ _ _ _).mp hsnrc.2.2
          have hres : fixDelCasesR x
              ⟨pd, pc, pk, pv,
                .node .black sl sk sv (.node .red rrl rrk rrv rrr)⟩ rest
              = (plug (.node pc (blacken (.node .red sl sk sv rrl)) rrk rrv
                  (.node .black rrr pk pv x)) rest, []) := by
            simp only [fixDelCasesR]
            rw [if_neg hbb, if_neg hsl]
          rw [hres]
          have hT : blackHeight (.node pc (blacken (.node .red sl sk sv rrl))
              rrk rrv (.node .black rrr pk pv x))
              = some (hx + 1 + colBH pc) := by
            apply blackHeight_node _ _ _ _ _ (hx + 1)
            · exact blackHeight_blacken_red _ hx rfl
                (blackHeight_red_node _ _ _ _ hx hbsl hbrrl)
            · exact blackHeight_black_node _ _ _ _ hx hbrrr hbx
          have hTn : noRedRed (.node pc (blacken (.node .red sl sk sv rrl))
              rrk rrv (.node .black rrr pk pv x)) = true := by
            rw [noRedRed_node]
            refine ⟨fun _ => ⟨isRed_blacken _, rfl⟩,
              noRedRed_blacken _ ?_, ?_⟩
            · rw [noRedRed_node]
              exact ⟨fun _ => ⟨bool_false_of_not_true _ hsl,
                (hsrcomp.1 rfl).1⟩, hsnrc.2.1, hsrcomp.2.1⟩
            · rw [noRedRed_node]
              exact ⟨fun hc => Color.noConfusion hc, hsrcomp.2.2, hnrx⟩
          have hplugN : noRedRed (plug (.node pc
              (blacken (.node .red sl sk sv rrl)) rrk rrv
              (.node .black rrr pk pv x)) rest) = true := by
            apply plug_nrr _ _ hTn hprr
            intro hr
            exact hpred (isRed_node_red_elim _ _ _ _ _ hr)
          have hplugB := plug_bh rest _ _ hT hrest
          exact ⟨⟨_, noRedRed_blacken _ hplugN, hplugB, trivial, trivial,
            trivial⟩, Or.inl rfl⟩

theorem fixDelStepL_valid (x : RBTree) (pd : Dir) (pc : Color) (pk pv : Int)
    (psib : RBTree) (rest : List Ctx) (hx : Nat)
    (hxr : isRed x = false) (hnrx : noRedRed x = true)
    (hbx : blackHeight x = some hx)
    (hsibh : blackHeight psib = some (hx + 1))
    (hsnr : noRedRed psib = true)
    (hpredsib : pc = .red → isRed psib = false)
    (hrest : pathBH rest (hx + 1 + colBH pc))
    (hprr : pathRR rest)
    (hpred : pc = .red → headBlack rest)
    (hlastR : lastBlack rest) :
    delState (fixDelStepL x ⟨pd, pc, pk, pv, psib⟩ rest) ∧
      ((fixDelStepL x ⟨pd, pc, pk, pv, psib⟩ rest).2.length ≤ rest.length ∨
        isRed (fixDelStepL x ⟨pd, pc, pk, pv, psib⟩ rest).1 = true) := by
  cases psib with
  | nil =>
    exfalso
    rw [show blackHeight RBTree.nil = some 0 from rfl,
      Option.some.injEq] at hsibh
    omega
  | node sc sl sk sv sr =>
    cases sc with
    | black =>
      have hres : fixDelStepL x ⟨pd, pc, pk, pv, .node .black sl sk sv sr⟩
          rest = fixDelCasesL x ⟨pd, pc, pk, pv, .node .black sl sk sv sr⟩
          rest := by
        simp only [fixDelStepL]
      rw [hres]
      obtain ⟨hds, hc2⟩ := fixDelCasesL_valid x pd pc pk pv
        (.node .black sl sk sv sr) rest hx hxr hnrx hbx rfl hsibh hsnr
        hrest hprr hpred hlastR
      refine ⟨hds, Or.inl ?_⟩
      rcases hc2 with he | ⟨he, _⟩
      · rw [he]; simp
      · rw [he]
    | red =>
      have hpcb : pc = Color.black := by
        cases pc with
        | red =>
          have := hpredsib rfl
          simp [isRed] at this
        | black => rfl
      subst hpcb
      obtain ⟨hbsl, hbsr⟩ := blackHeight_red_inv sl sk sv sr (hx + 1) hsibh
      have hsnrc := (noRedRed_node _ _ _ _ _).mp hsnr
      have hres : fixDelStepL x ⟨pd, .black, pk, pv, .node .red sl sk sv sr⟩
          rest = fixDelCasesL x ⟨Dir.left, Color.red, pk, pv, sl⟩
          (⟨Dir.left, Color.black, sk, sv, sr⟩ :: rest) := by
        simp only [fixDelStepL]
      rw [hres]
      have hrest' : pathBH (⟨Dir.left, Color.black, sk, sv, sr⟩ :: rest)
          (hx + 1 + colBH Color.red) := by
        refine ⟨?_, ?_⟩
        · rw [show hx + 1 + colBH Color.red = hx + 1 from by simp [colBH]]
          exact hbsr
        · rw [show hx + 1 + colBH Color.red + colBH Color.black
            = hx + 1 + colBH Color.black from by simp [colBH]]
          exact hrest
      have hprr' : pathRR (⟨Dir.left, Color.black, sk, sv, sr⟩ :: rest) := by
        rw [pathRR_cons]
        exact ⟨hsnrc.2.2, fun hc => Color.noConfusion hc,
          fun hc => Color.noConfusion hc, hprr⟩
      obtain ⟨hds, hc2⟩ := fixDelCasesL_valid x Dir.left Color.red pk pv sl
        (⟨Dir.left, Color.black, sk, sv, sr⟩ :: rest) hx hxr hnrx hbx
        ((hsnrc.1 rfl).1) hbsl hsnrc.2.1 hrest' hprr' (fun _ => rfl)
        (lastBlack_cons _ _ (fun _ => rfl) hlastR)
      refine ⟨hds, ?_⟩
      rcases hc2 with he | ⟨he, hred⟩
      · exact Or.inl (by rw [he]; simp)
      · exact Or.inr (hred rfl)

theorem fixDelStepR_valid (x : RBTree) (pd : Dir) (pc : Color) (pk pv : Int)
    (psib : RBTree) (rest : List Ctx) (hx : Nat)
    (hxr : isRed x = false) (hnrx : noRedRed x = true)
    (hbx : blackHeight x = some hx)
    (hsibh : blackHeight psib = some (hx + 1))
    (hsnr : noRedRed psib = true)
    (hpredsib : pc = .red → isRed psib = false)
    (hrest : pathBH rest (hx + 1 + colBH pc))
    (hprr : pathRR rest)
    (hpred : pc = .red → headBlack rest)
    (hlastR : lastBlack rest) :
    delState (fixDelStepR x ⟨pd, pc, pk, pv, psib⟩ rest) ∧
      ((fixDelStepR x ⟨pd, pc, pk, pv, psib⟩ rest).2.length ≤ rest.length ∨
        isRed (fixDelStepR x ⟨pd, pc, pk, pv, psib⟩ rest).1 = true) := by
  cases psib with
  | nil =>
    exfalso
    rw [show blackHeight RBTree.nil = some 0 from rfl,
      Option.some.injEq] at hsibh
    omega
  | node sc sl sk sv sr =>
    cases sc with
    | black =>
      have hres : fixDelStepR x ⟨pd, pc, pk, pv, .node .black sl sk sv sr⟩
          rest = fixDelCasesR x ⟨pd, pc, pk, pv, .node .black sl sk sv sr⟩
          rest := by
        simp only [fixDelStepR]
      rw [hres]
      obtain ⟨hds, hc2⟩ := fixDelCasesR_valid x pd pc pk pv
        (.node .black sl sk sv sr) rest hx hxr hnrx hbx rfl hsibh hsnr
        hrest hprr hpred hlastR
      refine ⟨hds, Or.inl ?_⟩
      rcases hc2 with he | ⟨he, _⟩
      · rw [he]; simp
      · rw [he]
    | red =>
      have hpcb : pc = Color.black := by
        cases pc with
        | red =>
          have := hpredsib rfl
          simp [isRed] at this
        | black => rfl
      subst hpcb
      obtain ⟨hbsl, hbsr⟩ := blackHeight_red_inv sl sk sv sr (hx + 1) hsibh
      have hsnrc := (noRedRed_node _ _ _ _ _).mp hsnr
      have hres : fixDelStepR x ⟨pd, .black, pk, pv, .node .red sl sk sv sr⟩
          rest = fixDelCasesR x ⟨Dir.right, Color.red, pk, pv, sr⟩
          (⟨Dir.right, Color.black, sk, sv, sl⟩ :: rest) := by
        simp only [fixDelStepR]
      rw [hres]
      have hrest' : pathBH (⟨Dir.right, Color.black, sk, sv, sl⟩ :: rest)
          (hx + 1 + colBH Color.red) := by
        refine ⟨?_, ?_⟩
        · rw [show hx + 1 + colBH Color.red = hx + 1 from by simp [colBH]]
          exact hbsl
        · rw [show hx + 1 + colBH Color.red + colBH Color.black
            = hx + 1 + colBH Color.black from by simp [colBH]]
          exact hrest
      have hprr' : pathRR (⟨Dir.right, Color.black, sk, sv, sl⟩ :: rest) := by
        rw [pathRR_cons]
        exact ⟨hsnrc.2.1, fun hc => Color.noConfusion hc,
          fun hc => Color.noConfusion hc, hprr⟩
      obtain ⟨hds, hc2⟩ := fixDelCasesR_valid x Dir.right Color.red pk pv sr
        (⟨Dir.right, Color.black, sk, sv, sl⟩ :: rest) hx hxr hnrx hbx
        ((hsnrc.1 rfl).2) hbsr hsnrc.2.2 hrest' hprr' (fun _ => rfl)
        (lastBlack_cons _ _ (fun _ => rfl) hlastR)
      refine ⟨hds, ?_⟩
      rcases hc2 with he | ⟨he, hred⟩
      · exact Or.inl (by rw [he]; simp)
      · exact Or.inr (hred rfl)

/-- Loop invariant of `fixDelete`: from a double-black focus (the chain
expects one more black level than the focus provides) the rebuilt root
is a valid coloring.  The second fuel disjunct covers the case-1+case-2
iteration, which leaves a red focus that exits on the next check. -/
theorem fixDeleteGo_valid :
    ∀ (fuel : Nat) (x : RBTree) (path : List Ctx) (hx : Nat),
      (path.length + 2 ≤ fuel ∨ (isRed x = true ∧ 1 ≤ fuel)) →
      noRedRed (blacken x) = true →
      blackHeight x = some hx →
      pathBH path (hx + 1) →
      pathRR path → lastBlack path →
      rootBlack (fixDeleteGo fuel x path) = true ∧
      noRedRed (fixDeleteGo fuel x path) = true ∧
      (blackHeight (fixDeleteGo fuel x path)).isSome = true := by
  intro fuel
  induction fuel with
  | zero =>
    intro x path hx hfuel _ _ _ _ _
    rcases hfuel with h | ⟨_, h⟩ <;> exact absurd h (by omega)
  | succ f ih =>
    intro x path hx hfuel hnrB hbx hpbh hprr hlast
    cases path with
    | nil =>
      simp only [fixDeleteGo]
      exact ⟨rootBlack_blacken x, hnrB,
        blackHeight_blacken_isSome x (by rw [hbx]; rfl)⟩
    | cons p rest =>
      by_cases hxr : isRed x = true
      · simp only [fixDeleteGo]
        rw [if_pos hxr]
        refine ⟨?_, ?_, ?_⟩
        · exact rootBlack_plug _ _ hlast (fun _ => rootBlack_blacken x)
        · exact plug_nrr _ _ hnrB hprr
            (fun hr => absurd hr (by simp [isRed_blacken]))
        · rw [plug_bh _ _ (hx + 1)
            (blackHeight_blacken_red x hx hxr hbx) hpbh]
          rfl
      · simp only [fixDeleteGo]
        rw [if_neg hxr]
        have hxr' : isRed x = false := bool_false_of_not_true _ hxr
        have hnrx : noRedRed x = true := by
          rw [← blacken_of_not_red x hxr']; exact hnrB
        obtain ⟨pd, pc, pk, pv, psib⟩ := p
        have hsibh : blackHeight psib = some (hx + 1) := hpbh.1
        have hrest : pathBH rest (hx + 1 + colBH pc) := hpbh.2
        have hcomp := (pathRR_cons _ _).mp hprr
        have hfuel' : rest.length + 2 ≤ f := by
          rcases hfuel with h | ⟨hcon, _⟩
          · simp [List.length_cons] at h; omega
          · exact absurd hcon hxr
        have hlastR : lastBlack rest := lastBlack_tail _ _ hlast
        by_cases hdir : pd = Dir.left ∨ (x = RBTree.nil ∧ psib = RBTree.nil)
        · rw [if_pos hdir]
          obtain ⟨hds, hlen⟩ := fixDelStepL_valid x pd pc pk pv psib rest hx
            hxr' hnrx hbx hsibh hcomp.1 hcomp.2.1 hrest hcomp.2.2.2
            hcomp.2.2.1 hlastR
          obtain ⟨h2, hnr2, hb2, hpbh2, hprr2, hlast2⟩ := hds
          apply ih _ _ h2 ?_ hnr2 hb2 hpbh2 hprr2 hlast2
          rcases hlen with hl | hr
          · exact Or.inl (by omega)
          · exact Or.inr ⟨hr, by omega⟩
        · rw [if_neg hdir]
          obtain ⟨hds, hlen⟩ := fixDelStepR_valid x pd pc pk pv psib rest hx
            hxr' hnrx hbx hsibh hcomp.1 hcomp.2.1 hrest hcomp.2.2.2
            hcomp.2.2.1 hlastR
          obtain ⟨h2, hnr2, hb2, hpbh2, hprr2, hlast2⟩ := hds
          apply ih _ _ h2 ?_ hnr2 hb2 hpbh2 hprr2 hlast2
          rcases hlen with hl | hr
          · exact Or.inl (by omega)
          · exact Or.inr ⟨hr, by omega⟩

theorem findPath_entry : ∀ (t : RBTree) (key : Int) (acc : List Ctx)
    (h : Nat) (z : RBTree) (pz : List Ctx),
    noRedRed t = true → blackHeight t = some h →
    pathBH acc h → pathRR acc → lastBlack acc →
    (isRed t = true → headBlack acc) →
    (acc = [] → isRed t = false) →
    findPath t key acc = some (z, pz) →
    ∃ hz, noRedRed z = true ∧ blackHeight z = some hz ∧
      pathBH pz hz ∧ pathRR pz ∧ lastBlack pz ∧
      (isRed z = true → headBlack pz) ∧ (pz = [] → isRed z = false) := by
  intro t
  induction t with
  | nil => intro key acc h z pz _ _ _ _ _ _ _ hfp; cases hfp
  | node c l key0 val r ihl ihr =>
    intro key acc h z pz hnr hbh hpbh hprr hlast hseam hroot hfp
    have hcomp := (noRedRed_node c l key0 val r).mp hnr
    obtain ⟨a, hbl, hbr, hha⟩ := blackHeight_node_inv c l key0 val r h hbh
    have hcred : isRed (RBTree.node c l key0 val r) = true ↔ c = .red := by
      cases c <;> simp [isRed]
    rw [findPath] at hfp
    by_cases he : key = key0
    · rw [if_pos he] at hfp
      rw [Option.some.injEq] at hfp
      injection hfp with h1 h2
      subst h1; subst h2
      exact ⟨h, hnr, hbh, hpbh, hprr, hlast, hseam, hroot⟩
    · rw [if_neg he] at hfp
      by_cases hlt : key < key0
      · rw [if_pos hlt] at hfp
        apply ihl key _ a z pz hcomp.2.1 hbl ?_ ?_ ?_ ?_ ?_ hfp
        · exact ⟨hbr, by rw [← hha]; exact hpbh⟩
        · rw [pathRR_cons]
          exact ⟨hcomp.2.2, fun hc => (hcomp.1 hc).2,
            fun hc => hseam (hcred.mpr hc), hprr⟩
        · apply lastBlack_cons _ _ _ hlast
          intro hacc
          exact black_of_not_isRed c l key0 val r (hroot hacc)
        · intro hredl
          show c = Color.black
          cases c with
          | red => rw [(hcomp.1 rfl).1] at hredl; cases hredl
          | black => rfl
        · intro hcon; cases hcon
      · rw [if_neg hlt] at hfp
        apply ihr key _ a z pz hcomp.2.2 hbr ?_ ?_ ?_ ?_ ?_ hfp
        · exact ⟨hbl, by rw [← hha]; exact hpbh⟩
        · rw [pathRR_cons]
          exact ⟨hcomp.2.1, fun hc => (hcomp.1 hc).1,
            fun hc => hseam (hcred.mpr hc), hprr⟩
        · apply lastBlack_cons _ _ _ hlast
          intro hacc
          exact black_of_not_isRed c l key0 val r (hroot hacc)
        · intro hredr
          show c = Color.black
          cases c with
          | red => rw [(hcomp.1 rfl).2] at hredr; cases hredr
          | black => rfl
        · intro hcon; cases hcon

theorem delMin_shift : ∀ (t : RBTree) (acc : List Ctx) (yc : Color)
    (yk yv : Int) (yr : RBTree) (sp : List Ctx),
    delMin t acc = some (yc, yk, yv, yr, sp) →
    ∀ acc2, delMin t (acc ++ acc2) = some (yc, yk, yv, yr, sp ++ acc2) := by
  intro t
  induction t with
  | nil => intro acc yc yk yv yr sp hd; cases hd
  | node c l k v r ihl _ =>
    intro acc yc yk yv yr sp hd acc2
    cases l with
    | nil =>
      rw [delMin] at hd
      rw [Option.some.injEq] at hd
      injection hd with h1 hd
      injection hd with h2 hd
      injection hd with h3 hd
      injection hd with h4 h5
      subst h1; subst h2; subst h3; subst h4; subst h5
      rfl
    | node lc ll lk lv lr =>
      rw [show delMin (.node c (.node lc ll lk lv lr) k v r) acc
        = delMin (.node lc ll lk lv lr) (⟨.left, c, k, v, r⟩ :: acc)
        from rfl] at hd
      rw [show delMin (.node c (.node lc ll lk lv lr) k v r) (acc ++ acc2)
        = delMin (.node lc ll lk lv lr) (⟨.left, c, k, v, r⟩ :: (acc ++ acc2))
        from rfl]
      rw [show (⟨Dir.left, c, k, v, r⟩ : Ctx) :: (acc ++ acc2)
        = (⟨Dir.left, c, k, v, r⟩ :: acc) ++ acc2 from rfl]
      exact ihl _ yc yk yv yr sp hd acc2

theorem delMin_entry : ∀ (t : RBTree) (acc : List Ctx) (h : Nat)
    (yc : Color) (yk yv : Int) (yr : RBTree) (sp : List Ctx),
    noRedRed t = true → blackHeight t = some h →
    pathBH acc h → pathRR acc → lastBlack acc →
    (isRed t = true → headBlack acc) →
    (acc = [] → isRed t = false) →
    delMin t acc = some (yc, yk, yv, yr, sp) →
    ∃ hy, noRedRed (.node yc .nil yk yv yr) = true ∧
      blackHeight (.node yc .nil yk yv yr) = some hy ∧
      pathBH sp hy ∧ pathRR sp ∧ lastBlack sp ∧
      (yc = .red → headBlack sp) ∧ (sp = [] → yc = .black) := by
  intro t
  induction t with
  | nil => intro acc h yc yk yv yr sp _ _ _ _ _ _ _ hd; cases hd
  | node c l k v r ihl _ =>
    intro acc h yc yk yv yr sp hnr hbh hpbh hprr hlast hseam hroot hd
    have hcomp := (noRedRed_node c l k v r).mp hnr
    obtain ⟨a, hbl, hbr, hha⟩ := blackHeight_node_inv c l k v r h hbh
    have hcred : isRed (RBTree.node c l k v r) = true ↔ c = .red := by
      cases c <;> simp [isRed]
    cases l with
    | nil =>
      rw [delMin] at hd
      rw [Option.some.injEq] at hd
      injection hd with h1 hd
      injection hd with h2 hd
      injection hd with h3 hd
      injection hd with h4 h5
      subst h1; subst h2; subst h3; subst h4; subst h5
      refine ⟨h, hnr, hbh, hpbh, hprr, hlast, ?_, ?_⟩
      · intro hc; exact hseam (hcred.mpr hc)
      · intro hacc
        exact black_of_not_isRed _ _ _ _ _ (hroot hacc)
    | node lc ll lk lv lr =>
      rw [show delMin (.node c (.node lc ll lk lv lr) k v r) acc
        = delMin (.node lc ll lk lv lr) (⟨.left, c, k, v, r⟩ :: acc)
        from rfl] at hd
      apply ihl _ a yc yk yv yr sp hcomp.2.1 hbl ?_ ?_ ?_ ?_ ?_ hd
      · exact ⟨hbr, by rw [← hha]; exact hpbh⟩
      · rw [pathRR_cons]
        exact ⟨hcomp.2.2, fun hc => (hcomp.1 hc).2,
          fun hc => hseam (hcred.mpr hc), hprr⟩
      · apply lastBlack_cons _ _ _ hlast
        intro hacc
        exact black_of_not_isRed c _ k v r (hroot hacc)
      · intro hredl
        show c = Color.black
        cases c with
        | red => rw [(hcomp.1 rfl).1] at hredl; cases hredl
        | black => rfl
      · intro hcon; cases hcon

theorem Remove_valid (t : TM) (key : Int) (hrb : rootBlack t.root = true)
    (hnr : noRedRed t.root = true)
    (hbh : (blackHeight t.root).isSome = true) :
    rootBlack (Remove t key).2.root = true ∧
    noRedRed (Remove t key).2.root = true ∧
    (blackHeight (Remove t key).2.root).isSome = true := by
  rw [Remove]
  cases hfp : findPath t.root key [] with
  | none => exact ⟨hrb, hnr, hbh⟩
  | some zp =>
    obtain ⟨z, pz⟩ := zp
    obtain ⟨H, hH⟩ := Option.isSome_iff_exists.mp hbh
    obtain ⟨hz, e1, e2, e3, e4, e5, e6, e7⟩ := findPath_entry t.root key []
      H z pz hnr hH trivial trivial trivial (fun _ => trivial)
      (fun _ => isRed_of_rootBlack _ hrb) hfp
    cases z with
    | nil => exact ⟨hrb, hnr, hbh⟩
    | node zc zl zk zv zr =>
      dsimp only
      have hzcomp := (noRedRed_node _ _ _ _ _).mp e1
      obtain ⟨a, hbzl, hbzr, hhz⟩ := blackHeight_node_inv zc zl zk zv zr hz e2
      have hzcred : isRed (RBTree.node zc zl zk zv zr) = true ↔ zc = .red := by
        cases zc <;> simp [isRed]
      by_cases hzl : zl = RBTree.nil
      · rw [if_pos hzl]
        dsimp only
        subst hzl
        have ha0 : a = 0 := by
          rw [show blackHeight RBTree.nil = some 0 from rfl,
            Option.some.injEq] at hbzl
          omega
        subst ha0
        by_cases hc : zc = Color.black
        · rw [if_pos hc]
          have hhz1 : hz = 0 + 1 := by
            rw [hc] at hhz; simp [colBH] at hhz; omega
          rw [hhz1] at e3
          exact fixDeleteGo_valid _ _ _ 0 (Or.inl (le_refl _))
            (noRedRed_blacken _ hzcomp.2.2) hbzr e3 e4 e5
        · rw [if_neg hc]
          have hzcr : zc = Color.red := by
            cases zc
            · rfl
            · exact absurd rfl hc
          have hzrb : isRed zr = false := (hzcomp.1 hzcr).2
          have hhz0 : hz = 0 := by
            rw [hzcr] at hhz; simp [colBH] at hhz; omega
          refine ⟨?_, ?_, ?_⟩
          · exact rootBlack_plug _ _ e5 (fun _ => rootBlack_of_not_red zr hzrb)
          · apply plug_nrr _ _ hzcomp.2.2 e4
            intro hr; rw [hzrb] at hr; cases hr
          · rw [plug_bh _ _ 0 hbzr (by rw [hhz0] at e3; exact e3)]; rfl
      · rw [if_neg hzl]
        by_cases hzr : zr = RBTree.nil
        · rw [if_pos hzr]
          dsimp only
          subst hzr
          have ha0 : a = 0 := by
            rw [show blackHeight RBTree.nil = some 0 from rfl,
              Option.some.injEq] at hbzr
            omega
          subst ha0
          by_cases hc : zc = Color.black
          · rw [if_pos hc]
            have hhz1 : hz = 0 + 1 := by
              rw [hc] at hhz; simp [colBH] at hhz; omega
            rw [hhz1] at e3
            exact fixDeleteGo_valid _ _ _ 0 (Or.inl (le_refl _))
              (noRedRed_blacken _ hzcomp.2.1) hbzl e3 e4 e5
          · rw [if_neg hc]
            have hzcr : zc = Color.red := by
              cases zc
              · rfl
              · exact absurd rfl hc
            have hzlb : isRed zl = false := (hzcomp.1 hzcr).1
            have hhz0 : hz = 0 := by
              rw [hzcr] at hhz; simp [colBH] at hhz; omega
            refine ⟨?_, ?_, ?_⟩
            · exact rootBlack_plug _ _ e5
                (fun _ => rootBlack_of_not_red zl hzlb)
            · apply plug_nrr _ _ hzcomp.2.1 e4
              intro hr; rw [hzlb] at hr; cases hr
            · rw [plug_bh _ _ 0 hbzl (by rw [hhz0] at e3; exact e3)]; rfl
        · rw [if_neg hzr]
          obtain ⟨yc, yk, yv, yr, sp, hdm⟩ := delMin_some zr [] hzr
          rw [hdm]
          dsimp only
          have hdm2 : delMin zr (⟨Dir.right, zc, yk, yv, zl⟩ :: pz)
              = some (yc, yk, yv, yr,
                  sp ++ ⟨Dir.right, zc, yk, yv, zl⟩ :: pz) := by
            have hsh := delMin_shift zr [] yc yk yv yr sp hdm
              (⟨Dir.right, zc, yk, yv, zl⟩ :: pz)
            simpa using hsh
          rw [hhz] at e3
          have hprrZ : pathRR (⟨Dir.right, zc, yk, yv, zl⟩ :: pz) := by
            rw [pathRR_cons]
            exact ⟨hzcomp.2.1, fun hc => (hzcomp.1 hc).1,
              fun hc => e6 (hzcred.mpr hc), e4⟩
          have hlastZ : lastBlack (⟨Dir.right, zc, yk, yv, zl⟩ :: pz) := by
            apply lastBlack_cons _ _ _ e5
            intro hpz
            exact black_of_not_isRed _ _ _ _ _ (e7 hpz)
          have hseamZ : isRed zr = true →
              headBlack (⟨Dir.right, zc, yk, yv, zl⟩ :: pz) := by
            intro hred
            show zc = Color.black
            cases zc with
            | red => rw [(hzcomp.1 rfl).2] at hred; cases hred
            | black => rfl
          obtain ⟨hy, f1, f2, f3, f4, f5, f6, f7⟩ := delMin_entry zr
            (⟨Dir.right, zc, yk, yv, zl⟩ :: pz) a yc yk yv yr
            (sp ++ ⟨Dir.right, zc, yk, yv, zl⟩ :: pz)
            hzcomp.2.2 hbzr ⟨hbzl, e3⟩ hprrZ hlastZ hseamZ
            (fun hcon => by cases hcon) hdm2
          have hycomp := (noRedRed_node _ _ _ _ _).mp f1
          obtain ⟨ay, hbynil, hbyr, hhy⟩ :=
            blackHeight_node_inv yc RBTree.nil yk yv yr hy f2
          have hay0 : ay = 0 := by
            rw [show blackHeight RBTree.nil = some 0 from rfl,
              Option.some.injEq] at hbynil
            omega
          subst hay0
          by_cases hyc : yc = Color.black
          · rw [if_pos hyc]
            have hhy1 : hy = 0 + 1 := by
              rw [hyc] at hhy; simp [colBH] at hhy; omega
            rw [hhy1] at f3
            exact fixDeleteGo_valid _ _ _ 0 (Or.inl (le_refl _))
              (noRedRed_blacken _ hycomp.2.2) hbyr f3 f4 f5
          · rw [if_neg hyc]
            have hycr : yc = Color.red := by
              cases yc
              · rfl
              · exact absurd rfl hyc
            have hyrb : isRed yr = false := (hycomp.1 hycr).2
            have hhy0 : hy = 0 := by
              rw [hycr] at hhy; simp [colBH] at hhy; omega
            refine ⟨?_, ?_, ?_⟩
            · exact rootBlack_plug _ _ f5
                (fun _ => rootBlack_of_not_red yr hyrb)
            · apply plug_nrr _ _ hycomp.2.2 f4
              intro hr; rw [hyrb] at hr; cases hr
            · rw [plug_bh _ _ 0 hbyr (by rw [hhy0] at f3; exact f3)]; rfl

theorem validRB_Put (t : TM) (k v : Int) (h : validRB t.root) :
    validRB (Put t k v).root := by
  obtain ⟨h1, h2, h3, h4⟩ := h
  obtain ⟨g1, g2, g3⟩ := Put_valid t k v h1 h2 h3
  refine ⟨g1, g2, g3, ?_⟩
  rw [sortedB_iff, ← bstP_iff]
  exact Put_bstP t k v ((bstP_iff _).mpr ((sortedB_iff _).mp h4))

theorem validRB_Remove (t : TM) (k : Int) (h : validRB t.root) :
    validRB (Remove t k).2.root := by
  obtain ⟨h1, h2, h3, h4⟩ := h
  obtain ⟨g1, g2, g3⟩ := Remove_valid t k h1 h2 h3
  refine ⟨g1, g2, g3, ?_⟩
  rw [sortedB_iff, ← bstP_iff]
  exact Remove_bstP t k ((bstP_iff _).mpr ((sortedB_iff _).mp h4))

theorem validRB_foldl : ∀ (ops : List MapOp) (t : TM), validRB t.root →
    validRB (ops.foldl applyMapOp t).root := by
  intro ops
  induction ops with
  | nil => intro t h; exact h
  | cons op rest ih =>
    intro t h
    rw [List.foldl_cons]
    apply ih
    cases op with
    | put k v => exact validRB_Put t k v h
    | remove k => exact validRB_Remove t k h

theorem runMap_validRB (ops : List MapOp) : validRB (runMap ops).root :=
  validRB_foldl ops NewTreeMap ⟨rfl, rfl, rfl, rfl⟩

end TreeMap

/- ---------------------------------------------------------------------
Heap claims.
--------------------------------------------------------------------- -/

/-- C2 counterexample: the claim quantifies over *every* comparator `cmp`,
but with the comparator that always returns `true` the heap property is
already violated after `Add 1; Add 2` on an empty heap: the child `1` at
index 1 "outranks" (under that `cmp`) its parent `2` at index 0. -/
theorem C2_counterexample :
    BinaryHeap.heapPropB (fun _ _ => true)
      (BinaryHeap.runHeap (fun _ _ => true) (0 : Int) [.add 1, .add 2])
      = false := by decide

/-- C2 (amended): for every comparator `cmp` that is a strict weak
ordering — asymmetric and negatively transitive, as the spec's edge-case
policy requires — and every finite sequence of `Add`/`Poll` calls applied
to an initially empty `BinaryHeap`, the heap property holds after the
last call: for every index `k` whose child index (`2k+1` or `2k+2`) is
within bounds, `cmp (child, items[k])` is false. -/
theorem C2_heap_validity {α : Type} (cmp : α → α → Bool) (zero : α)
    (hA : Asymm cmp) (hN : NegTrans cmp) (ops : List (BinaryHeap.HeapOp α)) :
    BinaryHeap.heapPropB cmp (BinaryHeap.runHeap cmp zero ops) = true :=
  (BinaryHeap.heapPropB_iff cmp _).mpr
    (BinaryHeap.runHeap_heapProp hA hN zero ops)

theorem C2_heap_validity_witness :
    BinaryHeap.heapPropB natGT
      (BinaryHeap.runHeap natGT 0 [.add 10, .add 5, .poll, .add 30]) = true :=
  C2_heap_validity natGT 0 natGT_asymm natGT_negTrans
    [.add 10, .add 5, .poll, .add 30]

/-- C3: `Peek` and `Poll` on an empty heap return an error value and
leave the state unchanged (`Size` still 0) for the comparator-based
`BinaryHeap` of `priorityqueue.go`, for every element type; the legacy
`binaryHeap` of `binary_heap.go` does the same only when the sentinel
type-assertion `i.(T)` succeeds (element type int) — when it fails
(every other element type, modelled by `sentinel = none`) the call
panics instead of returning an error, contradicting the claim. -/
theorem C3_empty_peek_poll {α : Type} (cmp lt : α → α → Bool)
    (zero s : α) :
    BinaryHeap.Peek zero ([] : List α) = .fail zero "heap empty" ∧
    BinaryHeap.Poll cmp zero ([] : List α) = (.fail zero "heap empty", []) ∧
    BinaryHeap.Size ([] : List α) = 0 ∧
    LegacyHeap.Peek (some s) ([] : List α) = .fail s "heap empty" ∧
    LegacyHeap.Poll lt (some s) ([] : List α) = (.fail s "heap empty", []) ∧
    LegacyHeap.Peek (none : Option α) ([] : List α)
      = .panicked "interface conversion: interface is int, not T" ∧
    LegacyHeap.Poll lt (none : Option α) ([] : List α)
      = (.panicked "interface conversion: interface is int, not T", []) :=
  ⟨rfl, rfl, rfl, rfl, rfl, rfl, rfl⟩

/-- C5: (general part) for every heap state satisfying the heap property
under a strict comparator (strict weak ordering: asymmetric and
negatively transitive — the default natural-order comparator `a > b` is
one), the sequence obtained by repeatedly calling `Poll` until the heap
is empty is ordered: for every pair of consecutive results `a` (earlier)
and `b` (later), `cmp b a` is false.  (Concrete part) for the
natural-order max-heap after adding `[10,5,30,20,40,35,15]`, `Peek`
returns 40, `Poll` returns 40, and the next `Peek` returns 35. -/
theorem C5_extraction_order :
    (∀ (α : Type) (cmp : α → α → Bool) (zero : α) (data : List α),
      Asymm cmp → NegTrans cmp → BinaryHeap.heapPropB cmp data = true →
      List.Chain' (fun a b => cmp b a = false)
        (BinaryHeap.pollSeq cmp zero data)) ∧
    BinaryHeap.Peek (0 : Int) demoHeap = .ok 40 ∧
    (BinaryHeap.Poll natGT 0 demoHeap).1 = .ok 40 ∧
    BinaryHeap.Peek (0 : Int) (BinaryHeap.Poll natGT 0 demoHeap).2 = .ok 35 := by
  refine ⟨?_, by decide, by decide, by decide⟩
  intro α cmp zero data hA hN hp
  exact BinaryHeap.pollSeq_chain hA hN zero data.length data rfl
    ((BinaryHeap.heapPropB_iff cmp data).mp hp)

theorem C5_extraction_order_witness :
    List.Chain' (fun a b => natGT b a = false)
      (BinaryHeap.pollSeq natGT 0 demoHeap) :=
  C5_extraction_order.1 Int natGT 0 demoHeap natGT_asymm natGT_negTrans
    (by decide)

/-- C6: `Sort` is non-destructive — it operates on a copy, so the heap
state after `Sort` is the state before it (in particular `Size` and
`Peek` are unchanged and the backing sequence is identical), calling
`Sort` twice yields identical sequences, and the returned sequence
contains exactly the current elements (it is a permutation of the
backing slice, in extraction order `pollSeq`). -/
theorem C6_sort_nondestructive {α : Type} (cmp : α → α → Bool) (zero : α)
    (data : List α) :
    (BinaryHeap.sortGo cmp zero data).2 = data ∧
    BinaryHeap.Size (BinaryHeap.sortGo cmp zero data).2
      = BinaryHeap.Size data ∧
    BinaryHeap.Peek zero (BinaryHeap.sortGo cmp zero data).2
      = BinaryHeap.Peek zero data ∧
    (BinaryHeap.sortGo cmp zero
        ((BinaryHeap.sortGo cmp zero data).2)).1
      = (BinaryHeap.sortGo cmp zero data).1 ∧
    (BinaryHeap.sortGo cmp zero data).1 = BinaryHeap.pollSeq cmp zero data ∧
    (BinaryHeap.sortGo cmp zero data).1.Perm data :=
  ⟨rfl, rfl, rfl, rfl, rfl,
    BinaryHeap.pollSeq_perm cmp zero data.length data rfl⟩

/- ---------------------------------------------------------------------
TreeMap claims.

The hypotheses `bstP t.root` / `rootBlack t.root = true` say that `t` is
a well-formed map state (they hold of every state reachable by
`Put`/`Remove` from `NewTreeMap()`).
--------------------------------------------------------------------- -/

/-- C4: `Put(k, v)` on a key already present overwrites the stored value
(`Get(k)` then returns `(v, true)`), leaves the tree shape, colors and
key set unchanged (`shapeColor`, which erases only values, is preserved)
and leaves `Size()` unchanged; `Put` with an absent key makes `Get(k)`
return `(v, true)` and increases `Size()` by exactly one. -/
theorem C4_put_overwrite (t : TreeMap.TM) (k v : Int)
    (h : TreeMap.bstP t.root) (hroot : TreeMap.rootBlack t.root = true) :
    (TreeMap.ContainsKey t k = true →
      TreeMap.Get (TreeMap.Put t k v) k = (v, true) ∧
      TreeMap.shapeColor (TreeMap.Put t k v).root
        = TreeMap.shapeColor t.root ∧
      TreeMap.Size (TreeMap.Put t k v) = TreeMap.Size t) ∧
    (TreeMap.ContainsKey t k = false →
      TreeMap.Get (TreeMap.Put t k v) k = (v, true) ∧
      TreeMap.Size (TreeMap.Put t k v) = TreeMap.Size t + 1) := by
  constructor
  · intro hc
    exact ⟨TreeMap.Get_after_Put t k v h,
      TreeMap.Put_dup_shape t k v h hroot hc,
      TreeMap.Put_size_existing t k v h hc⟩
  · intro hc
    exact ⟨TreeMap.Get_after_Put t k v h, TreeMap.Put_size_new t k v h hc⟩

theorem C4_put_overwrite_witness :
    (TreeMap.Get (TreeMap.Put TreeMap.demoT 10 99) 10 = (99, true) ∧
     TreeMap.shapeColor (TreeMap.Put TreeMap.demoT 10 99).root
       = TreeMap.shapeColor TreeMap.demoT.root ∧
     TreeMap.Size (TreeMap.Put TreeMap.demoT 10 99)
       = TreeMap.Size TreeMap.demoT) ∧
    (TreeMap.Get (TreeMap.Put TreeMap.demoT 99 7) 99 = (7, true) ∧
     TreeMap.Size (TreeMap.Put TreeMap.demoT 99 7)
       = TreeMap.Size TreeMap.demoT + 1) :=
  ⟨(C4_put_overwrite TreeMap.demoT 10 99 TreeMap.demoT_bst (by decide)).1
      (by decide),
   (C4_put_overwrite TreeMap.demoT 99 7 TreeMap.demoT_bst (by decide)).2
      (by decide)⟩

/-- C7: `CeilingKey(x)` returns `(k, true)` for the smallest stored key
`k ≥ x` when one exists and `(0, false)` when every stored key is `< x`;
`FloorKey(x)` symmetrically returns the largest stored key `≤ x` or
`(0, false)`; and on the map built from keys 10,5,30,20,40,35,15,
`CeilingKey(25) = (30, true)` and `FloorKey(25) = (20, true)`. -/
theorem C7_ceiling_floor (t : TreeMap.TM) (x : Int)
    (h : TreeMap.bstP t.root) :
    ((∃ k ∈ TreeMap.Keys t, x ≤ k) →
      ∃ k, TreeMap.CeilingKey t x = (k, true) ∧ k ∈ TreeMap.Keys t ∧
        x ≤ k ∧ ∀ k2 ∈ TreeMap.Keys t, x ≤ k2 → k ≤ k2) ∧
    ((∀ k ∈ TreeMap.Keys t, k < x) →
      TreeMap.CeilingKey t x = (0, false)) ∧
    ((∃ k ∈ TreeMap.Keys t, k ≤ x) →
      ∃ k, TreeMap.FloorKey t x = (k, true) ∧ k ∈ TreeMap.Keys t ∧
        k ≤ x ∧ ∀ k2 ∈ TreeMap.Keys t, k2 ≤ x → k2 ≤ k) ∧
    ((∀ k ∈ TreeMap.Keys t, x < k) →
      TreeMap.FloorKey t x = (0, false)) ∧
    TreeMap.CeilingKey TreeMap.demoT 25 = (30, true) ∧
    TreeMap.FloorKey TreeMap.demoT 25 = (20, true) := by
  refine ⟨?_, ?_, ?_, ?_, by decide, by decide⟩
  · intro hex
    obtain ⟨k, hres, hmem, hxk, hmin, _⟩ :=
      TreeMap.ceilingLoop_found t.root x none h
        (fun ck hck => Option.noConfusion hck) hex
    exact ⟨k, hres, hmem, hxk, hmin⟩
  · intro hall
    exact TreeMap.ceilingLoop_all_lt t.root x none hall
  · intro hex
    obtain ⟨k, hres, hmem, hxk, hmin, _⟩ :=
      TreeMap.floorLoop_found t.root x none h
        (fun ck hck => Option.noConfusion hck) hex
    exact ⟨k, hres, hmem, hxk, hmin⟩
  · intro hall
    exact TreeMap.floorLoop_all_gt t.root x none hall

theorem C7_ceiling_floor_witness :
    TreeMap.CeilingKey TreeMap.demoT 25 = (30, true) ∧
    TreeMap.FloorKey TreeMap.demoT 25 = (20, true) :=
  ⟨(C7_ceiling_floor TreeMap.demoT 25 TreeMap.demoT_bst).2.2.2.2.1,
   (C7_ceiling_floor TreeMap.demoT 25 TreeMap.demoT_bst).2.2.2.2.2⟩

/-- C8: round-trip — after `Put(k, v)`, `Get(k)` returns `(v, true)`;
and when `k` is present, `Remove(k)` reports `found = true` and a
subsequent `Get(k)` returns `(0, false)` (the key stays absent until it
is put again; the first conjunct shows a later `Put` restores it). -/
theorem C8_roundtrip (t : TreeMap.TM) (k v : Int)
    (h : TreeMap.bstP t.root) :
    TreeMap.Get (TreeMap.Put t k v) k = (v, true) ∧
    (TreeMap.ContainsKey t k = true →
      (TreeMap.Remove t k).1.2 = true ∧
      TreeMap.Get (TreeMap.Remove t k).2 k = (0, false)) := by
  refine ⟨TreeMap.Get_after_Put t k v h, ?_⟩
  intro hc
  have hmem : k ∈ TreeMap.inorderKeys t.root := by
    by_contra hnot
    rw [TreeMap.ContainsKey, TreeMap.Get,
      TreeMap.getLoop_notfound t.root k hnot] at hc
    cases hc
  exact ⟨(TreeMap.Remove_found_spec t k h hmem).1,
    TreeMap.Get_after_Remove t k h hmem⟩

theorem C8_roundtrip_witness :
    TreeMap.Get (TreeMap.Put TreeMap.demoT 20 99) 20 = (99, true) ∧
    ((TreeMap.Remove TreeMap.demoT 20).1.2 = true ∧
     TreeMap.Get (TreeMap.Remove TreeMap.demoT 20).2 20 = (0, false)) :=
  ⟨(C8_roundtrip TreeMap.demoT 20 99 TreeMap.demoT_bst).1,
   (C8_roundtrip TreeMap.demoT 20 99 TreeMap.demoT_bst).2 (by decide)⟩

/-- C9: on the empty map, `Min`/`Max` return the zero pair `(0, 0)` with
no failure indicator (and, being total functions of the model, do not
panic) while `FirstKey`/`LastKey` return `(0, false)`; on a non-empty
map, `FirstKey` and `Min` yield the smallest stored key and `LastKey`
and `Max` the largest. -/
theorem C9_min_max (t : TreeMap.TM) (h : TreeMap.bstP t.root) :
    (t.root = .nil →
      TreeMap.Min t = (0, 0) ∧ TreeMap.Max t = (0, 0) ∧
      TreeMap.FirstKey t = (0, false) ∧ TreeMap.LastKey t = (0, false)) ∧
    (t.root ≠ .nil →
      (∃ k, TreeMap.FirstKey t = (k, true) ∧ (TreeMap.Min t).1 = k ∧
        k ∈ TreeMap.Keys t ∧ ∀ k2 ∈ TreeMap.Keys t, k ≤ k2) ∧
      (∃ k, TreeMap.LastKey t = (k, true) ∧ (TreeMap.Max t).1 = k ∧
        k ∈ TreeMap.Keys t ∧ ∀ k2 ∈ TreeMap.Keys t, k2 ≤ k)) := by
  constructor
  · intro hnil
    rw [TreeMap.Min, TreeMap.Max, TreeMap.FirstKey, TreeMap.LastKey, hnil]
    exact ⟨rfl, rfl, rfl, rfl⟩
  · intro hne
    exact ⟨TreeMap.FirstKey_min t h hne, TreeMap.LastKey_max t h hne⟩

theorem C9_min_max_witness :
    (TreeMap.Min TreeMap.NewTreeMap = (0, 0) ∧
     TreeMap.Max TreeMap.NewTreeMap = (0, 0) ∧
     TreeMap.FirstKey TreeMap.NewTreeMap = (0, false) ∧
     TreeMap.LastKey TreeMap.NewTreeMap = (0, false)) ∧
    (∃ k, TreeMap.FirstKey TreeMap.demoT = (k, true) ∧
      (TreeMap.Min TreeMap.demoT).1 = k ∧ k ∈ TreeMap.Keys TreeMap.demoT ∧
      ∀ k2 ∈ TreeMap.Keys TreeMap.demoT, k ≤ k2) :=
  ⟨(C9_min_max TreeMap.NewTreeMap trivial).1 rfl,
   ((C9_min_max TreeMap.demoT TreeMap.demoT_bst).2 (by decide)).1⟩

/-- C10: removing an absent key is a strict no-op — `Remove(k)` returns
`(0, false)` and the map value (root tree with all its structure, colors
and key/value pairs, and the size field) is exactly the input state. -/
theorem C10_remove_absent (t : TreeMap.TM) (k : Int)
    (h : TreeMap.bstP t.root) (hc : TreeMap.ContainsKey t k = false) :
    TreeMap.Remove t k = ((0, false), t) :=
  TreeMap.Remove_notfound t k h hc

theorem C10_remove_absent_witness :
    TreeMap.Remove TreeMap.demoT 99 = ((0, false), TreeMap.demoT) :=
  C10_remove_absent TreeMap.demoT 99 TreeMap.demoT_bst (by decide)

/-- C1: after every finite sequence of `Put`/`Remove` calls on
`NewTreeMap()`, the resulting tree satisfies red-black validity — the
root is black, no red node has a red child, the black-height is uniform
across all root-to-nil paths, and `Keys()` is strictly ascending (hence
duplicate-free). -/
theorem C1_rb_validity (ops : List TreeMap.MapOp) :
    TreeMap.validRB (TreeMap.runMap ops).root ∧
    TreeMap.sortedB (TreeMap.Keys (TreeMap.runMap ops)) = true :=
  ⟨TreeMap.runMap_validRB ops, (TreeMap.runMap_validRB ops).2.2.2⟩

end Ryushin

